import Mathlib

/-!
# Verification of the go-graph library against its specification

This file gives a shallow embedding, in Lean 4, of the `go-graph` package
(generic graph store plus BFS / pre- and post-order DFS / Dijkstra /
shortest-path / topological-sort traversals with a visitor protocol), and
proves or refutes the specification claims about it.

Modelling conventions, used consistently below:

* Go `map` values are modelled as association lists (`List (key × value)`)
  with unique keys; iteration order of a Go map is unspecified, the model
  fixes insertion order (each theorem that depends on it says so).
* Go `float64` distances and weights are modelled as rationals, with
  `math.Inf(1)` as `⊤` of `WithTop ℚ`.  All values appearing in the claims
  are small integers, for which binary floating point arithmetic is exact,
  so the two agree on every computation performed here.
* Go pointers to vertices stored in the graph are modelled by the vertex
  key: every `*Vertex` the library manipulates is an entry of the graph's
  own vertex map, so dereferencing is a map lookup.  (A separate heap model
  with explicit addresses is used for the `Clone` claim, where pointer
  identity itself is the property at stake.)
* A nil-pointer dereference or an out-of-range slice index (a Go runtime
  panic) is modelled by `Option`/a `panicked` error result.  Lookups that
  the Go code performs on keys guaranteed present are modelled as skipping
  the missing entry; such states are unreachable for well-formed graphs
  (`WFGraph` below) and every theorem that needs it assumes well-formedness.
* The visitor (`WalkFunc`) returns `nil` / `ErrStopWalking` / another
  error; this three-way outcome is the type `Decision`.  A walk returns its
  outcome together with the list of vertex records passed to the visitor,
  in order, and the final graph state.
-/

namespace GoGraph

/-- The color with which a vertex is painted (graph.go `Color`). -/
inductive Color where
  | White
  | Gray
  | Black
deriving DecidableEq, Repr

/-- The kind of the graph (graph.go `GraphKind`). -/
inductive GraphKind where
  | KindDirected
  | KindUndirected
deriving DecidableEq, Repr

/-- Number of incoming and outgoing edges of a vertex (graph.go `Degree`). -/
structure Degree where
  In : Int
  Out : Int
deriving DecidableEq, Repr

/-- Distances: Go `float64` with `math.Inf(1)`, modelled as `WithTop ℚ`. -/
abbrev EDist := WithTop ℚ

/-- Attribute bag (graph.go `DotAttributes`, a `map[string]string`). -/
abbrev DotAttributes := List (String × String)

/-- A vertex record (graph.go `Vertex[T]`).  The Go field `Parent *Vertex[T]`
is modelled as the parent's key: the library only ever points `Parent` at a
vertex stored in the same graph's vertex map. -/
structure Vertex (T : Type) where
  value : T
  color : Color
  distanceFromSource : EDist
  parent : Option T
  dotAttributes : DotAttributes
  degree : Degree
deriving DecidableEq, Repr

/-- graph.go `NewVertex`. -/
def NewVertex {T : Type} (value : T) : Vertex T :=
  { value := value
    color := .White
    distanceFromSource := 0
    parent := none
    dotAttributes := []
    degree := { In := 0, Out := 0 } }

/-- An edge record (graph.go `Edge[T]`). -/
structure Edge (T : Type) where
  From : T
  To : T
  Weight : ℚ
  dotAttributes : DotAttributes
deriving DecidableEq, Repr

/-- graph.go `NewEdge`. -/
def NewEdge {T : Type} (f t : T) : Edge T :=
  { From := f, To := t, Weight := 0, dotAttributes := [] }

/-- The graph store (graph.go `UndirectedGraph` / `DirectedGraph`).  The Go
code implements the directed variant by overriding four methods of the
undirected struct; the model merges the two, dispatching on `kind` exactly
where the Go method set dispatches dynamically. -/
structure Graph (T : Type) where
  vertices : List (T × Vertex T)
  edges : List (Edge T)
  adjacencyLists : List (T × List T)
  kind : GraphKind
deriving DecidableEq, Repr

/-- graph.go `New`. -/
def New {T : Type} (kind : GraphKind) : Graph T :=
  { vertices := [], edges := [], adjacencyLists := [], kind := kind }

section AssocList

variable {T : Type} [DecidableEq T] {α : Type}

/-- Lookup in an association list modelling a Go map (unique keys). -/
def alookup : List (T × α) → T → Option α
  | [], _ => none
  | (k2, v) :: rest, k => if k = k2 then some v else alookup rest k

/-- Modify the entry for `k` in place; no-op when absent (models an update
through a pointer previously obtained from the map). -/
def amodify : List (T × α) → T → (α → α) → List (T × α)
  | [], _, _ => []
  | (k2, v) :: rest, k, f =>
    if k = k2 then (k2, f v) :: rest else (k2, v) :: amodify rest k f

/-- Store `v` under `k`: overwrite in place if present, else append (Go
`m[k] = v`). -/
def astore : List (T × α) → T → α → List (T × α)
  | [], k, v => [(k, v)]
  | (k2, v2) :: rest, k, v =>
    if k = k2 then (k2, v) :: rest else (k2, v2) :: astore rest k v

@[simp] theorem alookup_nil (k : T) : alookup ([] : List (T × α)) k = none := rfl

theorem alookup_cons (k2 : T) (v : α) (rest : List (T × α)) (k : T) :
    alookup ((k2, v) :: rest) k = if k = k2 then some v else alookup rest k := rfl

end AssocList

section StoreOps

variable {T : Type} [DecidableEq T]

/-- graph.go `GetVertex` (`nil` when absent is `none`). -/
def GetVertex (g : Graph T) (value : T) : Option (Vertex T) :=
  alookup g.vertices value

/-- graph.go `VertexExists`. -/
def VertexExists (g : Graph T) (value : T) : Bool :=
  (GetVertex g value).isSome

/-- graph.go `GetVertices` (map iteration modelled in insertion order). -/
def GetVertices (g : Graph T) : List (Vertex T) :=
  g.vertices.map (·.2)

/-- graph.go `GetVertexValues`. -/
def GetVertexValues (g : Graph T) : List T :=
  g.vertices.map (·.1)

/-- graph.go `GetEdges`. -/
def GetEdges (g : Graph T) : List (Edge T) :=
  g.edges

/-- graph.go `GetNeighbours` (a missing adjacency entry is Go's nil slice). -/
def GetNeighbours (g : Graph T) (v : T) : List T :=
  (alookup g.adjacencyLists v).getD []

/-- graph.go `GetNeighbourVertices`.  The Go code builds `[]*Vertex` via
`GetVertex`; a key absent from the vertex map would put a nil pointer in
the Go slice and crash at first use, which never happens on well-formed
graphs; the model skips such keys. -/
def GetNeighbourVertices (g : Graph T) (v : T) : List (Vertex T) :=
  (GetNeighbours g v).filterMap (GetVertex g)

/-- graph.go `AddVertex`: no-op returning the existing record when present. -/
def AddVertex (g : Graph T) (value : T) : Graph T × Vertex T :=
  match GetVertex g value with
  | some v => (g, v)
  | none =>
    let vertex := NewVertex value
    ({ g with vertices := g.vertices ++ [(value, vertex)] }, vertex)

/-- Edge matching: the undirected variant (graph.go `UndirectedGraph.GetEdge`)
matches either endpoint order, the directed override
(`DirectedGraph.GetEdge`) matches exactly. -/
def edgeMatches (kind : GraphKind) (e : Edge T) (f t : T) : Bool :=
  match kind with
  | .KindUndirected => (e.From = f ∧ e.To = t) ∨ (e.From = t ∧ e.To = f)
  | .KindDirected => e.From = f ∧ e.To = t

/-- graph.go `GetEdge` (both variants, via `edgeMatches`). -/
def GetEdge (g : Graph T) (f t : T) : Option (Edge T) :=
  g.edges.find? (fun e => edgeMatches g.kind e f t)

/-- graph.go `EdgeExists`. -/
def EdgeExists (g : Graph T) (f t : T) : Bool :=
  (GetEdge g f t).isSome

/-- `g.adjacencyLists[a] = append(g.adjacencyLists[a], b)`. -/
def adjAppend (g : Graph T) (a b : T) : Graph T :=
  { g with adjacencyLists :=
      astore g.adjacencyLists a ((alookup g.adjacencyLists a).getD [] ++ [b]) }

/-- Update the vertex record stored under `k` (a Go field assignment through
a `*Vertex` obtained from the vertex map). -/
def updateVertexF (g : Graph T) (k : T) (f : Vertex T → Vertex T) : Graph T :=
  { g with vertices := amodify g.vertices k f }

/-- graph.go `AddEdge` (both variants; degree and adjacency updates dispatch
on the kind exactly as the two Go methods do).  Returns the graph and the
edge the Go function returns; `none` is unreachable (the Go pointer is
always non-nil). -/
def AddEdge (g : Graph T) (f t : T) : Graph T × Option (Edge T) :=
  if EdgeExists g f t then (g, GetEdge g f t)
  else
    let g1 := (AddVertex g f).1
    let g2 := (AddVertex g1 t).1
    let e := NewEdge f t
    let g3 := { g2 with edges := g2.edges ++ [e] }
    match g.kind with
    | .KindUndirected =>
      let g4 := adjAppend (adjAppend g3 f t) t f
      let g5 := updateVertexF g4 f (fun v =>
        { v with degree := { In := v.degree.In + 1, Out := v.degree.Out + 1 } })
      let g6 := updateVertexF g5 t (fun v =>
        { v with degree := { In := v.degree.In + 1, Out := v.degree.Out + 1 } })
      (g6, some e)
    | .KindDirected =>
      let g4 := adjAppend g3 f t
      let g5 := updateVertexF g4 f (fun v =>
        { v with degree := { v.degree with Out := v.degree.Out + 1 } })
      let g6 := updateVertexF g5 t (fun v =>
        { v with degree := { v.degree with In := v.degree.In + 1 } })
      (g6, some e)

/-- Apply `f` to the first element satisfying `p` (used to model a mutation
through a pointer to an element of a Go slice). -/
def updateFirst {α : Type} (p : α → Bool) (f : α → α) : List α → List α
  | [] => []
  | x :: rest => if p x then f x :: rest else x :: updateFirst p f rest

theorem updateFirst_length {α : Type} (p : α → Bool) (f : α → α)
    (l : List α) : (updateFirst p f l).length = l.length := by
  induction l with
  | nil => rfl
  | cons x rest ih => simp only [updateFirst]; split <;> simp [ih]

/-- `UndirectedGraph.GetEdge` as invoked *statically*: Go method promotion
is not virtual, so a promoted `UndirectedGraph` method calling `g.GetEdge`
always runs this symmetric version, even when the receiver is the struct
embedded in a `DirectedGraph`. -/
def uGetEdge (g : Graph T) (f t : T) : Option (Edge T) :=
  g.edges.find? (fun e => edgeMatches .KindUndirected e f t)

/-- `UndirectedGraph.EdgeExists` as invoked statically (see `uGetEdge`). -/
def uEdgeExists (g : Graph T) (f t : T) : Bool :=
  (uGetEdge g f t).isSome

/-- `UndirectedGraph.AddEdge` as invoked statically from the promoted
`AddWeightedEdge`: symmetric existence check and undirected degree and
adjacency updates, whatever the graph's kind. -/
def uAddEdge (g : Graph T) (f t : T) : Graph T × Option (Edge T) :=
  if uEdgeExists g f t then (g, uGetEdge g f t)
  else
    let g1 := (AddVertex g f).1
    let g2 := (AddVertex g1 t).1
    let e := NewEdge f t
    let g3 := { g2 with edges := g2.edges ++ [e] }
    let g4 := adjAppend (adjAppend g3 f t) t f
    let g5 := updateVertexF g4 f (fun v =>
      { v with degree := { In := v.degree.In + 1, Out := v.degree.Out + 1 } })
    let g6 := updateVertexF g5 t (fun v =>
      { v with degree := { In := v.degree.In + 1, Out := v.degree.Out + 1 } })
    (g6, some e)

/-- Set the weight of the first edge matching `{f, t}` in either
orientation — the edge object whose pointer the statically bound
undirected `AddEdge` returned (`e.Weight = weight` in Go). -/
def setEdgeWeight (g : Graph T) (f t : T) (w : ℚ) : Graph T :=
  let newEdges :=
    updateFirst (fun e => edgeMatches .KindUndirected e f t)
      (fun e => { e with Weight := w }) g.edges
  { g with edges := newEdges }

/-- graph.go `AddWeightedEdge`: defined only on `UndirectedGraph` and
promoted to `DirectedGraph`, so its inner `g.AddEdge` binds statically to
the symmetric undirected `AddEdge` (`uAddEdge`); then `e.Weight = weight`
is assigned through the returned pointer — also when the edge already
existed, and, on a directed graph holding both orientations, possibly to
the *reverse* stored edge. -/
def AddWeightedEdge (g : Graph T) (f t : T) (w : ℚ) :
    Graph T × Option (Edge T) :=
  let r := uAddEdge g f t
  (setEdgeWeight r.1 f t w, r.2.map (fun e => { e with Weight := w }))

/-- graph.go `ResetVertexAttributes`. -/
def ResetVertexAttributes (g : Graph T) : Graph T :=
  { g with vertices := g.vertices.map (fun kv =>
      (kv.1, { kv.2 with color := .White, distanceFromSource := 0, parent := none })) }

/-- Convenience wrappers returning only the graph. -/
def addEdge (g : Graph T) (f t : T) : Graph T := (AddEdge g f t).1

def addWeightedEdge (g : Graph T) (f t : T) (w : ℚ) : Graph T :=
  (AddWeightedEdge g f t w).1

end StoreOps

/-- Outcome of one visitor call (`WalkFunc` return value): `nil`,
`ErrStopWalking`, or any other error of type `E`. -/
inductive Decision (E : Type) where
  | cont
  | stop
  | fail (e : E)
deriving DecidableEq, Repr

/-- The errors a walk can return.  Each constructor is one of the distinct
error values the Go code creates; `visitorFail e` is an error returned by
the caller's visitor, passed through unmodified; `panicked` models a Go
runtime panic (including non-termination), which no theorem below ever
reaches on the graphs it talks about. -/
inductive WalkErr (E : Type) where
  | sourceNotFound
  | destNotFound
  | noEdgeBetween
  | noPathExists
  | cycleDetected
  | notDirectedGraph
  | visitorFail (e : E)
  | panicked
deriving DecidableEq, Repr

/-- Result of a walk: the returned error (or success), the vertex records
passed to the caller's visitor in order, and the final graph state. -/
instance {ε α : Type} [DecidableEq ε] [DecidableEq α] :
    DecidableEq (Except ε α)
  | .error e1, .error e2 =>
    if h : e1 = e2 then isTrue (by rw [h])
    else isFalse (by intro hh; cases hh; exact h rfl)
  | .error _, .ok _ => isFalse (by intro h; cases h)
  | .ok _, .error _ => isFalse (by intro h; cases h)
  | .ok a1, .ok a2 =>
    if h : a1 = a2 then isTrue (by rw [h])
    else isFalse (by intro hh; cases hh; exact h rfl)

structure WalkRes (T E : Type) where
  result : Except (WalkErr E) Unit
  visited : List (Vertex T)
  graph : Graph T
deriving DecidableEq

section Walks

variable {T E : Type} [DecidableEq T]

/-- `v.Color = c` through a vertex pointer. -/
def Paint (g : Graph T) (k : T) (c : Color) : Graph T :=
  updateVertexF g k (fun v => { v with color := c })

/-- The neighbour loop of bfs.go `WalkBFS`: for each neighbour still White,
paint it Gray, set `distance = v.distance + 1` and `parent = v`, and push
it to the *back* of the queue.  `vkey` is the popped vertex `v`; its
distance is re-read from the current state at each assignment, as the Go
code reads it through the pointer `v`. -/
def bfsScan (vkey : T) : Graph T → List T → List T → Graph T × List T
  | g, [], queue => (g, queue)
  | g, u :: rest, queue =>
    match GetVertex g u with
    | none => bfsScan vkey g rest queue
    | some uv =>
      if uv.color = .White then
        let vd := ((GetVertex g vkey).map (·.distanceFromSource)).getD 0
        let g2 := updateVertexF g u (fun x =>
          { x with color := .Gray, distanceFromSource := vd + 1, parent := some vkey })
        bfsScan vkey g2 rest (queue ++ [u])
      else
        bfsScan vkey g rest queue

/-- The queue loop of bfs.go `WalkBFS`.  The fuel argument only forces
termination; `WalkBFS` supplies enough fuel that the `panicked` branch is
never taken (each loop iteration pops one queue entry and every vertex is
enqueued at most once). -/
def bfsLoop (f : Vertex T → Decision E) : Nat → Graph T → List T → WalkRes T E
  | 0, g, queue =>
    match queue with
    | [] => ⟨.ok (), [], g⟩
    | _ :: _ => ⟨.error .panicked, [], g⟩
  | fuel + 1, g, queue =>
    match queue with
    | [] => ⟨.ok (), [], g⟩
    | vkey :: rest =>
      let s := bfsScan vkey g (GetNeighbours g vkey) rest
      match GetVertex s.1 vkey with
      | none => ⟨.error .panicked, [], s.1⟩
      | some vrec =>
        match f vrec with
        | .stop => ⟨.ok (), [vrec], s.1⟩
        | .fail e => ⟨.error (.visitorFail e), [vrec], s.1⟩
        | .cont =>
          let g2 := Paint s.1 vkey .Black
          let r := bfsLoop f fuel g2 s.2
          ⟨r.result, vrec :: r.visited, r.graph⟩

/-- bfs.go `WalkBFS`. -/
def WalkBFS (g : Graph T) (source : T) (f : Vertex T → Decision E) : WalkRes T E :=
  if VertexExists g source then
    let g0 := ResetVertexAttributes g
    let g1 := Paint g0 source .Gray
    bfsLoop f (g1.vertices.length + 1) g1 [source]
  else ⟨.error .sourceNotFound, [], g⟩

/-- The neighbour loop of dfs.go `WalkPreOrderDFS`: identical to the BFS
one except each discovered neighbour is pushed to the *front* of the
stack. -/
def preDfsScan (vkey : T) : Graph T → List T → List T → Graph T × List T
  | g, [], stack => (g, stack)
  | g, u :: rest, stack =>
    match GetVertex g u with
    | none => preDfsScan vkey g rest stack
    | some uv =>
      if uv.color = .White then
        let vd := ((GetVertex g vkey).map (·.distanceFromSource)).getD 0
        let g2 := updateVertexF g u (fun x =>
          { x with color := .Gray, distanceFromSource := vd + 1, parent := some vkey })
        preDfsScan vkey g2 rest (u :: stack)
      else
        preDfsScan vkey g rest stack

/-- The stack loop of dfs.go `WalkPreOrderDFS`. -/
def preDfsLoop (f : Vertex T → Decision E) : Nat → Graph T → List T → WalkRes T E
  | 0, g, stack =>
    match stack with
    | [] => ⟨.ok (), [], g⟩
    | _ :: _ => ⟨.error .panicked, [], g⟩
  | fuel + 1, g, stack =>
    match stack with
    | [] => ⟨.ok (), [], g⟩
    | vkey :: rest =>
      let s := preDfsScan vkey g (GetNeighbours g vkey) rest
      match GetVertex s.1 vkey with
      | none => ⟨.error .panicked, [], s.1⟩
      | some vrec =>
        match f vrec with
        | .stop => ⟨.ok (), [vrec], s.1⟩
        | .fail e => ⟨.error (.visitorFail e), [vrec], s.1⟩
        | .cont =>
          let g2 := Paint s.1 vkey .Black
          let r := preDfsLoop f fuel g2 s.2
          ⟨r.result, vrec :: r.visited, r.graph⟩

/-- dfs.go `WalkPreOrderDFS`. -/
def WalkPreOrderDFS (g : Graph T) (source : T) (f : Vertex T → Decision E) :
    WalkRes T E :=
  if VertexExists g source then
    let g0 := ResetVertexAttributes g
    let g1 := Paint g0 source .Gray
    preDfsLoop f (g1.vertices.length + 1) g1 [source]
  else ⟨.error .sourceNotFound, [], g⟩

/-- The peek-phase neighbour loop of dfs.go `WalkPostOrderDFS`: the stack
passed in still has the peeked vertex on top; the returned Bool is
`isReady`. -/
def postDfsScan (vkey : T) : Graph T → List T → List T → Bool →
    Graph T × List T × Bool
  | g, [], stack, ready => (g, stack, ready)
  | g, u :: rest, stack, ready =>
    match GetVertex g u with
    | none => postDfsScan vkey g rest stack ready
    | some uv =>
      if uv.color = .White then
        let vd := ((GetVertex g vkey).map (·.distanceFromSource)).getD 0
        let g2 := updateVertexF g u (fun x =>
          { x with color := .Gray, distanceFromSource := vd + 1, parent := some vkey })
        postDfsScan vkey g2 rest (u :: stack) false
      else
        postDfsScan vkey g rest stack ready

/-- The stack loop of dfs.go `WalkPostOrderDFS` (peek, scan neighbours,
pop-and-visit only when no neighbour was still White; the visitor runs
*before* the popped vertex is painted Black, matching the Go order). -/
def postDfsLoop (f : Vertex T → Decision E) : Nat → Graph T → List T → WalkRes T E
  | 0, g, stack =>
    match stack with
    | [] => ⟨.ok (), [], g⟩
    | _ :: _ => ⟨.error .panicked, [], g⟩
  | fuel + 1, g, stack =>
    match stack with
    | [] => ⟨.ok (), [], g⟩
    | vkey :: rest =>
      let s := postDfsScan vkey g (GetNeighbours g vkey) (vkey :: rest) true
      if s.2.2 then
        match GetVertex s.1 vkey with
        | none => ⟨.error .panicked, [], s.1⟩
        | some vrec =>
          match f vrec with
          | .stop => ⟨.ok (), [vrec], s.1⟩
          | .fail e => ⟨.error (.visitorFail e), [vrec], s.1⟩
          | .cont =>
            let g2 := Paint s.1 vkey .Black
            let r := postDfsLoop f fuel g2 rest
            ⟨r.result, vrec :: r.visited, r.graph⟩
      else
        postDfsLoop f fuel s.1 s.2.1

/-- dfs.go `WalkPostOrderDFS`. -/
def WalkPostOrderDFS (g : Graph T) (source : T) (f : Vertex T → Decision E) :
    WalkRes T E :=
  if VertexExists g source then
    let g0 := ResetVertexAttributes g
    let g1 := Paint g0 source .Gray
    postDfsLoop f (2 * g1.vertices.length + 2) g1 [source]
  else ⟨.error .sourceNotFound, [], g⟩

/-- The final loop of dfs.go `WalkUnreachableVertices`: yield every vertex
still White (map iteration modelled in insertion order). -/
def unreachableScan (f : Vertex T → Decision E) (g : Graph T) :
    List (T × Vertex T) → WalkRes T E
  | [] => ⟨.ok (), [], g⟩
  | (_, v) :: rest =>
    if v.color = .White then
      match f v with
      | .stop => ⟨.ok (), [v], g⟩
      | .fail e => ⟨.error (.visitorFail e), [v], g⟩
      | .cont =>
        let r := unreachableScan f g rest
        ⟨r.result, v :: r.visited, r.graph⟩
    else
      unreachableScan f g rest

/-- dfs.go `WalkUnreachableVertices`: a silent pre-order DFS, then yield
every vertex still White. -/
def WalkUnreachableVertices (g : Graph T) (source : T)
    (f : Vertex T → Decision E) : WalkRes T E :=
  let r := WalkPreOrderDFS g source (fun _ => Decision.cont (E := E))
  match r.result with
  | .error err => ⟨.error err, [], r.graph⟩
  | .ok _ => unreachableScan f r.graph r.graph.vertices

/-- dijkstra.go `initializeSourceVertex`: reset attributes, set every
distance to `+∞` and the source distance to `0`.  `none` models the
"Source vertex not found" error (the check happens before any mutation). -/
def initializeSourceVertex (g : Graph T) (source : T) : Option (Graph T) :=
  if VertexExists g source then
    let g1 := { ResetVertexAttributes g with
      vertices := (ResetVertexAttributes g).vertices.map (fun kv =>
        (kv.1, { kv.2 with distanceFromSource := (⊤ : EDist) })) }
    some (updateVertexF g1 source (fun v => { v with distanceFromSource := 0 }))
  else none

/-- dijkstra.go `relaxEdge`: `none` models the "No edge exists between"
error; otherwise compute `alt = fromV.distance + edge.Weight` and improve
`to`'s distance and parent when strictly smaller.  (`⊤ + w = ⊤`, matching
`Inf + w = Inf` in float arithmetic, so a `⊤` source never improves
anything.) -/
def relaxEdge (g : Graph T) (f t : T) : Option (Graph T) :=
  match GetEdge g f t with
  | none => none
  | some edge =>
    match GetVertex g f with
    | none => some g
    | some fromV =>
      let alt : EDist := fromV.distanceFromSource + (edge.Weight : ℚ)
      some (updateVertexF g t (fun toV =>
        if alt < toV.distanceFromSource then
          { toV with distanceFromSource := alt, parent := some f }
        else toV))

/-- The go-priorityqueue collaborator, modelled as a list of
(vertex key, priority) pairs: `Put` appends, `Get` removes a minimum
(leftmost on ties; ties never matter in the theorems below), `Update`
re-keys the entry of the given vertex. -/
abbrev PQueue (T : Type) := List (T × EDist)

/-- Extract a minimum-priority entry, returning it and the remaining queue
in their original order. -/
def pqPopMin : PQueue T → Option ((T × EDist) × PQueue T)
  | [] => none
  | x :: rest =>
    match pqPopMin rest with
    | none => some (x, [])
    | some (m, others) =>
      if x.2 ≤ m.2 then some (x, rest) else some (m, x :: others)

/-- Re-key the entry of vertex `k` (no-op when `k` is not enqueued). -/
def pqUpdate (q : PQueue T) (k : T) (p : EDist) : PQueue T :=
  updateFirst (fun x => x.1 = k) (fun x => (x.1, p)) q

/-- The relaxation loop of dijkstra.go `WalkDijkstra`: for each neighbour
`u` of the extracted vertex, remember `u`'s old distance, relax the edge,
and re-key `u` in the queue when its distance changed.  `.error` carries
the partially mutated graph of the "No edge exists" failure. -/
def relaxNeighbours (vkey : T) : Graph T → List T → PQueue T →
    Except (Graph T) (Graph T × PQueue T)
  | g, [], q => .ok (g, q)
  | g, u :: rest, q =>
    match GetVertex g u with
    | none => relaxNeighbours vkey g rest q
    | some uv =>
      let oldDist := uv.distanceFromSource
      match relaxEdge g vkey u with
      | none => .error g
      | some g1 =>
        let newDist := ((GetVertex g1 u).map (·.distanceFromSource)).getD oldDist
        let q1 := if newDist ≠ oldDist then pqUpdate q u newDist else q
        relaxNeighbours vkey g1 rest q1

/-- The extraction loop of dijkstra.go `WalkDijkstra`. -/
def dijkstraLoop (f : Vertex T → Decision E) : Nat → Graph T → PQueue T →
    WalkRes T E
  | 0, g, q =>
    match q with
    | [] => ⟨.ok (), [], g⟩
    | _ :: _ => ⟨.error .panicked, [], g⟩
  | fuel + 1, g, q =>
    match pqPopMin q with
    | none => ⟨.ok (), [], g⟩
    | some ((vkey, _), q1) =>
      match relaxNeighbours vkey g (GetNeighbours g vkey) q1 with
      | .error g1 => ⟨.error .noEdgeBetween, [], g1⟩
      | .ok (g1, q2) =>
        match GetVertex g1 vkey with
        | none => ⟨.error .panicked, [], g1⟩
        | some vrec =>
          match f vrec with
          | .stop => ⟨.ok (), [vrec], g1⟩
          | .fail e => ⟨.error (.visitorFail e), [vrec], g1⟩
          | .cont =>
            let r := dijkstraLoop f fuel g1 q2
            ⟨r.result, vrec :: r.visited, r.graph⟩

/-- dijkstra.go `WalkDijkstra`: initialize, enqueue every vertex (map
iteration modelled in insertion order), then extract-and-relax. -/
def WalkDijkstra (g : Graph T) (source : T) (f : Vertex T → Decision E) :
    WalkRes T E :=
  match initializeSourceVertex g source with
  | none => ⟨.error .sourceNotFound, [], g⟩
  | some g1 =>
    let q : PQueue T := g1.vertices.map (fun kv => (kv.1, kv.2.distanceFromSource))
    dijkstraLoop f (q.length + 1) g1 q

/-- Failure modes of the path-reconstruction loop of `WalkShortestPath`:
`noPath` is the "No path exists between" error; `broken` models a missing
vertex record or a parent cycle (a nil dereference or an infinite loop in
Go), never reached in the theorems below. -/
inductive PathErr where
  | noPath
  | broken
deriving DecidableEq, Repr

/-- The reconstruction loop of dijkstra.go `WalkShortestPath`: follow
`parent` from the destination; error out when a vertex other than the
source has no parent.  Go appends each vertex and reverses at the end;
prepending while walking builds the reversed (source-first) list
directly. -/
def spReconstruct (g : Graph T) (source : T) :
    Nat → T → List (Vertex T) → Except PathErr (List (Vertex T))
  | 0, _, _ => .error .broken
  | fuel + 1, vkey, acc =>
    match GetVertex g vkey with
    | none => .error .broken
    | some v =>
      if v.value = source then .ok (v :: acc)
      else
        match v.parent with
        | none => .error .noPath
        | some p => spReconstruct g source fuel p (v :: acc)

/-- The final loop of dijkstra.go `WalkShortestPath`: invoke the caller's
visitor on each vertex of the reconstructed path. -/
def spVisit (f : Vertex T → Decision E) (g : Graph T) :
    List (Vertex T) → WalkRes T E
  | [] => ⟨.ok (), [], g⟩
  | v :: rest =>
    match f v with
    | .stop => ⟨.ok (), [v], g⟩
    | .fail e => ⟨.error (.visitorFail e), [v], g⟩
    | .cont =>
      let r := spVisit f g rest
      ⟨r.result, v :: r.visited, r.graph⟩

/-- dijkstra.go `WalkShortestPath`. -/
def WalkShortestPath (g : Graph T) (source dest : T)
    (f : Vertex T → Decision E) : WalkRes T E :=
  if VertexExists g source then
    if VertexExists g dest then
      let walker : Vertex T → Decision E :=
        fun v => if v.value = dest then .stop else .cont
      let r := WalkDijkstra g source walker
      match r.result with
      | .error err => ⟨.error err, [], r.graph⟩
      | .ok _ =>
        match spReconstruct r.graph source (r.graph.vertices.length + 1) dest [] with
        | .error .noPath => ⟨.error .noPathExists, [], r.graph⟩
        | .error .broken => ⟨.error .panicked, [], r.graph⟩
        | .ok path => spVisit f r.graph path
    else ⟨.error .destNotFound, [], g⟩
  else ⟨.error .sourceNotFound, [], g⟩

/-- Status of the inner post-order DFS of graph.go `WalkTopoOrder`. -/
inductive TopoStatus where
  | done
  | cycle
  | panic
deriving DecidableEq, Repr

/-- The peek-phase neighbour loop of `dfsPostOrder` inside `WalkTopoOrder`:
like the plain post-order scan, but a Gray neighbour aborts the scan
immediately with the cycle signal (mutations made earlier in the same scan
are kept, as in Go). -/
def topoScan (vkey : T) : Graph T → List T → List T → Bool →
    Graph T × List T × Bool × Bool
  | g, [], stack, ready => (g, stack, ready, false)
  | g, u :: rest, stack, ready =>
    match GetVertex g u with
    | none => topoScan vkey g rest stack ready
    | some uv =>
      if uv.color = .White then
        let vd := ((GetVertex g vkey).map (·.distanceFromSource)).getD 0
        let g2 := updateVertexF g u (fun x =>
          { x with color := .Gray, distanceFromSource := vd + 1, parent := some vkey })
        topoScan vkey g2 rest (u :: stack) false
      else if uv.color = .Gray then
        (g, stack, ready, true)
      else
        topoScan vkey g rest stack ready

/-- The stack loop of `dfsPostOrder` inside `WalkTopoOrder`.  Collects the
*keys* of the popped (Black) vertices in finishing order; the caller
resolves them to records at visit time, as the Go slice stores pointers. -/
def topoDfsLoop : Nat → Graph T → List T → List T →
    Graph T × List T × TopoStatus
  | 0, g, stack, acc =>
    match stack with
    | [] => (g, acc, .done)
    | _ :: _ => (g, acc, .panic)
  | fuel + 1, g, stack, acc =>
    match stack with
    | [] => (g, acc, .done)
    | vkey :: rest =>
      let s := topoScan vkey g (GetNeighbours g vkey) (vkey :: rest) true
      if s.2.2.2 then (s.1, acc, .cycle)
      else if s.2.2.1 then
        let g2 := Paint s.1 vkey .Black
        topoDfsLoop fuel g2 rest (acc ++ [vkey])
      else
        topoDfsLoop fuel s.1 s.2.1 acc

/-- `dfsPostOrder` of graph.go `WalkTopoOrder`: skip an already-Black
source, else paint it Gray and run the peek/pop loop. -/
def topoDfs (g : Graph T) (source : T) : Graph T × List T × TopoStatus :=
  match GetVertex g source with
  | none => (g, [], .panic)
  | some v =>
    if v.color = .Black then (g, [], .done)
    else
      let g1 := Paint g source .Gray
      topoDfsLoop (2 * g1.vertices.length + 2) g1 [source] []

/-- Visit the collected finishing-order keys with the caller's visitor
(records resolved from the current graph, as Go reads them through
pointers).  `.ok true` means the visitor returned the stop sentinel:
`WalkTopoOrder` must then return nil without processing further sources. -/
def topoVisit (f : Vertex T → Decision E) (g : Graph T) :
    List T → Except (WalkErr E) Bool × List (Vertex T)
  | [] => (.ok false, [])
  | k :: rest =>
    match GetVertex g k with
    | none => (.error .panicked, [])
    | some v =>
      match f v with
      | .stop => (.ok true, [v])
      | .fail e => (.error (.visitorFail e), [v])
      | .cont =>
        let r := topoVisit f g rest
        (r.1, v :: r.2)

/-- The outer loop of graph.go `WalkTopoOrder`: run `dfsPostOrder` from
every vertex of the (pre-built) queue and visit each sub-walk's finishing
order. -/
def topoOuter (f : Vertex T → Decision E) : Graph T → List T → WalkRes T E
  | g, [] => ⟨.ok (), [], g⟩
  | g, vkey :: qrest =>
    let s := topoDfs g vkey
    match s.2.2 with
    | .cycle => ⟨.error .cycleDetected, [], s.1⟩
    | .panic => ⟨.error .panicked, [], s.1⟩
    | .done =>
      let r1 := topoVisit f s.1 s.2.1
      match r1.1 with
      | .error err => ⟨.error err, r1.2, s.1⟩
      | .ok true => ⟨.ok (), r1.2, s.1⟩
      | .ok false =>
        let r2 := topoOuter f s.1 qrest
        ⟨r2.result, r1.2 ++ r2.visited, r2.graph⟩

/-- graph.go `WalkTopoOrder` (toposort.go): directed graphs only; reset,
then post-order DFS with Gray-neighbour cycle detection from every vertex
in map-iteration (modelled: insertion) order. -/
def WalkTopoOrder (g : Graph T) (f : Vertex T → Decision E) : WalkRes T E :=
  if g.kind = .KindDirected then
    let g0 := ResetVertexAttributes g
    topoOuter f g0 (g0.vertices.map (·.1))
  else ⟨.error .notDirectedGraph, [], g⟩

end Walks

/-!
## Delete operations

`DeleteEdge` and `DeleteVertex` iterate with `for … range` over the very
slices they mutate through `slices.Delete`.  A Go `range` captures the
slice header (data pointer and length) once but reads the shared backing
array live at each index, and `slices.Delete(s, i, i+1)` shifts
`s[i+1:len]` left by one inside that backing array, leaving the old last
element in place at `len-1` (Go 1.21 semantics; Go ≥ 1.22 additionally
zeroes that slot, which could only turn the runs below into nil-pointer
panics, not into correct behaviour).  The model therefore threads the full
backing list together with the live length `elen`; the live slice is
`backing.take elen`. -/

section Deletes

variable {T : Type} [DecidableEq T]

/-- `slices.Delete(s, i, i+1)` on a backing list, where `s` is
`backing.take elen`: shift positions `i+1 … elen-1` left by one; the slot
`elen-1` keeps its old value; slots past `elen` are untouched. -/
def goSliceDelete {α : Type} (backing : List α) (elen i : Nat) : List α :=
  backing.take i ++ (backing.take elen).drop (i + 1) ++ backing.drop (elen - 1)

/-- A Go `for idx, x := range s { if p x { s = slices.Delete(s, idx, idx+1) } }`
loop over a captured view of length `rem` starting at index `i`, reading
the live backing.  `none` models the out-of-range panic of `slices.Delete`
(only reachable when the captured index runs past the shrunk live length
at a match, which never happens on well-formed graphs). -/
def sliceDeleteLoop {α : Type} (p : α → Bool) :
    Nat → Nat → List α → Nat → Option (List α × Nat)
  | _, 0, backing, elen => some (backing, elen)
  | i, rem + 1, backing, elen =>
    match backing.get? i with
    | none => none
    | some x =>
      if p x then
        if i + 1 ≤ elen then
          sliceDeleteLoop p (i + 1) rem (goSliceDelete backing elen i) (elen - 1)
        else none
      else sliceDeleteLoop p (i + 1) rem backing elen

/-- Remove the entry of key `k` (Go `delete(m, k)`). -/
def aremove {α : Type} : List (T × α) → T → List (T × α)
  | [], _ => []
  | (k2, v) :: rest, k => if k = k2 then rest else (k2, v) :: aremove rest k

/-- One adjacency-list update of `DeleteEdge`
(`for idx, x := range m[a] { if x == b { m[a] = slices.Delete(…) } }`).
When the loop deleted nothing the map is left untouched (in particular no
empty entry is created for an absent key). -/
def adjDeleteOne (adj : List (T × List T)) (a b : T) :
    Option (List (T × List T)) :=
  let l := (alookup adj a).getD []
  match sliceDeleteLoop (fun x => x = b) 0 l.length l l.length with
  | none => none
  | some (backing, elen) =>
    if elen = l.length then some adj
    else some (astore adj a (backing.take elen))

/-- The body of graph.go `DeleteEdge` (both variants), operating on a
threaded edge backing array so that the caller (`DeleteVertex`) observes
the in-place shifts its own captured range view shares.  Returns the new
vertex map, adjacency map, edge backing and live edge count; `none` is a
runtime panic (nil vertex in the degree update, or `slices.Delete` out of
range). -/
def DeleteEdgeB (kind : GraphKind) (verts : List (T × Vertex T))
    (adj : List (T × List T)) (backing : List (Edge T)) (elen : Nat)
    (f t : T) :
    Option (List (T × Vertex T) × List (T × List T) × List (Edge T) × Nat) :=
  if (backing.take elen).any (fun e => edgeMatches kind e f t) then
    match sliceDeleteLoop (fun e => edgeMatches kind e f t) 0 elen backing elen with
    | none => none
    | some (b1, e1) =>
      match adjDeleteOne adj f t with
      | none => none
      | some adj1 =>
        match kind with
        | .KindUndirected =>
          match adjDeleteOne adj1 t f with
          | none => none
          | some adj2 =>
            match alookup verts f, alookup verts t with
            | some _, some _ =>
              let v1 := amodify verts f (fun v =>
                { v with degree := { In := v.degree.In - 1, Out := v.degree.Out - 1 } })
              let v2 := amodify v1 t (fun v =>
                { v with degree := { In := v.degree.In - 1, Out := v.degree.Out - 1 } })
              some (v2, adj2, b1, e1)
            | _, _ => none
        | .KindDirected =>
          match alookup verts f, alookup verts t with
          | some _, some _ =>
            let v1 := amodify verts f (fun v =>
              { v with degree := { v.degree with Out := v.degree.Out - 1 } })
            let v2 := amodify v1 t (fun v =>
              { v with degree := { v.degree with In := v.degree.In - 1 } })
            some (v2, adj1, b1, e1)
          | _, _ => none
  else some (verts, adj, backing, elen)

/-- graph.go `DeleteEdge` (no-op when the edge does not exist; `none` is a
runtime panic). -/
def DeleteEdge (g : Graph T) (f t : T) : Option (Graph T) :=
  match DeleteEdgeB g.kind g.vertices g.adjacencyLists g.edges g.edges.length f t with
  | none => none
  | some (verts, adj, backing, elen) =>
    some { g with vertices := verts, adjacencyLists := adj, edges := backing.take elen }

/-- The edge loop of graph.go `DeleteVertex`
(`for _, e := range g.GetEdges() { if e.From == v || e.To == v { g.DeleteEdge(e.From, e.To) } }`):
iterates over the range view captured at entry (length `rem`, live
backing), while each `DeleteEdge` shifts the shared backing. -/
def deleteVertexLoop (kind : GraphKind) (v : T) :
    Nat → Nat → List (T × Vertex T) → List (T × List T) →
    List (Edge T) → Nat →
    Option (List (T × Vertex T) × List (T × List T) × List (Edge T) × Nat)
  | _, 0, verts, adj, backing, elen => some (verts, adj, backing, elen)
  | i, rem + 1, verts, adj, backing, elen =>
    match backing.get? i with
    | none => none
    | some e =>
      if e.From = v ∨ e.To = v then
        match DeleteEdgeB kind verts adj backing elen e.From e.To with
        | none => none
        | some (verts1, adj1, b1, e1) =>
          deleteVertexLoop kind v (i + 1) rem verts1 adj1 b1 e1
      else
        deleteVertexLoop kind v (i + 1) rem verts adj backing elen

/-- graph.go `DeleteVertex` (part_003): no-op when the vertex does not
exist; otherwise delete every edge found incident by the aliased range
loop, then remove the vertex from the vertex map.  `DeleteVertex` is
defined only on `UndirectedGraph` and promoted to `DirectedGraph`; its
inner `g.DeleteEdge` binds statically to the symmetric undirected
`DeleteEdge` (Go method promotion is not virtual), so the loop always
runs with undirected matching and degree updates, whatever the kind. -/
def DeleteVertex (g : Graph T) (v : T) : Option (Graph T) :=
  if VertexExists g v then
    match deleteVertexLoop .KindUndirected v 0 g.edges.length g.vertices
        g.adjacencyLists g.edges g.edges.length with
    | none => none
    | some (verts, adj, backing, elen) =>
      some { g with vertices := aremove verts v, adjacencyLists := adj,
                    edges := backing.take elen }
  else some g

end Deletes

/-!
## Heap model for `Clone`

The `Clone` claim is about pointer identity: the cloned vertices must be
fresh objects whose `Parent` pointers target the clone's own objects, so
that mutations through one graph's pointers never reach the other.  To
state that, vertex and edge objects live in an explicit heap (`Store`):
addresses are allocation-ordered naturals, a graph holds addresses, and
`Parent` is an address. -/

section HeapModel

variable {T : Type} [DecidableEq T]

/-- A heap-allocated vertex object (`Parent` is the parent's address). -/
structure HVertex (T : Type) where
  value : T
  color : Color
  distanceFromSource : EDist
  parent : Option Nat
  dotAttributes : DotAttributes
  degree : Degree
deriving DecidableEq, Repr

/-- A heap-allocated edge object. -/
structure HEdge (T : Type) where
  From : T
  To : T
  Weight : ℚ
  dotAttributes : DotAttributes
deriving DecidableEq, Repr

/-- The heap: allocated vertex and edge objects, and the next fresh
address. -/
structure Store (T : Type) where
  vheap : List (Nat × HVertex T)
  eheap : List (Nat × HEdge T)
  next : Nat
deriving DecidableEq, Repr

/-- A graph as a structure of pointers into a `Store`. -/
structure HGraph (T : Type) where
  vertices : List (T × Nat)
  edges : List Nat
  adjacencyLists : List (T × List T)
  kind : GraphKind
deriving DecidableEq, Repr

/-- The addresses of a graph's vertex objects. -/
def hVertexAddrs (g : HGraph T) : List Nat := g.vertices.map (·.2)

/-- The observable content of one vertex: every field, with the parent
pointer read back as the parent object's value. -/
structure VView (T : Type) where
  value : T
  color : Color
  distanceFromSource : EDist
  parentKey : Option T
  dotAttributes : DotAttributes
  degree : Degree
deriving DecidableEq, Repr

/-- Read the observable vertex content of a graph from a store, key by key
(`none` for a dangling pointer, which well-formedness excludes). -/
def hViewV (σ : Store T) (g : HGraph T) : List (T × Option (VView T)) :=
  g.vertices.map (fun ka =>
    (ka.1, (alookup σ.vheap ka.2).map (fun o =>
      { value := o.value
        color := o.color
        distanceFromSource := o.distanceFromSource
        parentKey := o.parent.bind (fun pa => (alookup σ.vheap pa).map (·.value))
        dotAttributes := o.dotAttributes
        degree := o.degree })))

/-- Read the observable edge content of a graph from a store, in edge-slice
order. -/
def hViewE (σ : Store T) (g : HGraph T) : List (Option (HEdge T)) :=
  g.edges.map (alookup σ.eheap)

/-- The clone's fresh vertex-key map: key `i` of the original receives the
fresh address `nn + i` (`j` generalises the enumeration start for proofs;
`Clone` uses `j = 0`). -/
def cloneNewVerticesFrom (nn j : Nat) (vs : List (T × Nat)) : List (T × Nat) :=
  (vs.enumFrom j).map (fun ikv => (ikv.2.1, nn + ikv.1))

/-- `newVertices` of part_003 `Clone`. -/
def cloneNewVertices (nn : Nat) (vs : List (T × Nat)) : List (T × Nat) :=
  cloneNewVerticesFrom nn 0 vs

/-- The second pass of part_003 `Clone`: the cloned parent pointer is
`newVertices[v.Parent.Value]` — read the original parent object's value
and look it up in the fresh key map (`none` for a nil parent; a dangling
parent address is a Go nil dereference, excluded by well-formedness). -/
def cloneReParent (σ : Store T) (nv : List (T × Nat)) (o : HVertex T) :
    Option Nat :=
  o.parent.bind (fun pa =>
    ((alookup σ.vheap pa).map (·.value)).bind (alookup nv))

/-- One fresh vertex object per original vertex, at address `nn + i`.  The
Go code makes the copies with `Parent = nil` and then, in a second pass,
sets `newVertices[k].Parent = newVertices[v.Parent.Value]`; the second
pass only reads the (unchanged) original objects and the completed key map
`newVertices`, so the two passes are fused here. -/
def cloneVObjsFrom (σ : Store T) (nv : List (T × Nat)) (nn j : Nat)
    (vs : List (T × Nat)) : List (Nat × HVertex T) :=
  (vs.enumFrom j).filterMap (fun ikv =>
    (alookup σ.vheap ikv.2.2).map (fun o =>
      (nn + ikv.1, { o with parent := cloneReParent σ nv o })))

/-- The cloned vertex objects of part_003 `Clone`. -/
def cloneVObjs (σ : Store T) (nv : List (T × Nat)) (nn : Nat)
    (vs : List (T × Nat)) : List (Nat × HVertex T) :=
  cloneVObjsFrom σ nv nn 0 vs

/-- One fresh edge object per original edge, at address `mm + i` (a copy,
attribute bag included). -/
def cloneEObjsFrom (σ : Store T) (mm j : Nat) (es : List Nat) :
    List (Nat × HEdge T) :=
  (es.enumFrom j).filterMap (fun ia =>
    (alookup σ.eheap ia.2).map (fun o => (mm + ia.1, o)))

/-- The cloned edge objects of part_003 `Clone`. -/
def cloneEObjs (σ : Store T) (mm : Nat) (es : List Nat) :
    List (Nat × HEdge T) :=
  cloneEObjsFrom σ mm 0 es

/-- The clone's edge slice: the fresh addresses in original order. -/
def cloneNewEdgesFrom (mm j : Nat) (es : List Nat) : List Nat :=
  (es.enumFrom j).map (fun ia => mm + ia.1)

/-- part_003 `Clone`: allocate a fresh object per vertex (parents populated
in a second pass from `newVertices[v.Parent.Value]`), a fresh object per
edge, copy every attribute bag and adjacency list, keep the kind. -/
def Clone (σ : Store T) (g : HGraph T) : Store T × HGraph T :=
  ({ vheap := σ.vheap ++
        cloneVObjs σ (cloneNewVertices σ.next g.vertices) σ.next g.vertices
     eheap := σ.eheap ++
        cloneEObjs σ (σ.next + g.vertices.length) g.edges
     next := σ.next + g.vertices.length + g.edges.length },
   { vertices := cloneNewVertices σ.next g.vertices
     edges := cloneNewEdgesFrom (σ.next + g.vertices.length) 0 g.edges
     adjacencyLists := g.adjacencyLists.map (fun p => (p.1, p.2))
     kind := g.kind })

/-- `g.GetVertex(k).DotAttributes[key] = val` in the heap model: mutate the
attribute bag of the object `g`'s vertex map points at (no-op when the key
or address is absent; well-formedness excludes the latter). -/
def hSetVertexAttr (σ : Store T) (g : HGraph T) (k : T) (key val : String) :
    Store T :=
  match alookup g.vertices k with
  | none => σ
  | some a =>
    { σ with vheap := amodify σ.vheap a (fun o =>
        { o with dotAttributes := astore o.dotAttributes key val }) }

/-- `g.GetVertex(k).Parent = g.GetVertex(p)` in the heap model. -/
def hSetParent (σ : Store T) (g : HGraph T) (k p : T) : Store T :=
  match alookup g.vertices k with
  | none => σ
  | some a =>
    { σ with vheap := amodify σ.vheap a (fun o =>
        { o with parent := alookup g.vertices p }) }

/-- Heap-model well-formedness: every allocated address is below `next`
(allocation freshness); every vertex pointer of the graph dereferences to
an object whose `Value` is the pointer's map key; every non-nil parent
pointer dereferences to an object whose `Value` is a key of the graph
(Go's invariant that `Parent` points inside the same graph); every edge
pointer dereferences. -/
def HWF (σ : Store T) (g : HGraph T) : Prop :=
  (∀ p ∈ σ.vheap, p.1 < σ.next) ∧
  (∀ p ∈ σ.eheap, p.1 < σ.next) ∧
  (∀ ka ∈ g.vertices, ∃ o ∈ (alookup σ.vheap ka.2).toList, o.value = ka.1 ∧
    ∀ pa ∈ o.parent.toList, ∃ po ∈ (alookup σ.vheap pa).toList,
      po.value ∈ g.vertices.map (·.1)) ∧
  (∀ a ∈ g.edges, (alookup σ.eheap a).isSome = true)

instance (σ : Store T) (g : HGraph T) : Decidable (HWF σ g) := by
  unfold HWF; exact inferInstance

end HeapModel

/-!
## Specification-side notions

Well-formedness of a graph state (all of which hold for every graph built
through the public API), reachability along adjacency lists, and the
visitor contract. -/

section SpecDefs

variable {T E : Type} [DecidableEq T]

/-- Well-formed graph state: unique vertex keys, records coherent with
their keys, adjacency targets existing, adjacency pairs backed by edges,
and (for Dijkstra) non-negative weights. -/
def WFGraph (g : Graph T) : Prop :=
  (g.vertices.map (·.1)).Nodup ∧
  (∀ kv ∈ g.vertices, kv.2.value = kv.1) ∧
  (∀ p ∈ g.adjacencyLists, ∀ b ∈ p.2, VertexExists g b = true) ∧
  (∀ p ∈ g.adjacencyLists, ∀ b ∈ p.2, EdgeExists g p.1 b = true) ∧
  (∀ e ∈ g.edges, 0 ≤ e.Weight)

instance (g : Graph T) : Decidable (WFGraph g) := by
  unfold WFGraph; infer_instance

/-- `b` is a direct neighbour of `a`. -/
def Adjacent (g : Graph T) (a b : T) : Prop :=
  b ∈ GetNeighbours g a

/-- There is a walk of exactly `n` adjacency steps from `s` to the given
vertex. -/
inductive ReachIn (g : Graph T) (s : T) : T → Nat → Prop where
  | refl : ReachIn g s s 0
  | step {a b n} : ReachIn g s a n → Adjacent g a b → ReachIn g s b (n + 1)

/-- Reachability along adjacency lists. -/
def Reach (g : Graph T) (s v : T) : Prop := ∃ n, ReachIn g s v n

/-- `n` is the minimum number of edges on any path from `s` to `v`. -/
def MinHop (g : Graph T) (s v : T) (n : Nat) : Prop :=
  ReachIn g s v n ∧ ∀ m, ReachIn g s v m → n ≤ m

/-- The graph contains a directed cycle (a vertex adjacency-reachable from
itself in at least one step). -/
def HasDirectedCycle (g : Graph T) : Prop :=
  ∃ k, Relation.TransGen (Adjacent g) k k

/-- A graph admitting a strictly adjacency-decreasing rank has no directed
cycle. -/
theorem no_cycle_of_rank (g : Graph T) (r : T → Nat)
    (h : ∀ a b, Adjacent g a b → r b < r a) : ¬ HasDirectedCycle g := by
  rintro ⟨k, hk⟩
  have key : ∀ a b, Relation.TransGen (Adjacent g) a b → r b < r a := by
    intro a b hab
    induction hab with
    | single h1 => exact h _ _ h1
    | tail _ h1 ih => exact lt_trans (h _ _ h1) ih
  exact lt_irrefl _ (key k k hk)

/-- The walk result is not a visitor-propagated error. -/
def noVisitorFail (r : Except (WalkErr E) Unit) : Prop :=
  ∀ e, r ≠ .error (.visitorFail e)

/-- The visitor contract on a walk's visit list and outcome: every visit
except possibly the last returned continue; a final stop ends the walk
with `nil`; a final failure is propagated verbatim; and an outcome that is
a visitor error can only come from such a final visit. -/
inductive VisitsSpec (f : Vertex T → Decision E) :
    List (Vertex T) → Except (WalkErr E) Unit → Prop where
  | nil (r) (hr : noVisitorFail r) : VisitsSpec f [] r
  | stop (v) (h : f v = .stop) : VisitsSpec f [v] (.ok ())
  | fail (v e) (h : f v = .fail e) :
      VisitsSpec f [v] (.error (.visitorFail e))
  | cons (v) {vis r} (h : f v = .cont) (tail : VisitsSpec f vis r) :
      VisitsSpec f (v :: vis) r

/-- The two properties the specification states about stop/fail, derived
from `VisitsSpec`. -/
def StopFailSpec (f : Vertex T → Decision E) (r : WalkRes T E) : Prop :=
  (∀ v ∈ r.visited, f v = .stop →
    r.result = .ok () ∧ r.visited.getLast? = some v) ∧
  (∀ v ∈ r.visited, ∀ e, f v = .fail e →
    r.result = .error (.visitorFail e) ∧ r.visited.getLast? = some v)

/-- "No rollback of attribute mutations already made": if the walk ended
at a visit on which the visitor did not return continue (a stop or a
failure), the returned graph still stores, verbatim, the very record that
visit received — with every attribute mutation (colour, distance, parent)
the walk had applied to it up to that point.  A walker that undid its
mutations before returning would falsify this, since the visited record
carries the walk's non-default attribute values. -/
def NoRollback (f : Vertex T → Decision E) (r : WalkRes T E) : Prop :=
  ∀ v ∈ r.visited, f v ≠ .cont → ∃ k, GetVertex r.graph k = some v

theorem getLast?_cons_of_getLast? {α : Type} (a : α) {l : List α} {v : α}
    (hl : l.getLast? = some v) : (a :: l).getLast? = some v := by
  cases l with
  | nil => simp at hl
  | cons b bs => rw [List.getLast?_cons_cons]; exact hl

theorem VisitsSpec.stop_case {f : Vertex T → Decision E}
    {vis : List (Vertex T)} {r : Except (WalkErr E) Unit}
    (hs : VisitsSpec f vis r) {v : Vertex T} (hv : v ∈ vis)
    (h : f v = .stop) : r = .ok () ∧ vis.getLast? = some v := by
  induction hs with
  | nil r hr => cases hv
  | stop w hw =>
    rcases List.mem_singleton.mp hv with rfl
    exact ⟨rfl, rfl⟩
  | fail w e hw =>
    rcases List.mem_singleton.mp hv with rfl
    rw [hw] at h; cases h
  | cons w hw tail ih =>
    rcases List.mem_cons.mp hv with rfl | hv2
    · rw [hw] at h; cases h
    · rcases ih hv2 with ⟨hr, hl⟩
      exact ⟨hr, getLast?_cons_of_getLast? w hl⟩

theorem VisitsSpec.fail_case {f : Vertex T → Decision E}
    {vis : List (Vertex T)} {r : Except (WalkErr E) Unit}
    (hs : VisitsSpec f vis r) {v : Vertex T} {e : E} (hv : v ∈ vis)
    (h : f v = .fail e) :
    r = .error (.visitorFail e) ∧ vis.getLast? = some v := by
  induction hs with
  | nil r hr => cases hv
  | stop w hw =>
    rcases List.mem_singleton.mp hv with rfl
    rw [hw] at h; cases h
  | fail w e2 hw =>
    rcases List.mem_singleton.mp hv with rfl
    rw [hw] at h; cases h; exact ⟨rfl, rfl⟩
  | cons w hw tail ih =>
    rcases List.mem_cons.mp hv with rfl | hv2
    · rw [hw] at h; cases h
    · rcases ih hv2 with ⟨hr, hl⟩
      exact ⟨hr, getLast?_cons_of_getLast? w hl⟩

theorem StopFailSpec_of_visits {f : Vertex T → Decision E}
    {r : WalkRes T E} (hs : VisitsSpec f r.visited r.result) :
    StopFailSpec f r :=
  ⟨fun _ hv h => hs.stop_case hv h, fun _ hv _ h => hs.fail_case hv h⟩

end SpecDefs

/-!
## Infrastructure lemmas

Association-list and graph-state lemmas shared by the symbolic proofs
about the walkers. -/

section ALemmas

variable {T : Type} [DecidableEq T] {α : Type}

theorem alookup_isSome_iff (l : List (T × α)) (k : T) :
    (alookup l k).isSome = true ↔ k ∈ l.map (·.1) := by
  induction l with
  | nil => simp [alookup]
  | cons kv rest ih =>
    rcases kv with ⟨k2, v⟩
    by_cases h : k = k2
    · subst h; simp [alookup]
    · simp [alookup, h, ih]

theorem alookup_mem (l : List (T × α)) (k : T) {v : α}
    (h : alookup l k = some v) : (k, v) ∈ l := by
  induction l with
  | nil => cases h
  | cons kv rest ih =>
    rcases kv with ⟨k2, v2⟩
    by_cases hk : k = k2
    · subst hk
      simp [alookup] at h
      subst h
      exact List.mem_cons_self _ _
    · simp [alookup, hk] at h
      exact List.mem_cons_of_mem _ (ih h)

theorem alookup_amodify_self (l : List (T × α)) (k : T) (f : α → α) :
    alookup (amodify l k f) k = (alookup l k).map f := by
  induction l with
  | nil => simp [alookup, amodify]
  | cons kv rest ih =>
    rcases kv with ⟨k2, v⟩
    by_cases h : k = k2
    · subst h; simp [alookup, amodify]
    · simp [alookup, amodify, h, ih]

theorem alookup_amodify_ne (l : List (T × α)) (k k2 : T) (f : α → α)
    (h : k2 ≠ k) : alookup (amodify l k f) k2 = alookup l k2 := by
  induction l with
  | nil => simp [amodify]
  | cons kv rest ih =>
    rcases kv with ⟨k3, v⟩
    by_cases hk : k = k3
    · subst hk; simp [alookup, amodify, h]
    · by_cases hk2 : k2 = k3
      · subst hk2; simp [alookup, amodify, hk]
      · simp [alookup, amodify, hk, hk2, ih]

theorem amodify_keys (l : List (T × α)) (k : T) (f : α → α) :
    (amodify l k f).map (·.1) = l.map (·.1) := by
  induction l with
  | nil => rfl
  | cons kv rest ih =>
    rcases kv with ⟨k2, v⟩
    by_cases h : k = k2
    · subst h; simp [amodify]
    · simp [amodify, h, ih]

theorem updateFirst_key_pres {β : Type} (p : T × β → Bool)
    (f : T × β → T × β) (hf : ∀ x, (f x).1 = x.1) (l : List (T × β)) :
    (updateFirst p f l).map (·.1) = l.map (·.1) := by
  induction l with
  | nil => rfl
  | cons x rest ih =>
    simp only [updateFirst]
    split
    · simp [hf]
    · simp [ih]

end ALemmas

section GraphLemmas

variable {T : Type} [DecidableEq T]

theorem updateVertexF_adj (g : Graph T) (k : T) (f : Vertex T → Vertex T) :
    (updateVertexF g k f).adjacencyLists = g.adjacencyLists := rfl

theorem updateVertexF_edges (g : Graph T) (k : T) (f : Vertex T → Vertex T) :
    (updateVertexF g k f).edges = g.edges := rfl

theorem updateVertexF_kind (g : Graph T) (k : T) (f : Vertex T → Vertex T) :
    (updateVertexF g k f).kind = g.kind := rfl

theorem updateVertexF_keys (g : Graph T) (k : T) (f : Vertex T → Vertex T) :
    (updateVertexF g k f).vertices.map (·.1) = g.vertices.map (·.1) :=
  amodify_keys ..

theorem GetVertex_updateVertexF_self (g : Graph T) (k : T)
    (f : Vertex T → Vertex T) :
    GetVertex (updateVertexF g k f) k = (GetVertex g k).map f :=
  alookup_amodify_self ..

theorem GetVertex_updateVertexF_ne (g : Graph T) (k k2 : T)
    (f : Vertex T → Vertex T) (h : k2 ≠ k) :
    GetVertex (updateVertexF g k f) k2 = GetVertex g k2 :=
  alookup_amodify_ne _ _ _ _ h

theorem GetNeighbours_updateVertexF (g : Graph T) (k : T)
    (f : Vertex T → Vertex T) (a : T) :
    GetNeighbours (updateVertexF g k f) a = GetNeighbours g a := rfl

theorem GetEdge_updateVertexF (g : Graph T) (k : T)
    (f : Vertex T → Vertex T) (a b : T) :
    GetEdge (updateVertexF g k f) a b = GetEdge g a b := rfl

/-- The fields of a graph that no walker ever changes. -/
def SameStructure (g0 g : Graph T) : Prop :=
  g.vertices.map (·.1) = g0.vertices.map (·.1) ∧
  g.adjacencyLists = g0.adjacencyLists ∧
  g.edges = g0.edges ∧
  g.kind = g0.kind

theorem SameStructure.refl (g : Graph T) : SameStructure g g :=
  ⟨rfl, rfl, rfl, rfl⟩

theorem SameStructure.trans {g0 g1 g2 : Graph T}
    (h1 : SameStructure g0 g1) (h2 : SameStructure g1 g2) :
    SameStructure g0 g2 :=
  ⟨h2.1.trans h1.1, h2.2.1.trans h1.2.1, h2.2.2.1.trans h1.2.2.1,
   h2.2.2.2.trans h1.2.2.2⟩

theorem SameStructure.update_pres {g0 g : Graph T} (h : SameStructure g0 g)
    (k : T) (f : Vertex T → Vertex T) :
    SameStructure g0 (updateVertexF g k f) :=
  h.trans ⟨updateVertexF_keys .., rfl, rfl, rfl⟩

theorem SameStructure.GetNeighbours {g0 g : Graph T} (h : SameStructure g0 g)
    (a : T) : GoGraph.GetNeighbours g a = GoGraph.GetNeighbours g0 a := by
  unfold GoGraph.GetNeighbours
  rw [h.2.1]

theorem SameStructure.EdgeExists {g0 g : Graph T} (h : SameStructure g0 g)
    (a b : T) : GoGraph.EdgeExists g a b = GoGraph.EdgeExists g0 a b := by
  unfold GoGraph.EdgeExists GoGraph.GetEdge
  rw [h.2.2.1, h.2.2.2]

theorem SameStructure.VertexExists {g0 g : Graph T} (h : SameStructure g0 g)
    (a : T) : GoGraph.VertexExists g a = GoGraph.VertexExists g0 a := by
  unfold GoGraph.VertexExists GoGraph.GetVertex
  cases h1 : (alookup g.vertices a).isSome
  · cases h2 : (alookup g0.vertices a).isSome
    · rfl
    · exfalso
      rw [alookup_isSome_iff, ← h.1, ← alookup_isSome_iff] at h2
      rw [h1] at h2
      cases h2
  · cases h2 : (alookup g0.vertices a).isSome
    · exfalso
      rw [alookup_isSome_iff, h.1, ← alookup_isSome_iff] at h1
      rw [h2] at h1
      cases h1
    · rfl

/-- A vertex exists iff its key is among the vertex keys. -/
theorem VertexExists_iff_mem (g : Graph T) (k : T) :
    VertexExists g k = true ↔ k ∈ g.vertices.map (·.1) := by
  unfold VertexExists GetVertex
  exact alookup_isSome_iff ..

end GraphLemmas

section DijkstraLemmas

variable {T E : Type} [DecidableEq T]

theorem keys_map_snd {α β : Type} (l : List (T × α)) (F : α → β) :
    (l.map (fun kv => (kv.1, F kv.2))).map (·.1) = l.map (·.1) := by
  induction l with
  | nil => rfl
  | cons kv rest ih => simp [ih]

theorem alookup_map {α β : Type} (l : List (T × α)) (F : α → β) (k : T) :
    alookup (l.map (fun kv => (kv.1, F kv.2))) k = (alookup l k).map F := by
  induction l with
  | nil => rfl
  | cons kv rest ih =>
    rcases kv with ⟨k2, v⟩
    by_cases h : k = k2
    · subst h; simp [alookup]
    · simp [alookup, h, ih]

theorem alookup_eq_of_mem_nodup {α : Type} {l : List (T × α)}
    (hnodup : (l.map (·.1)).Nodup) {k : T} {v : α} (h : (k, v) ∈ l) :
    alookup l k = some v := by
  induction l with
  | nil => cases h
  | cons kv rest ih =>
    rcases kv with ⟨k2, v2⟩
    rcases List.mem_cons.mp h with heq | hmem
    · cases heq; simp [alookup]
    · have hk : k ≠ k2 := by
        intro hk
        subst hk
        exact (List.nodup_cons.mp hnodup).1
          (by simpa using List.mem_map_of_mem (·.1) hmem)
      simp [alookup, hk]
      exact ih (List.nodup_cons.mp hnodup).2 hmem

theorem pqPopMin_isSome (q : PQueue T) (h : q ≠ []) :
    (pqPopMin q).isSome = true := by
  cases q with
  | nil => exact absurd rfl h
  | cons a rest =>
    simp only [pqPopMin]
    cases hrest : pqPopMin rest with
    | none => rfl
    | some p =>
      rcases p with ⟨m, others⟩
      by_cases hle : a.2 ≤ m.2 <;> simp [hle]

/-- The popped queue entry is a global minimum, the remainder is one entry
shorter, and every entry involved comes from the queue. -/
theorem pqPopMin_spec (q : PQueue T) (x : T × EDist) (q1 : PQueue T)
    (h : pqPopMin q = some (x, q1)) :
    x ∈ q ∧ (∀ y ∈ q, x.2 ≤ y.2) ∧ q1.length + 1 = q.length ∧
      (∀ y ∈ q1, y ∈ q) := by
  induction q generalizing x q1 with
  | nil => cases h
  | cons a rest ih =>
    cases hrest : pqPopMin rest with
    | none =>
      simp only [pqPopMin, hrest] at h
      injection h with h2
      injection h2 with h3 h4
      subst h3; subst h4
      have hrnil : rest = [] := by
        cases hr2 : rest with
        | nil => rfl
        | cons b bs =>
          exfalso
          have := pqPopMin_isSome rest (by rw [hr2]; exact List.cons_ne_nil b bs)
          rw [hrest] at this
          cases this
      subst hrnil
      refine ⟨List.mem_singleton_self a, ?_, rfl, by intro y hy; cases hy⟩
      intro y hy
      rcases List.mem_singleton.mp hy with rfl
      exact le_refl _
    | some p =>
      rcases p with ⟨m, others⟩
      simp only [pqPopMin, hrest] at h
      rcases ih m others hrest with ⟨hm_mem, hm_min, hm_len, hm_sub⟩
      split at h
      · next hle =>
        injection h with h2
        injection h2 with h3 h4
        subst h3; subst h4
        refine ⟨List.mem_cons_self a rest, ?_, by simp, ?_⟩
        · intro y hy
          rcases List.mem_cons.mp hy with rfl | hy2
          · exact le_refl _
          · exact le_trans hle (hm_min y hy2)
        · intro y hy; exact List.mem_cons_of_mem a hy
      · next hle =>
        injection h with h2
        injection h2 with h3 h4
        subst h3; subst h4
        refine ⟨List.mem_cons_of_mem a hm_mem, ?_, by simpa using hm_len, ?_⟩
        · intro y hy
          rcases List.mem_cons.mp hy with rfl | hy2
          · exact le_of_lt (lt_of_not_le hle)
          · exact hm_min y hy2
        · intro y hy
          rcases List.mem_cons.mp hy with rfl | hy2
          · exact List.mem_cons_self _ _
          · exact List.mem_cons_of_mem a (hm_sub y hy2)

theorem pqUpdate_keys (q : PQueue T) (k : T) (p : EDist) :
    (pqUpdate q k p).map (·.1) = q.map (·.1) :=
  updateFirst_key_pres _ (fun x => (x.1, p)) (fun x => rfl) q

theorem pqUpdate_length (q : PQueue T) (k : T) (p : EDist) :
    (pqUpdate q k p).length = q.length :=
  updateFirst_length ..

/-- Value coherence: every stored record's value equals its key (true of
every graph built through the API, and preserved by all walkers). -/
def ValCoherent (g : Graph T) : Prop :=
  ∀ k v, GetVertex g k = some v → v.value = k

theorem ValCoherent.of_WF {g : Graph T} (h : WFGraph g) : ValCoherent g :=
  fun k v hv => h.2.1 (k, v) (alookup_mem _ _ hv)

theorem ValCoherent.update_val {g : Graph T} (h : ValCoherent g) (k : T)
    (f : Vertex T → Vertex T) (hf : ∀ v, (f v).value = v.value) :
    ValCoherent (GoGraph.updateVertexF g k f) := by
  intro k2 v hv
  by_cases hk : k2 = k
  · subst hk
    rw [GetVertex_updateVertexF_self] at hv
    rcases Option.map_eq_some'.mp hv with ⟨v0, hv0, rfl⟩
    rw [hf]
    exact h _ _ hv0
  · rw [GetVertex_updateVertexF_ne _ _ _ _ hk] at hv
    exact h _ _ hv

/-- The Dijkstra mutation invariant: a finite distance or an assigned
parent witnesses reachability from the source along the (never-changing)
adjacency structure of `g0`. -/
def DInv (g0 : Graph T) (s : T) (g : Graph T) : Prop :=
  ∀ k v, GetVertex g k = some v →
    (v.distanceFromSource ≠ ⊤ → Reach g0 s k) ∧
    (∀ p, v.parent = some p → Reach g0 s k)

/-- What `ResetVertexAttributes` + the `∞` pass of
`initializeSourceVertex` do to one record. -/
def initV (v : Vertex T) : Vertex T :=
  { v with color := .White, distanceFromSource := (⊤ : EDist), parent := none }

theorem initializeSourceVertex_isSome (g : Graph T) (s : T)
    (hs : VertexExists g s = true) :
    (initializeSourceVertex g s).isSome = true := by
  simp [initializeSourceVertex, hs]

theorem keys_map_snd2 {α β γ : Type} (l : List (T × α)) (F : α → β)
    (G : β → γ) :
    (((l.map (fun kv => (kv.1, F kv.2))).map
        (fun kv => (kv.1, G kv.2)))).map (·.1) = l.map (·.1) := by
  rw [keys_map_snd (l.map (fun kv => (kv.1, F kv.2))) G,
    keys_map_snd l F]

theorem alookup_map2 {α β γ : Type} (l : List (T × α)) (F : α → β)
    (G : β → γ) (k : T) :
    alookup ((l.map (fun kv => (kv.1, F kv.2))).map
        (fun kv => (kv.1, G kv.2))) k = (alookup l k).map (fun v => G (F v)) := by
  rw [alookup_map (l.map (fun kv => (kv.1, F kv.2))) G k, alookup_map l F k,
    Option.map_map]
  rfl

theorem initializeSourceVertex_eq (g : Graph T) (s : T)
    (hs : VertexExists g s = true) (g1 : Graph T)
    (h : initializeSourceVertex g s = some g1) :
    SameStructure g g1 ∧
    (∀ k, k ≠ s → GetVertex g1 k = (GetVertex g k).map initV) ∧
    GetVertex g1 s = (GetVertex g s).map
      (fun v => { initV v with distanceFromSource := 0 }) := by
  simp only [initializeSourceVertex, hs, if_true] at h
  injection h with h2
  subst h2
  refine ⟨⟨?_, rfl, rfl, rfl⟩, ?_, ?_⟩
  · dsimp only [GoGraph.updateVertexF, GoGraph.ResetVertexAttributes]
    rw [amodify_keys]
    exact keys_map_snd2 g.vertices
      (fun v => { v with color := .White, distanceFromSource := 0, parent := none })
      (fun v => { v with distanceFromSource := (⊤ : EDist) })
  · intro k hk
    dsimp only [GoGraph.updateVertexF, GoGraph.ResetVertexAttributes,
      GoGraph.GetVertex]
    rw [alookup_amodify_ne _ _ _ _ hk]
    exact alookup_map2 g.vertices
      (fun v => { v with color := .White, distanceFromSource := 0, parent := none })
      (fun v => { v with distanceFromSource := (⊤ : EDist) }) k
  · dsimp only [GoGraph.updateVertexF, GoGraph.ResetVertexAttributes,
      GoGraph.GetVertex]
    rw [alookup_amodify_self]
    exact (congrArg
        (Option.map (fun v : Vertex T => { v with distanceFromSource := (0 : EDist) }))
        (alookup_map2 g.vertices
          (fun v => { v with color := .White, distanceFromSource := 0, parent := none })
          (fun v => { v with distanceFromSource := (⊤ : EDist) }) s)).trans
      (Option.map_map _ _ _)

theorem relaxEdge_isSome (g : Graph T) (a b : T)
    (he : EdgeExists g a b = true) : (relaxEdge g a b).isSome = true := by
  unfold EdgeExists at he
  cases hge : GetEdge g a b with
  | none => rw [hge] at he; cases he
  | some edge =>
    simp only [relaxEdge, hge]
    cases GetVertex g a <;> rfl

theorem relaxEdge_pres {g g1 : Graph T} {a b : T}
    (h : relaxEdge g a b = some g1) :
    SameStructure g g1 ∧
    (∀ k, k ≠ b → GetVertex g1 k = GetVertex g k) ∧
    (ValCoherent g → ValCoherent g1) := by
  simp only [relaxEdge] at h
  cases hge : GetEdge g a b with
  | none => rw [hge] at h; cases h
  | some edge =>
    rw [hge] at h
    cases hga : GetVertex g a with
    | none =>
      rw [hga] at h
      injection h with h2
      subst h2
      exact ⟨.refl g, fun k _ => rfl, id⟩
    | some fromV =>
      rw [hga] at h
      injection h with h2
      subst h2
      refine ⟨(SameStructure.refl g).update_pres _ _, ?_, ?_⟩
      · intro k hk; exact GetVertex_updateVertexF_ne _ _ _ _ hk
      · intro hvc
        refine hvc.update_val _ _ (fun v => ?_)
        by_cases hc : fromV.distanceFromSource + (edge.Weight : ℚ) <
            v.distanceFromSource
        · rw [if_pos hc]
        · rw [if_neg hc]

theorem DInv.relax_pres {g0 g g1 : Graph T} {s a b : T}
    (hst : SameStructure g0 g) (hinv : DInv g0 s g) (hadj : Adjacent g0 a b)
    (h : relaxEdge g a b = some g1) : DInv g0 s g1 := by
  simp only [relaxEdge] at h
  cases hge : GetEdge g a b with
  | none => rw [hge] at h; cases h
  | some edge =>
    rw [hge] at h
    cases hga : GetVertex g a with
    | none =>
      rw [hga] at h
      injection h with h2
      subst h2
      exact hinv
    | some fromV =>
      rw [hga] at h
      injection h with h2
      subst h2
      intro k v hv
      by_cases hk : k = b
      · subst hk
        rw [GetVertex_updateVertexF_self] at hv
        rcases Option.map_eq_some'.mp hv with ⟨v0, hv0, rfl⟩
        by_cases halt :
            fromV.distanceFromSource + (edge.Weight : ℚ) < v0.distanceFromSource
        · have hne : fromV.distanceFromSource ≠ ⊤ := by
            intro htop
            rw [htop, top_add] at halt
            exact not_top_lt halt
          have hra : Reach g0 s a := (hinv a fromV hga).1 hne
          have hrb : Reach g0 s k := by
            rcases hra with ⟨n, hn⟩
            exact ⟨n + 1, .step hn hadj⟩
          rw [if_pos halt]
          exact ⟨fun _ => hrb, fun _ _ => hrb⟩
        · rw [if_neg halt]
          exact hinv k v0 hv0
      · rw [GetVertex_updateVertexF_ne _ _ _ _ hk] at hv
        exact hinv k v hv

theorem ite_pq_keys (c : Prop) [Decidable c] (q : PQueue T) (u : T)
    (d : EDist) :
    ((if c then pqUpdate q u d else q).map (·.1)) = q.map (·.1) := by
  split
  · exact pqUpdate_keys ..
  · rfl

theorem relaxNeighbours_spec {g0 : Graph T} {s a : T}
    (hE : ∀ b, Adjacent g0 a b → EdgeExists g0 a b = true) :
    ∀ (us : List T) (g : Graph T) (q : PQueue T),
      (∀ u ∈ us, Adjacent g0 a u) → SameStructure g0 g →
      ∃ g1 q1, relaxNeighbours a g us q = .ok (g1, q1) ∧
        SameStructure g0 g1 ∧
        (DInv g0 s g → DInv g0 s g1) ∧
        (ValCoherent g → ValCoherent g1) ∧
        q1.map (·.1) = q.map (·.1) := by
  intro us
  induction us with
  | nil =>
    intro g q _ hst
    exact ⟨g, q, rfl, hst, id, id, rfl⟩
  | cons u rest ih =>
    intro g q hadj hst
    cases hgu : GetVertex g u with
    | none =>
      simp only [relaxNeighbours, hgu]
      exact ih g q (fun x hx => hadj x (List.mem_cons_of_mem u hx)) hst
    | some uv =>
      have he : EdgeExists g a u = true := by
        rw [hst.EdgeExists]
        exact hE u (hadj u (List.mem_cons_self ..))
      have hsome := relaxEdge_isSome g a u he
      cases hre : relaxEdge g a u with
      | none => rw [hre] at hsome; cases hsome
      | some g2 =>
        rcases relaxEdge_pres hre with ⟨hst2, _, hvc2⟩
        have hdi2 : DInv g0 s g → DInv g0 s g2 := fun hd =>
          hd.relax_pres hst (hadj u (List.mem_cons_self ..)) hre
        simp only [relaxNeighbours, hgu, hre]
        split
        · obtain ⟨g3, q3, heq, h1, h2, h3, h4⟩ :=
            ih g2 (pqUpdate q u
                (((GetVertex g2 u).map (·.distanceFromSource)).getD
                  uv.distanceFromSource))
              (fun x hx => hadj x (List.mem_cons_of_mem u hx)) (hst.trans hst2)
          exact ⟨g3, q3, heq, h1, fun hd => h2 (hdi2 hd),
                 fun hv => h3 (hvc2 hv), h4.trans (pqUpdate_keys ..)⟩
        · obtain ⟨g3, q3, heq, h1, h2, h3, h4⟩ :=
            ih g2 q (fun x hx => hadj x (List.mem_cons_of_mem u hx))
              (hst.trans hst2)
          exact ⟨g3, q3, heq, h1, fun hd => h2 (hdi2 hd),
                 fun hv => h3 (hvc2 hv), h4⟩

theorem dijkstraLoop_spec {g0 : Graph T} {s : T} (f : Vertex T → Decision E)
    (hE : ∀ a b, Adjacent g0 a b → EdgeExists g0 a b = true)
    (hf : ∀ v e, f v ≠ .fail e) :
    ∀ (fuel : Nat) (g : Graph T) (q : PQueue T),
      q.length < fuel → SameStructure g0 g →
      (∀ kp ∈ q, kp.1 ∈ g0.vertices.map (·.1)) →
      DInv g0 s g → ValCoherent g →
      (dijkstraLoop f fuel g q).result = .ok () ∧
      SameStructure g0 (dijkstraLoop f fuel g q).graph ∧
      DInv g0 s (dijkstraLoop f fuel g q).graph ∧
      ValCoherent (dijkstraLoop f fuel g q).graph := by
  intro fuel
  induction fuel with
  | zero => intro g q hlen; exact absurd hlen (Nat.not_lt_zero _)
  | succ fuel ih =>
    intro g q hlen hst hqmem hdi hvc
    cases hpop : pqPopMin q with
    | none =>
      simp only [dijkstraLoop, hpop]
      exact ⟨trivial, hst, hdi, hvc⟩
    | some p =>
      rcases p with ⟨⟨vkey, pri⟩, q1⟩
      rcases pqPopMin_spec q _ _ hpop with ⟨hx_mem, _, hq1len, hq1sub⟩
      have hadjall : ∀ u ∈ GetNeighbours g vkey, Adjacent g0 vkey u := by
        intro u hu
        rw [hst.GetNeighbours] at hu
        exact hu
      obtain ⟨g2, q2, heq, hst2, hdi2, hvc2, hq2keys⟩ :=
        relaxNeighbours_spec (s := s) (fun b hb => hE vkey b hb)
          (GetNeighbours g vkey) g q1 hadjall hst
      have hv2some : (GetVertex g2 vkey).isSome = true := by
        rw [show GetVertex g2 vkey = alookup g2.vertices vkey from rfl,
            alookup_isSome_iff, hst2.1]
        exact hqmem _ hx_mem
      rcases Option.isSome_iff_exists.mp hv2some with ⟨vrec, hgv⟩
      simp only [dijkstraLoop, hpop, heq, hgv]
      cases hfv : f vrec with
      | stop => simp only [hfv]; exact ⟨trivial, hst2, hdi2 hdi, hvc2 hvc⟩
      | fail e => exact absurd hfv (hf vrec e)
      | cont =>
        simp only [hfv]
        have hq2len : q2.length < fuel := by
          have h1 : q2.length = q1.length := by
            have := congrArg List.length hq2keys
            simpa using this
          omega
        have hq2mem : ∀ kp ∈ q2, kp.1 ∈ g0.vertices.map (·.1) := by
          intro kp hkp
          have hk1 : kp.1 ∈ q2.map (·.1) := List.mem_map_of_mem _ hkp
          rw [hq2keys] at hk1
          rcases List.mem_map.mp hk1 with ⟨y, hy, hyk⟩
          rw [← hyk]
          exact hqmem y (hq1sub y hy)
        exact ih g2 q2 hq2len hst2 hq2mem (hdi2 hdi) (hvc2 hvc)

/-- Adjacency pairs of a well-formed graph are backed by edges. -/
theorem WF_adj_edge {g : Graph T} (hwf : WFGraph g) :
    ∀ a b, Adjacent g a b → EdgeExists g a b = true := by
  intro a b hab
  unfold Adjacent GetNeighbours at hab
  cases hl : alookup g.adjacencyLists a with
  | none => rw [hl] at hab; cases hab
  | some l =>
    rw [hl] at hab
    exact hwf.2.2.2.1 (a, l) (alookup_mem _ _ hl) b hab

theorem WalkDijkstra_spec (g : Graph T) (s : T) (f : Vertex T → Decision E)
    (hwf : WFGraph g) (hs : VertexExists g s = true)
    (hf : ∀ v e, f v ≠ .fail e) :
    (WalkDijkstra g s f).result = .ok () ∧
    SameStructure g (WalkDijkstra g s f).graph ∧
    DInv g s (WalkDijkstra g s f).graph ∧
    ValCoherent (WalkDijkstra g s f).graph := by
  have hisome := initializeSourceVertex_isSome g s hs
  cases hinit : initializeSourceVertex g s with
  | none => rw [hinit] at hisome; cases hisome
  | some g1 =>
    rcases initializeSourceVertex_eq g s hs g1 hinit with ⟨hst1, hne, hself⟩
    simp only [WalkDijkstra, hinit]
    have hdi1 : DInv g s g1 := by
      intro k v hv
      by_cases hk : k = s
      · subst hk
        constructor
        · intro _; exact ⟨0, .refl⟩
        · intro _ _; exact ⟨0, .refl⟩
      · rw [hne k hk] at hv
        rcases Option.map_eq_some'.mp hv with ⟨v0, _, rfl⟩
        constructor
        · intro hd; exact absurd rfl hd
        · intro p hp; cases hp
    have hvc1 : ValCoherent g1 := by
      intro k v hv
      by_cases hk : k = s
      · subst hk
        rw [hself] at hv
        rcases Option.map_eq_some'.mp hv with ⟨v0, hv0, rfl⟩
        exact ((ValCoherent.of_WF hwf) k v0 hv0 : v0.value = k)
      · rw [hne k hk] at hv
        rcases Option.map_eq_some'.mp hv with ⟨v0, hv0, rfl⟩
        exact ((ValCoherent.of_WF hwf) k v0 hv0 : v0.value = k)
    have hqmem : ∀ kp ∈ g1.vertices.map
        (fun kv => (kv.1, kv.2.distanceFromSource)), kp.1 ∈ g.vertices.map (·.1) := by
      intro kp hkp
      rcases List.mem_map.mp hkp with ⟨kv, hkv, rfl⟩
      rw [← hst1.1]
      exact List.mem_map_of_mem _ hkv
    exact dijkstraLoop_spec f (WF_adj_edge hwf) hf _ g1 _
      (Nat.lt_succ_self _) hst1 hqmem hdi1 hvc1

/-- No vertex outside an adjacency-closed set containing the source is
reachable from it. -/
theorem not_reach_of_closed (g : Graph T) (s : T) (S : List T) (hsS : s ∈ S)
    (hclosed : ∀ a ∈ S, ∀ b ∈ GetNeighbours g a, b ∈ S) (d : T)
    (hd : d ∉ S) : ¬ Reach g s d := by
  rintro ⟨n, hn⟩
  have key : ∀ k m, ReachIn g s k m → k ∈ S := by
    intro k m h
    induction h with
    | refl => exact hsS
    | step ha hadj ih => exact hclosed _ ih _ hadj
  exact hd (key d n hn)

/-- With `dest = source`, the very first vertex Dijkstra extracts is the
source (its key is 0, every other key is `+∞`), so the internal
stop-at-destination walker ends the walk right there; the stored source
record keeps its value. -/
theorem WalkDijkstra_self_stop (g : Graph T) (s : T) (hwf : WFGraph g)
    (hs : VertexExists g s = true) :
    (WalkDijkstra g s (fun v =>
        if v.value = s then Decision.stop (E := E) else .cont)).result =
      .ok () ∧
    ∃ vrec, GetVertex (WalkDijkstra g s (fun v =>
        if v.value = s then Decision.stop (E := E) else .cont)).graph s =
        some vrec ∧ vrec.value = s := by
  have hisome := initializeSourceVertex_isSome g s hs
  cases hinit : initializeSourceVertex g s with
  | none => rw [hinit] at hisome; cases hisome
  | some g1 =>
    rcases initializeSourceVertex_eq g s hs g1 hinit with ⟨hst1, hne, hself⟩
    rcases Option.isSome_iff_exists.mp hs with ⟨v0, hv0⟩
    have hg1s : GetVertex g1 s =
        some { initV v0 with distanceFromSource := 0 } := by
      rw [hself, hv0]; rfl
    have hvc1 : ValCoherent g1 := by
      intro k v hv
      by_cases hk : k = s
      · subst hk
        rw [hself] at hv
        rcases Option.map_eq_some'.mp hv with ⟨w0, hw0, rfl⟩
        exact ((ValCoherent.of_WF hwf) k w0 hw0 : w0.value = k)
      · rw [hne k hk] at hv
        rcases Option.map_eq_some'.mp hv with ⟨w0, hw0, rfl⟩
        exact ((ValCoherent.of_WF hwf) k w0 hw0 : w0.value = k)
    have hnodup1 : (g1.vertices.map (·.1)).Nodup := by
      rw [hst1.1]; exact hwf.1
    have hsq : (s, (0 : EDist)) ∈ g1.vertices.map
        (fun kv => (kv.1, kv.2.distanceFromSource)) := by
      have hmem := alookup_mem _ _ hg1s
      have h2 := List.mem_map_of_mem
        (fun kv : T × Vertex T => (kv.1, kv.2.distanceFromSource)) hmem
      simpa using h2
    have hentry : ∀ kp ∈ g1.vertices.map
        (fun kv => (kv.1, kv.2.distanceFromSource)),
        kp.1 ≠ s → kp.2 = (⊤ : EDist) := by
      intro kp hkp hne2
      rcases List.mem_map.mp hkp with ⟨kv, hkv, rfl⟩
      have hlk : GetVertex g1 kv.1 = some kv.2 :=
        alookup_eq_of_mem_nodup hnodup1 hkv
      rw [hne kv.1 hne2] at hlk
      rcases Option.map_eq_some'.mp hlk with ⟨w0, _, hw⟩
      rw [← hw]
      rfl
    have hqne : g1.vertices.map
        (fun kv => (kv.1, kv.2.distanceFromSource)) ≠ [] := by
      intro h
      rw [h] at hsq
      cases hsq
    have hpops := pqPopMin_isSome _ hqne
    cases hpop : pqPopMin (g1.vertices.map
        (fun kv => (kv.1, kv.2.distanceFromSource))) with
    | none => rw [hpop] at hpops; cases hpops
    | some p =>
      rcases p with ⟨⟨x1, x2⟩, q1⟩
      rcases pqPopMin_spec _ _ _ hpop with ⟨hx_mem, hx_min, _, _⟩
      have hx2 : x2 ≤ (0 : EDist) := hx_min _ hsq
      have hx1 : x1 = s := by
        by_contra hxs
        have hxt : x2 = (⊤ : EDist) := hentry _ hx_mem hxs
        rw [hxt] at hx2
        exact absurd (top_le_iff.mp hx2).symm (by decide)
      rw [hx1] at hpop
      have hadjall : ∀ u ∈ GetNeighbours g1 s, Adjacent g s u := by
        intro u hu
        rw [hst1.GetNeighbours] at hu
        exact hu
      obtain ⟨g2, q2, heq, hst2, _, hvc2, _⟩ :=
        relaxNeighbours_spec (s := s) (WF_adj_edge hwf s)
          (GetNeighbours g1 s) g1 q1 hadjall hst1
      have hv2some : (GetVertex g2 s).isSome = true := by
        rw [show GetVertex g2 s = alookup g2.vertices s from rfl,
            alookup_isSome_iff, hst2.1]
        exact (VertexExists_iff_mem g s).mp hs
      rcases Option.isSome_iff_exists.mp hv2some with ⟨vrec, hgv⟩
      have hval : vrec.value = s := (hvc2 hvc1) s vrec hgv
      have hw : (if vrec.value = s then Decision.stop (E := E) else .cont) =
          .stop := if_pos hval
      simp only [WalkDijkstra, hinit, dijkstraLoop, hpop, heq, hgv, hw]
      exact ⟨trivial, vrec, rfl, hval⟩

end DijkstraLemmas

section CloneLemmas

variable {T : Type} [DecidableEq T]

theorem alookup_append_some {α : Type} (l1 l2 : List (T × α)) (k : T) {v : α}
    (h : alookup l1 k = some v) : alookup (l1 ++ l2) k = some v := by
  induction l1 with
  | nil => simp [alookup] at h
  | cons p rest ih =>
    obtain ⟨k2, v2⟩ := p
    rw [List.cons_append, alookup_cons]
    rw [alookup_cons] at h
    by_cases hk : k = k2
    · rw [if_pos hk] at h ⊢; exact h
    · rw [if_neg hk] at h ⊢; exact ih h

theorem alookup_append_right {α : Type} (l1 l2 : List (T × α)) (k : T)
    (h : ∀ p ∈ l1, p.1 ≠ k) : alookup (l1 ++ l2) k = alookup l2 k := by
  induction l1 with
  | nil => rfl
  | cons p rest ih =>
    obtain ⟨k2, v2⟩ := p
    rw [List.cons_append, alookup_cons,
      if_neg (fun he => h (k2, v2) (List.mem_cons_self _ _) he.symm)]
    exact ih (fun q hq => h q (List.mem_cons_of_mem _ hq))

theorem cloneNewVerticesFrom_cons (nn j : Nat) (ka : T × Nat)
    (l : List (T × Nat)) :
    cloneNewVerticesFrom nn j (ka :: l) =
      (ka.1, nn + j) :: cloneNewVerticesFrom nn (j + 1) l := rfl

theorem cloneNewVerticesFrom_keys (nn : Nat) (l : List (T × Nat)) (j : Nat) :
    (cloneNewVerticesFrom nn j l).map (·.1) = l.map (·.1) := by
  induction l generalizing j with
  | nil => rfl
  | cons ka rest ih =>
    rw [cloneNewVerticesFrom_cons, List.map_cons, List.map_cons, ih]

theorem cloneNewVerticesFrom_mem (nn : Nat) (l : List (T × Nat)) (j : Nat)
    (ka : T × Nat) (h : ka ∈ cloneNewVerticesFrom nn j l) :
    ∃ i b, l.get? i = some (ka.1, b) ∧ ka.2 = nn + (j + i) := by
  induction l generalizing j with
  | nil => simp [cloneNewVerticesFrom, List.enumFrom] at h
  | cons p rest ih =>
    rw [cloneNewVerticesFrom_cons] at h
    rcases List.mem_cons.mp h with h0 | h1
    · refine ⟨0, p.2, ?_, ?_⟩
      · rw [h0]; exact rfl
      · rw [h0]; exact rfl
    · obtain ⟨i, b, hg, he⟩ := ih (j + 1) h1
      exact ⟨i + 1, b, hg, by omega⟩

theorem alookup_cloneNewVerticesFrom (nn : Nat) (l : List (T × Nat))
    (j : Nat) (k : T) (a : Nat)
    (h : alookup (cloneNewVerticesFrom nn j l) k = some a) :
    ∃ i b, l.get? i = some (k, b) ∧ a = nn + (j + i) := by
  induction l generalizing j with
  | nil => simp [cloneNewVerticesFrom, List.enumFrom, alookup] at h
  | cons p rest ih =>
    rw [cloneNewVerticesFrom_cons, alookup_cons] at h
    by_cases hk : k = p.1
    · rw [if_pos hk] at h
      injection h with ha
      refine ⟨0, p.2, ?_, by omega⟩
      rw [hk]; exact rfl
    · rw [if_neg hk] at h
      obtain ⟨i, b, hg, he⟩ := ih (j + 1) h
      exact ⟨i + 1, b, hg, by omega⟩

theorem cloneVObjsFrom_cons_none (σ : Store T) (nv : List (T × Nat))
    (nn j : Nat) (ka : T × Nat) (l : List (T × Nat))
    (h : alookup σ.vheap ka.2 = none) :
    cloneVObjsFrom σ nv nn j (ka :: l) = cloneVObjsFrom σ nv nn (j + 1) l := by
  simp [cloneVObjsFrom, List.enumFrom, List.filterMap_cons, h]

theorem cloneVObjsFrom_cons_some (σ : Store T) (nv : List (T × Nat))
    (nn j : Nat) (ka : T × Nat) (l : List (T × Nat)) {o : HVertex T}
    (h : alookup σ.vheap ka.2 = some o) :
    cloneVObjsFrom σ nv nn j (ka :: l) =
      (nn + j, { o with parent := cloneReParent σ nv o }) ::
        cloneVObjsFrom σ nv nn (j + 1) l := by
  simp [cloneVObjsFrom, List.enumFrom, List.filterMap_cons, h]

theorem cloneVObjsFrom_keys_ge (σ : Store T) (nv : List (T × Nat)) (nn : Nat)
    (l : List (T × Nat)) (j : Nat) (p : Nat × HVertex T)
    (hp : p ∈ cloneVObjsFrom σ nv nn j l) : nn + j ≤ p.1 := by
  induction l generalizing j with
  | nil => simp [cloneVObjsFrom, List.enumFrom] at hp
  | cons ka rest ih =>
    cases h : alookup σ.vheap ka.2 with
    | none =>
      rw [cloneVObjsFrom_cons_none σ nv nn j ka rest h] at hp
      exact le_trans (by omega) (ih (j + 1) hp)
    | some o =>
      rw [cloneVObjsFrom_cons_some σ nv nn j ka rest h] at hp
      rcases List.mem_cons.mp hp with h0 | h1
      · rw [h0]
      · exact le_trans (by omega) (ih (j + 1) h1)

theorem alookup_cloneVObjsFrom (σ : Store T) (nv : List (T × Nat)) (nn : Nat)
    (l : List (T × Nat)) (j i : Nat) (k : T) (a : Nat) (o : HVertex T)
    (hget : l.get? i = some (k, a)) (halo : alookup σ.vheap a = some o) :
    alookup (cloneVObjsFrom σ nv nn j l) (nn + (j + i)) =
      some { o with parent := cloneReParent σ nv o } := by
  induction l generalizing j i with
  | nil => simp at hget
  | cons ka rest ih =>
    cases i with
    | zero =>
      have hka : ka = (k, a) := by
        have : some ka = some (k, a) := hget
        injection this
      subst hka
      rw [cloneVObjsFrom_cons_some σ nv nn j (k, a) rest halo, alookup_cons,
        if_pos (by omega)]
    | succ i =>
      have hget' : rest.get? i = some (k, a) := hget
      have hkey : nn + (j + (i + 1)) = nn + ((j + 1) + i) := by omega
      cases h : alookup σ.vheap ka.2 with
      | none =>
        rw [cloneVObjsFrom_cons_none σ nv nn j ka rest h, hkey]
        exact ih (j + 1) i hget'
      | some o2 =>
        rw [cloneVObjsFrom_cons_some σ nv nn j ka rest h, alookup_cons,
          if_neg (by omega), hkey]
        exact ih (j + 1) i hget'

theorem cloneEObjsFrom_cons_none (σ : Store T) (mm j : Nat) (a : Nat)
    (l : List Nat) (h : alookup σ.eheap a = none) :
    cloneEObjsFrom σ mm j (a :: l) = cloneEObjsFrom σ mm (j + 1) l := by
  simp [cloneEObjsFrom, List.enumFrom, List.filterMap_cons, h]

theorem cloneEObjsFrom_cons_some (σ : Store T) (mm j : Nat) (a : Nat)
    (l : List Nat) {o : HEdge T} (h : alookup σ.eheap a = some o) :
    cloneEObjsFrom σ mm j (a :: l) =
      (mm + j, o) :: cloneEObjsFrom σ mm (j + 1) l := by
  simp [cloneEObjsFrom, List.enumFrom, List.filterMap_cons, h]

theorem cloneEObjsFrom_keys_ge (σ : Store T) (mm : Nat) (l : List Nat)
    (j : Nat) (p : Nat × HEdge T) (hp : p ∈ cloneEObjsFrom σ mm j l) :
    mm + j ≤ p.1 := by
  induction l generalizing j with
  | nil => simp [cloneEObjsFrom, List.enumFrom] at hp
  | cons a rest ih =>
    cases h : alookup σ.eheap a with
    | none =>
      rw [cloneEObjsFrom_cons_none σ mm j a rest h] at hp
      exact le_trans (by omega) (ih (j + 1) hp)
    | some o =>
      rw [cloneEObjsFrom_cons_some σ mm j a rest h] at hp
      rcases List.mem_cons.mp hp with h0 | h1
      · rw [h0]
      · exact le_trans (by omega) (ih (j + 1) h1)

theorem alookup_cloneEObjsFrom (σ : Store T) (mm : Nat) (l : List Nat)
    (j i : Nat) (a : Nat) (o : HEdge T) (hget : l.get? i = some a)
    (halo : alookup σ.eheap a = some o) :
    alookup (cloneEObjsFrom σ mm j l) (mm + (j + i)) = some o := by
  induction l generalizing j i with
  | nil => simp at hget
  | cons a0 rest ih =>
    cases i with
    | zero =>
      have ha : a0 = a := by
        have : some a0 = some a := hget
        injection this
      subst ha
      rw [cloneEObjsFrom_cons_some σ mm j a0 rest halo, alookup_cons,
        if_pos (by omega)]
    | succ i =>
      have hget' : rest.get? i = some a := hget
      have hkey : mm + (j + (i + 1)) = mm + ((j + 1) + i) := by omega
      cases h : alookup σ.eheap a0 with
      | none =>
        rw [cloneEObjsFrom_cons_none σ mm j a0 rest h, hkey]
        exact ih (j + 1) i hget'
      | some o2 =>
        rw [cloneEObjsFrom_cons_some σ mm j a0 rest h, alookup_cons,
          if_neg (by omega), hkey]
        exact ih (j + 1) i hget'

theorem cloneNewEdgesFrom_cons (mm j : Nat) (a : Nat) (l : List Nat) :
    cloneNewEdgesFrom mm j (a :: l) =
      (mm + j) :: cloneNewEdgesFrom mm (j + 1) l := rfl

theorem HWF_spec (σ : Store T) (g : HGraph T) (hwf : HWF σ g) :
    (∀ p ∈ σ.vheap, p.1 < σ.next) ∧ (∀ p ∈ σ.eheap, p.1 < σ.next) ∧
    (∀ ka ∈ g.vertices, ∃ o, alookup σ.vheap ka.2 = some o ∧ o.value = ka.1 ∧
      ∀ pa, o.parent = some pa →
        ∃ po, alookup σ.vheap pa = some po ∧
          po.value ∈ g.vertices.map (·.1)) ∧
    (∀ a ∈ g.edges, ∃ o, alookup σ.eheap a = some o) := by
  obtain ⟨h1, h2, h3, h4⟩ := hwf
  refine ⟨h1, h2, ?_, fun a ha => Option.isSome_iff_exists.mp (h4 a ha)⟩
  intro ka hka
  obtain ⟨o, ho, hval, hpar⟩ := h3 ka hka
  rw [Option.mem_toList, Option.mem_def] at ho
  refine ⟨o, ho, hval, ?_⟩
  intro pa hpa
  obtain ⟨po, hpo, hpm⟩ :=
    hpar pa (by rw [Option.mem_toList, Option.mem_def]; exact hpa)
  rw [Option.mem_toList, Option.mem_def] at hpo
  exact ⟨po, hpo, hpm⟩

theorem map_congr_mem {α β : Type} (l : List α) (f g : α → β)
    (h : ∀ x ∈ l, f x = g x) : l.map f = l.map g := by
  induction l with
  | nil => rfl
  | cons x xs ih =>
    rw [List.map_cons, List.map_cons, h x (List.mem_cons_self x xs),
      ih (fun y hy => h y (List.mem_cons_of_mem _ hy))]

/-- Two stores that agree on every vertex object resolving in the first
give the same view of a graph whose pointers (and parent pointers) all
resolve in the first. -/
theorem hViewV_agree (σ σ2 : Store T) (g : HGraph T)
    (hagree : ∀ a o, alookup σ.vheap a = some o → alookup σ2.vheap a = some o)
    (h3 : ∀ ka ∈ g.vertices, ∃ o, alookup σ.vheap ka.2 = some o ∧
      ∀ pa, o.parent = some pa → ∃ po, alookup σ.vheap pa = some po) :
    hViewV σ2 g = hViewV σ g := by
  unfold hViewV
  apply map_congr_mem
  intro ka hka
  obtain ⟨o, ho, hpar⟩ := h3 ka hka
  rw [ho, hagree ka.2 o ho]
  cases hp : o.parent with
  | none => simp [hp]
  | some pa =>
    obtain ⟨po, hpo⟩ := hpar pa hp
    simp [hp, hpo, hagree pa po hpo]

theorem hViewE_agree (σ σ2 : Store T) (g : HGraph T)
    (hagree : ∀ a o, alookup σ.eheap a = some o → alookup σ2.eheap a = some o)
    (h4 : ∀ a ∈ g.edges, ∃ o, alookup σ.eheap a = some o) :
    hViewE σ2 g = hViewE σ g := by
  unfold hViewE
  apply map_congr_mem
  intro a ha
  obtain ⟨o, ho⟩ := h4 a ha
  rw [ho, hagree a o ho]

/-- Mutating the object at an address no vertex pointer (or resolved
parent pointer) of `g` targets leaves `g`'s view unchanged. -/
theorem hViewV_amodify_ne (σ2 : Store T) (g : HGraph T) (a0 : Nat)
    (f : HVertex T → HVertex T)
    (hne : ∀ ka ∈ g.vertices, ka.2 ≠ a0)
    (hpne : ∀ ka ∈ g.vertices, ∀ o, alookup σ2.vheap ka.2 = some o →
      ∀ pa, o.parent = some pa → pa ≠ a0) :
    hViewV { σ2 with vheap := amodify σ2.vheap a0 f } g = hViewV σ2 g := by
  unfold hViewV
  apply map_congr_mem
  intro ka hka
  rw [show ({ σ2 with vheap := amodify σ2.vheap a0 f } : Store T).vheap
      = amodify σ2.vheap a0 f from rfl]
  rw [alookup_amodify_ne σ2.vheap a0 ka.2 f (hne ka hka)]
  cases ho : alookup σ2.vheap ka.2 with
  | none => rfl
  | some o =>
    cases hp : o.parent with
    | none => simp [hp]
    | some pa =>
      simp [hp, alookup_amodify_ne σ2.vheap a0 pa f (hpne ka hka o ho pa hp)]

/-- Core `Clone` lemma: the object the clone's heap stores at the fresh
address `next + i` is the original's `i`-th vertex object with its parent
re-linked through the fresh key map. -/
theorem clone_vlookup (σ : Store T) (g : HGraph T)
    (h1 : ∀ p ∈ σ.vheap, p.1 < σ.next) (i : Nat) (k : T) (a : Nat)
    (o : HVertex T) (hg : g.vertices.get? i = some (k, a))
    (halo : alookup σ.vheap a = some o) :
    alookup (Clone σ g).1.vheap (σ.next + i) =
      some { o with
        parent := cloneReParent σ (cloneNewVertices σ.next g.vertices) o } := by
  show alookup (σ.vheap ++
    cloneVObjs σ (cloneNewVertices σ.next g.vertices) σ.next g.vertices)
    (σ.next + i) = _
  rw [alookup_append_right _ _ _ (fun p hp => by have := h1 p hp; omega)]
  have := alookup_cloneVObjsFrom σ (cloneNewVertices σ.next g.vertices)
    σ.next g.vertices 0 i k a o hg halo
  simpa [cloneVObjs] using this

/-- Core `Clone` lemma: the object the clone's heap stores at the fresh
edge address `next + |V| + i` is a copy of the original's `i`-th edge
object. -/
theorem clone_elookup (σ : Store T) (g : HGraph T)
    (h2 : ∀ p ∈ σ.eheap, p.1 < σ.next) (i : Nat) (a : Nat) (o : HEdge T)
    (hg : g.edges.get? i = some a) (halo : alookup σ.eheap a = some o) :
    alookup (Clone σ g).1.eheap (σ.next + g.vertices.length + i) = some o := by
  show alookup (σ.eheap ++
    cloneEObjs σ (σ.next + g.vertices.length) g.edges)
    (σ.next + g.vertices.length + i) = _
  rw [alookup_append_right _ _ _ (fun p hp => by have := h2 p hp; omega)]
  have := alookup_cloneEObjsFrom σ (σ.next + g.vertices.length) g.edges
    0 i a o hg halo
  simpa [cloneEObjs] using this

/-- The clone's vertex view (over any suffix of the fresh key map) equals
the original's vertex view over the corresponding suffix of the original
key map. -/
theorem clone_viewV_from (σ : Store T) (g : HGraph T)
    (h1 : ∀ p ∈ σ.vheap, p.1 < σ.next)
    (h3 : ∀ ka ∈ g.vertices, ∃ o, alookup σ.vheap ka.2 = some o ∧
      o.value = ka.1 ∧ ∀ pa, o.parent = some pa →
        ∃ po, alookup σ.vheap pa = some po ∧
          po.value ∈ g.vertices.map (·.1)) :
    ∀ (vs : List (T × Nat)) (j : Nat),
      (∀ i, vs.get? i = g.vertices.get? (j + i)) →
      hViewV (Clone σ g).1
          ⟨cloneNewVerticesFrom σ.next j vs, [], [], g.kind⟩
        = hViewV σ ⟨vs, [], [], g.kind⟩ := by
  intro vs
  induction vs with
  | nil => intro j hsuf; rfl
  | cons ka rest ih =>
    intro j hsuf
    obtain ⟨k, a⟩ := ka
    have hg : g.vertices.get? j = some (k, a) := by
      have h0 := (hsuf 0).symm
      simpa using h0
    have hmem : (k, a) ∈ g.vertices := List.get?_mem hg
    obtain ⟨o, halo, hval, hpar⟩ := h3 (k, a) hmem
    rw [cloneNewVerticesFrom_cons]
    simp only [hViewV]
    rw [List.map_cons, List.map_cons]
    congr 1
    · rw [clone_vlookup σ g h1 j k a o hg halo, halo]
      cases hp : o.parent with
      | none => simp [cloneReParent, hp]
      | some pa =>
        obtain ⟨po, hpo, hpm⟩ := hpar pa hp
        have hsome : (alookup (cloneNewVertices σ.next g.vertices)
            po.value).isSome = true := by
          rw [alookup_isSome_iff,
            show (cloneNewVertices σ.next g.vertices)
              = cloneNewVerticesFrom σ.next 0 g.vertices from rfl,
            cloneNewVerticesFrom_keys]
          exact hpm
        obtain ⟨a2, ha2⟩ := Option.isSome_iff_exists.mp hsome
        obtain ⟨i2, b2, hg2, he2⟩ :=
          alookup_cloneNewVerticesFrom σ.next g.vertices 0 po.value a2 ha2
        obtain ⟨o2, halo2, hval2, _⟩ := h3 (po.value, b2) (List.get?_mem hg2)
        have hlk2 : alookup (Clone σ g).1.vheap a2 =
            some { o2 with parent :=
              cloneReParent σ (cloneNewVertices σ.next g.vertices) o2 } := by
          rw [show a2 = σ.next + i2 by omega]
          exact clone_vlookup σ g h1 i2 po.value b2 o2 hg2 halo2
        simp [cloneReParent, hp, hpo, ha2, hlk2, hval2]
    · have htail := ih (j + 1) (fun i => by
        have h := hsuf (i + 1)
        rw [show j + (i + 1) = (j + 1) + i by omega] at h
        exact h)
      simpa [hViewV] using htail

/-- The clone's edge view equals the original's edge view. -/
theorem clone_viewE_from (σ : Store T) (g : HGraph T)
    (h2 : ∀ p ∈ σ.eheap, p.1 < σ.next)
    (h4 : ∀ a ∈ g.edges, ∃ o, alookup σ.eheap a = some o) :
    ∀ (es : List Nat) (j : Nat),
      (∀ i, es.get? i = g.edges.get? (j + i)) →
      hViewE (Clone σ g).1
          ⟨[], cloneNewEdgesFrom (σ.next + g.vertices.length) j es, [],
            g.kind⟩
        = hViewE σ ⟨[], es, [], g.kind⟩ := by
  intro es
  induction es with
  | nil => intro j hsuf; rfl
  | cons a rest ih =>
    intro j hsuf
    have hg : g.edges.get? j = some a := by
      have h0 := (hsuf 0).symm
      simpa using h0
    obtain ⟨o, ho⟩ := h4 a (List.get?_mem hg)
    rw [cloneNewEdgesFrom_cons]
    simp only [hViewE]
    rw [List.map_cons, List.map_cons]
    congr 1
    · rw [ho, show σ.next + g.vertices.length + j
        = σ.next + g.vertices.length + j from rfl]
      exact clone_elookup σ g h2 j a o hg ho
    · have htail := ih (j + 1) (fun i => by
        have h := hsuf (i + 1)
        rw [show j + (i + 1) = (j + 1) + i by omega] at h
        exact h)
      simpa [hViewE] using htail

/-- Every non-nil parent pointer of a cloned vertex object is an address of
the clone's own vertex map (never one of the original's, which are all
below `next`). -/
theorem clone_relink (σ : Store T) (g : HGraph T)
    (h1 : ∀ p ∈ σ.vheap, p.1 < σ.next)
    (h3 : ∀ ka ∈ g.vertices, ∃ o, alookup σ.vheap ka.2 = some o ∧
      o.value = ka.1 ∧ ∀ pa, o.parent = some pa →
        ∃ po, alookup σ.vheap pa = some po ∧
          po.value ∈ g.vertices.map (·.1)) :
    ∀ ka ∈ (Clone σ g).2.vertices, ∀ o,
      alookup (Clone σ g).1.vheap ka.2 = some o →
      ∀ pa, o.parent = some pa → pa ∈ hVertexAddrs (Clone σ g).2 := by
  intro ka hka o ho pa hp
  have hka' : ka ∈ cloneNewVerticesFrom σ.next 0 g.vertices := hka
  obtain ⟨i, b, hg, he⟩ := cloneNewVerticesFrom_mem σ.next g.vertices 0 ka hka'
  obtain ⟨o1, halo1, hval1, hpar1⟩ := h3 (ka.1, b) (List.get?_mem hg)
  have hlk : alookup (Clone σ g).1.vheap ka.2 =
      some { o1 with parent :=
        cloneReParent σ (cloneNewVertices σ.next g.vertices) o1 } := by
    rw [show ka.2 = σ.next + i by omega]
    exact clone_vlookup σ g h1 i ka.1 b o1 hg halo1
  rw [hlk] at ho
  injection ho with ho'
  subst ho'
  have hp' : cloneReParent σ (cloneNewVertices σ.next g.vertices) o1
      = some pa := hp
  unfold cloneReParent at hp'
  cases hq : o1.parent with
  | none => rw [hq] at hp'; cases hp'
  | some qa =>
    rw [hq] at hp'
    simp only [Option.some_bind] at hp'
    cases hr : alookup σ.vheap qa with
    | none => rw [hr] at hp'; cases hp'
    | some ro =>
      rw [hr] at hp'
      simp only [Option.map_some'] at hp'
      exact List.mem_map.mpr ⟨(ro.value, pa), alookup_mem _ _ hp', rfl⟩

end CloneLemmas

/-!
## Infrastructure for the BFS distance law

The proof of the BFS claim is a lockstep invariant: the queue always
consists of a block of vertices at hop distance `c` followed by a block at
`c + 1`, every coloured vertex's stored distance is its minimum hop count,
every vertex with hop count at most `c` is already coloured, and every
neighbour of a black vertex is coloured.  Fuel accounting uses the number
of white vertices: each iteration pops one entry and whitens none, so
`countWhite + queue.length` drops by exactly one per iteration.
-/

section BFSLemmas

variable {T E : Type} [DecidableEq T]

/-- Number of white vertices (the fuel measure of the BFS/DFS loops). -/
def countWhite (g : Graph T) : Nat :=
  g.vertices.countP (fun kv => decide (kv.2.color = .White))

theorem countP_amodify_decr {α : Type} (l : List (T × α)) (k : T)
    (f : α → α) (p : T × α → Bool) {v : α} (h1 : alookup l k = some v)
    (h2 : p (k, v) = true) (h3 : p (k, f v) = false) :
    (amodify l k f).countP p + 1 = l.countP p := by
  induction l with
  | nil => cases h1
  | cons kv rest ih =>
    obtain ⟨k2, v2⟩ := kv
    rw [alookup_cons] at h1
    by_cases hk : k = k2
    · rw [if_pos hk] at h1
      injection h1 with hv
      subst hv
      subst hk
      rw [show amodify ((k, v2) :: rest) k f = (k, f v2) :: rest from by
        simp [amodify]]
      rw [List.countP_cons, List.countP_cons, h2, h3]
      simp
    · rw [if_neg hk] at h1
      rw [show amodify ((k2, v2) :: rest) k f
          = (k2, v2) :: amodify rest k f from by simp [amodify, hk]]
      rw [List.countP_cons, List.countP_cons]
      cases hp : p (k2, v2) <;> simp [hp] <;> (have hih := ih h1; omega)

theorem countP_amodify_congr {α : Type} (l : List (T × α)) (k : T)
    (f : α → α) (p : T × α → Bool)
    (h : ∀ v, alookup l k = some v → p (k, f v) = p (k, v)) :
    (amodify l k f).countP p = l.countP p := by
  induction l with
  | nil => rfl
  | cons kv rest ih =>
    obtain ⟨k2, v2⟩ := kv
    by_cases hk : k = k2
    · subst hk
      have hv := h v2 (by rw [alookup_cons, if_pos rfl])
      simp [amodify, List.countP_cons, hv]
    · have hrest : ∀ v, alookup rest k = some v → p (k, f v) = p (k, v) :=
        fun v hv => h v (by rw [alookup_cons, if_neg hk]; exact hv)
      simp [amodify, hk, List.countP_cons, ih hrest]

theorem countWhite_updateVertexF_decr (g : Graph T) (u : T) {uv : Vertex T}
    (hu : GetVertex g u = some uv) (hw : uv.color = .White)
    (f : Vertex T → Vertex T) (hf : (f uv).color ≠ .White) :
    countWhite (updateVertexF g u f) + 1 = countWhite g := by
  unfold countWhite updateVertexF
  exact countP_amodify_decr g.vertices u f _ hu (by simp [hw])
    (by simp [hf])

theorem countWhite_updateVertexF_congr (g : Graph T) (u : T)
    (f : Vertex T → Vertex T)
    (h : ∀ v, GetVertex g u = some v →
      ((f v).color = .White ↔ v.color = .White)) :
    countWhite (updateVertexF g u f) = countWhite g := by
  unfold countWhite updateVertexF
  exact countP_amodify_congr g.vertices u f _
    (fun v hv => by simp [decide_eq_decide]; exact h v hv)

theorem ReachIn.zero_eq {g : Graph T} {s u : T} (h : ReachIn g s u 0) :
    u = s := by
  cases h; rfl

theorem ReachIn.succ_inv {g : Graph T} {s u : T} {n : Nat}
    (h : ReachIn g s u (n + 1)) :
    ∃ a, ReachIn g s a n ∧ Adjacent g a u := by
  cases h with
  | step h1 h2 => exact ⟨_, h1, h2⟩

theorem MinHop_exists {g : Graph T} {s u : T} (h : Reach g s u) :
    ∃ n, MinHop g s u n := by
  obtain ⟨n, hn⟩ := h
  revert hn
  induction n using Nat.strong_induction_on with
  | _ n ih =>
    intro hn
    by_cases hex : ∃ m, m < n ∧ ReachIn g s u m
    · obtain ⟨m, hm, hrm⟩ := hex
      exact ih m hm hrm
    · push_neg at hex
      exact ⟨n, hn, fun m hm => by
        by_contra hlt
        exact hex m (by omega) hm⟩

theorem MinHop.unique {g : Graph T} {s u : T} {n m : Nat}
    (h1 : MinHop g s u n) (h2 : MinHop g s u m) : n = m :=
  le_antisymm (h1.2 m h2.1) (h2.2 n h1.1)

theorem edist_coe_succ (c : Nat) :
    ((c : ℚ) : EDist) + 1 = (((c + 1 : ℕ) : ℚ) : EDist) := by norm_cast

theorem edist_coe_nat_inj {n m : ℕ}
    (h : ((n : ℚ) : EDist) = ((m : ℚ) : EDist)) : n = m := by
  exact_mod_cast h

/-- The BFS loop invariant.  `h` is the current mutable state, the queue is
`A ++ B`: the entries of `A` are at hop level `c`, those of `B` at `c + 1`.
All hop/adjacency notions refer to the original graph `g` (the walk never
changes adjacency). -/
structure BFSInv (g : Graph T) (s : T) (h : Graph T) (c : Nat)
    (A B : List T) : Prop where
  struct : SameStructure g h
  qnodup : (A ++ B).Nodup
  qgray : ∀ k ∈ A ++ B, ∃ v, GetVertex h k = some v ∧ v.color = .Gray
  grayq : ∀ k v, GetVertex h k = some v → v.color = .Gray → k ∈ A ++ B
  distA : ∀ k ∈ A, ∃ v, GetVertex h k = some v ∧
    v.distanceFromSource = ((c : ℚ) : EDist)
  distB : ∀ k ∈ B, ∃ v, GetVertex h k = some v ∧
    v.distanceFromSource = (((c + 1 : ℕ) : ℚ) : EDist)
  sound : ∀ k v, GetVertex h k = some v → v.color ≠ .White →
    ∃ n : ℕ, v.distanceFromSource = ((n : ℚ) : EDist) ∧ MinHop g s k n
  frontier : ∀ u m, MinHop g s u m → m ≤ c →
    ∃ v, GetVertex h u = some v ∧ v.color ≠ .White
  blackNb : ∀ k v, GetVertex h k = some v → v.color = .Black →
    ∀ u ∈ GoGraph.GetNeighbours g k,
      ∃ w, GetVertex h u = some w ∧ w.color ≠ .White

/-- With an empty queue there are no gray vertices, so by induction on hop
count every reachable vertex is coloured, and `sound` pins its stored
distance to its minimum hop count. -/
theorem BFSInv.complete {g : Graph T} {s : T} {h : Graph T} {c : Nat}
    {A B : List T} (inv : BFSInv g s h c A B) (hq : A ++ B = []) :
    ∀ k, Reach g s k → ∃ v, ∃ n : ℕ, GetVertex h k = some v ∧
      v.distanceFromSource = ((n : ℚ) : EDist) ∧ MinHop g s k n := by
  have key : ∀ m u, MinHop g s u m →
      ∃ v, GetVertex h u = some v ∧ v.color ≠ .White := by
    intro m
    induction m using Nat.strong_induction_on with
    | _ m ih =>
      intro u hu
      cases m with
      | zero =>
        have hus : u = s := hu.1.zero_eq
        subst hus
        exact inv.frontier u 0 hu (Nat.zero_le c)
      | succ m =>
        obtain ⟨w, hw, hadj⟩ := hu.1.succ_inv
        obtain ⟨mw, hmw⟩ := MinHop_exists ⟨m, hw⟩
        have hmwle : mw ≤ m := hmw.2 m hw
        obtain ⟨wv, hwv, hwc⟩ := ih mw (by omega) w hmw
        have hng : wv.color ≠ .Gray := by
          intro hg
          have hmem := inv.grayq w wv hwv hg
          rw [hq] at hmem
          cases hmem
        have hb : wv.color = .Black := by
          cases hcol : wv.color
          · exact absurd hcol hwc
          · exact absurd hcol hng
          · rfl
        exact inv.blackNb w wv hwv hb u hadj
  intro k hk
  obtain ⟨m, hm⟩ := MinHop_exists hk
  obtain ⟨v, hv, hcol⟩ := key m k hm
  obtain ⟨n, hn, hmin⟩ := inv.sound k v hv hcol
  exact ⟨v, n, hv, hn, hmin⟩

/-- When the level-`c` block empties, the whole queue is the level-`c + 1`
block and the invariant re-indexes: completeness at `c + 1` holds because
a hop-`c + 1` vertex's predecessor is coloured but cannot be gray (gray
vertices sit in the queue at stored distance `c + 1`, yet the predecessor's
stored distance is its hop count `≤ c`), hence black, and black vertices
have no white neighbours. -/
theorem BFSInv.shift {g : Graph T} {s : T} {h : Graph T} {c : Nat}
    {B : List T} (inv : BFSInv g s h c [] B) :
    BFSInv g s h (c + 1) B [] := by
  refine ⟨inv.struct, ?_, ?_, ?_, ?_, ?_, inv.sound, ?_, inv.blackNb⟩
  · simpa using inv.qnodup
  · intro k hk
    exact inv.qgray k (by simpa using hk)
  · intro k v hv hg
    have := inv.grayq k v hv hg
    simpa using this
  · intro k hk
    exact inv.distB k (by simpa using hk)
  · intro k hk
    cases hk
  · intro u m hm hmle
    by_cases hc : m ≤ c
    · exact inv.frontier u m hm hc
    · have hmeq : m = c + 1 := by omega
      subst hmeq
      obtain ⟨w, hw, hadj⟩ := hm.1.succ_inv
      obtain ⟨mw, hmw⟩ := MinHop_exists ⟨c, hw⟩
      have hmwle : mw ≤ c := hmw.2 c hw
      obtain ⟨wv, hwv, hwc⟩ := inv.frontier w mw hmw hmwle
      have hb : wv.color = .Black := by
        cases hcol : wv.color with
        | White => exact absurd hcol hwc
        | Gray =>
          exfalso
          have hmem := inv.grayq w wv hwv hcol
          rw [List.nil_append] at hmem
          obtain ⟨wv2, hwv2, hd2⟩ := inv.distB w hmem
          rw [hwv] at hwv2
          injection hwv2 with he
          subst he
          obtain ⟨n, hn, hminn⟩ := inv.sound w wv hwv hwc
          have hn2 : n = c + 1 := edist_coe_nat_inj (hn.symm.trans hd2)
          have hnmw : n = mw := hminn.unique hmw
          omega
        | Black => rfl
      exact inv.blackNb w wv hwv hb u hadj

theorem BFSInv.normalize {g : Graph T} {s : T} {h : Graph T} {c : Nat}
    {A B : List T} (inv : BFSInv g s h c A B) :
    ∃ c2 A2 B2, BFSInv g s h c2 A2 B2 ∧ A2 ++ B2 = A ++ B ∧
      (A ++ B ≠ [] → A2 ≠ []) := by
  cases A with
  | nil =>
    exact ⟨c + 1, B, [], inv.shift, by simp, fun hne => by simpa using hne⟩
  | cons a0 A2 =>
    exact ⟨c, a0 :: A2, B, inv, rfl, fun _ => by simp⟩

theorem nodup_snoc {α : Type} {l : List α} {u : α} (h1 : l.Nodup)
    (h2 : u ∉ l) : (l ++ [u]).Nodup := by
  simp [List.nodup_append, h1, h2]

/-- The invariant holding *during* the neighbour scan of a popped vertex
`vkey`: like `BFSInv` except `vkey` is gray but off the queue (its record
still carries level `c`), and discovered neighbours accumulate at the back
of the level-`c + 1` block. -/
structure MidInv (g : Graph T) (s vkey : T) (c : Nat) (h : Graph T)
    (A B : List T) : Prop where
  struct : SameStructure g h
  vkeyrec : ∃ vv, GetVertex h vkey = some vv ∧ vv.color = .Gray ∧
    vv.distanceFromSource = ((c : ℚ) : EDist)
  vkeyMin : MinHop g s vkey c
  vkeyNotQ : vkey ∉ A ++ B
  qnodup : (A ++ B).Nodup
  qgray : ∀ k ∈ A ++ B, ∃ v, GetVertex h k = some v ∧ v.color = .Gray
  grayq : ∀ k v, GetVertex h k = some v → v.color = .Gray →
    k = vkey ∨ k ∈ A ++ B
  distA : ∀ k ∈ A, ∃ v, GetVertex h k = some v ∧
    v.distanceFromSource = ((c : ℚ) : EDist)
  distB : ∀ k ∈ B, ∃ v, GetVertex h k = some v ∧
    v.distanceFromSource = (((c + 1 : ℕ) : ℚ) : EDist)
  sound : ∀ k v, GetVertex h k = some v → v.color ≠ .White →
    ∃ n : ℕ, v.distanceFromSource = ((n : ℚ) : EDist) ∧ MinHop g s k n
  frontier : ∀ u m, MinHop g s u m → m ≤ c →
    ∃ v, GetVertex h u = some v ∧ v.color ≠ .White
  blackNb : ∀ k v, GetVertex h k = some v → v.color = .Black →
    ∀ u ∈ GoGraph.GetNeighbours g k,
      ∃ w, GetVertex h u = some w ∧ w.color ≠ .White

/-- Painting one white neighbour gray (at distance `c + 1`, parent `vkey`,
appended to the queue's back) preserves the scan invariant and removes one
white vertex. -/
theorem MidInv.paint {g : Graph T} {s vkey : T} {c : Nat} {h : Graph T}
    {A B : List T} (inv : MidInv g s vkey c h A B) {u : T} {uv : Vertex T}
    (hu : GetVertex h u = some uv) (hw : uv.color = .White)
    (hadj : Adjacent g vkey u) :
    MidInv g s vkey c (updateVertexF h u (fun x =>
      { x with color := .Gray,
               distanceFromSource := ((c : ℚ) : EDist) + 1,
               parent := some vkey })) A (B ++ [u]) ∧
    countWhite (updateVertexF h u (fun x =>
      { x with color := .Gray,
               distanceFromSource := ((c : ℚ) : EDist) + 1,
               parent := some vkey })) + 1 = countWhite h := by
  obtain ⟨vv, hvv, hvg, hvd⟩ := inv.vkeyrec
  have hneuv : u ≠ vkey := by
    intro he
    subst he
    rw [hu] at hvv
    injection hvv with he2
    rw [← he2] at hvg
    rw [hw] at hvg
    cases hvg
  have hunotq : u ∉ A ++ B := by
    intro hm
    obtain ⟨v, hv, hvgr⟩ := inv.qgray u hm
    rw [hu] at hv
    injection hv with he2
    rw [← he2, hw] at hvgr
    cases hvgr
  have hminU : MinHop g s u (c + 1) := by
    constructor
    · exact .step inv.vkeyMin.1 hadj
    · intro m hrm
      by_contra hlt
      have hmle : m ≤ c := by omega
      obtain ⟨mu, hmu⟩ := MinHop_exists ⟨m, hrm⟩
      have : mu ≤ c := le_trans (hmu.2 m hrm) hmle
      obtain ⟨v, hv, hcol⟩ := inv.frontier u mu hmu this
      rw [hu] at hv
      injection hv with he2
      rw [← he2, hw] at hcol
      exact hcol rfl
  refine ⟨⟨inv.struct.update_pres u _, ?_, inv.vkeyMin, ?_, ?_, ?_, ?_,
    ?_, ?_, ?_, ?_, ?_⟩, ?_⟩
  · refine ⟨vv, ?_, hvg, hvd⟩
    rw [GetVertex_updateVertexF_ne _ _ _ _ (Ne.symm hneuv)]
    exact hvv
  · intro hm
    rw [← List.append_assoc] at hm
    rcases List.mem_append.mp hm with hin | hequ
    · exact inv.vkeyNotQ hin
    · exact hneuv (List.mem_singleton.mp hequ).symm
  · rw [← List.append_assoc]
    exact nodup_snoc inv.qnodup hunotq
  · intro k hk
    rw [← List.append_assoc] at hk
    rcases List.mem_append.mp hk with hin | hequ
    · obtain ⟨v, hv, hvgr⟩ := inv.qgray k hin
      have hku : k ≠ u := fun he => hunotq (he ▸ hin)
      refine ⟨v, ?_, hvgr⟩
      rw [GetVertex_updateVertexF_ne _ _ _ _ hku]
      exact hv
    · rcases List.mem_singleton.mp hequ with rfl
      refine ⟨({ uv with color := .Gray,
                         distanceFromSource := ((c : ℚ) : EDist) + 1,
                         parent := some vkey }), ?_, rfl⟩
      rw [GetVertex_updateVertexF_self, hu]
      rfl
  · intro k v hv hg
    by_cases hk : k = u
    · subst hk
      right
      rw [← List.append_assoc]
      exact List.mem_append.mpr (Or.inr (List.mem_singleton.mpr rfl))
    · rw [GetVertex_updateVertexF_ne _ _ _ _ hk] at hv
      rcases inv.grayq k v hv hg with he | hin
      · exact Or.inl he
      · right
        rw [← List.append_assoc]
        exact List.mem_append.mpr (Or.inl hin)
  · intro k hk
    have hku : k ≠ u := fun he =>
      hunotq (List.mem_append.mpr (Or.inl (he ▸ hk)))
    obtain ⟨v, hv, hd⟩ := inv.distA k hk
    refine ⟨v, ?_, hd⟩
    rw [GetVertex_updateVertexF_ne _ _ _ _ hku]
    exact hv
  · intro k hk
    rcases List.mem_append.mp hk with hin | hequ
    · have hku : k ≠ u := fun he =>
        hunotq (List.mem_append.mpr (Or.inr (he ▸ hin)))
      obtain ⟨v, hv, hd⟩ := inv.distB k hin
      refine ⟨v, ?_, hd⟩
      rw [GetVertex_updateVertexF_ne _ _ _ _ hku]
      exact hv
    · rcases List.mem_singleton.mp hequ with rfl
      refine ⟨({ uv with color := .Gray,
                         distanceFromSource := ((c : ℚ) : EDist) + 1,
                         parent := some vkey }), ?_, ?_⟩
      · rw [GetVertex_updateVertexF_self, hu]
        rfl
      · show ((c : ℚ) : EDist) + 1 = (((c + 1 : ℕ) : ℚ) : EDist)
        exact edist_coe_succ c
  · intro k v hv hcol
    by_cases hk : k = u
    · subst hk
      rw [GetVertex_updateVertexF_self, hu] at hv
      injection hv with he2
      refine ⟨c + 1, ?_, hminU⟩
      rw [← he2]
      show ((c : ℚ) : EDist) + 1 = (((c + 1 : ℕ) : ℚ) : EDist)
      exact edist_coe_succ c
    · rw [GetVertex_updateVertexF_ne _ _ _ _ hk] at hv
      exact inv.sound k v hv hcol
  · intro u2 m hm hmle
    by_cases hk : u2 = u
    · subst hk
      refine ⟨({ uv with color := .Gray,
                         distanceFromSource := ((c : ℚ) : EDist) + 1,
                         parent := some vkey }), ?_, by simp⟩
      rw [GetVertex_updateVertexF_self, hu]
      rfl
    · obtain ⟨v, hv, hcol⟩ := inv.frontier u2 m hm hmle
      refine ⟨v, ?_, hcol⟩
      rw [GetVertex_updateVertexF_ne _ _ _ _ hk]
      exact hv
  · intro k v hv hb
    by_cases hk : k = u
    · subst hk
      rw [GetVertex_updateVertexF_self, hu] at hv
      injection hv with he2
      rw [← he2] at hb
      cases hb
    · rw [GetVertex_updateVertexF_ne _ _ _ _ hk] at hv
      intro u2 hu2
      obtain ⟨w, hw2, hcol⟩ := inv.blackNb k v hv hb u2 hu2
      by_cases hku2 : u2 = u
      · subst hku2
        refine ⟨({ uv with color := .Gray,
                           distanceFromSource := ((c : ℚ) : EDist) + 1,
                           parent := some vkey }), ?_, by simp⟩
        rw [GetVertex_updateVertexF_self, hu]
        rfl
      · refine ⟨w, ?_, hcol⟩
        rw [GetVertex_updateVertexF_ne _ _ _ _ hku2]
        exact hw2
  · exact countWhite_updateVertexF_decr h u hu hw _ (by
      intro hcl
      cases hcl)

/-- Full specification of the neighbour scan: it preserves the scan
invariant (appending the discovered vertices to the level-`c + 1` block),
keeps `countWhite + queue length` constant, leaves every coloured record
untouched, and leaves every scanned vertex coloured. -/
theorem bfsScan_spec (g : Graph T) (s vkey : T) (c : Nat) :
    ∀ (ns : List T) (h : Graph T) (A B : List T),
      MidInv g s vkey c h A B →
      (∀ u ∈ ns, u ∈ g.vertices.map (·.1)) →
      (∀ u ∈ ns, Adjacent g vkey u) →
      ∃ B2, MidInv g s vkey c (bfsScan vkey h ns (A ++ B)).1 A B2 ∧
        (bfsScan vkey h ns (A ++ B)).2 = A ++ B2 ∧
        countWhite (bfsScan vkey h ns (A ++ B)).1 + (A ++ B2).length
          = countWhite h + (A ++ B).length ∧
        (∀ k v, GetVertex h k = some v → v.color ≠ .White →
          GetVertex (bfsScan vkey h ns (A ++ B)).1 k = some v) ∧
        (∀ u ∈ ns, ∃ w,
          GetVertex (bfsScan vkey h ns (A ++ B)).1 u = some w ∧
          w.color ≠ .White) := by
  intro ns
  induction ns with
  | nil =>
    intro h A B inv hex hadj
    exact ⟨B, inv, rfl, rfl, fun k v hv _ => hv,
      fun u hu => absurd hu (List.not_mem_nil u)⟩
  | cons u rest ih =>
    intro h A B inv hex hadj
    have hukey : u ∈ g.vertices.map (·.1) := hex u (by simp)
    have husome : (GetVertex h u).isSome = true := by
      rw [show GetVertex h u = alookup h.vertices u from rfl,
        alookup_isSome_iff, inv.struct.1]
      exact hukey
    obtain ⟨uv, huv⟩ := Option.isSome_iff_exists.mp husome
    simp only [bfsScan, huv]
    by_cases hwc : uv.color = .White
    · rw [if_pos hwc]
      obtain ⟨vv, hvv, hvg, hvd⟩ := inv.vkeyrec
      have hvdval : ((GetVertex h vkey).map (·.distanceFromSource)).getD 0
          = ((c : ℚ) : EDist) := by
        rw [hvv]
        simp [hvd]
      rw [hvdval]
      obtain ⟨pinv, pcount⟩ := inv.paint huv hwc (hadj u (by simp))
      rw [List.append_assoc]
      obtain ⟨B2, minv2, hq2, hcount2, hpres2, hnw2⟩ :=
        ih (updateVertexF h u (fun x =>
          { x with color := .Gray,
                   distanceFromSource := ((c : ℚ) : EDist) + 1,
                   parent := some vkey })) A (B ++ [u]) pinv
          (fun w hw => hex w (by simp [hw]))
          (fun w hw => hadj w (by simp [hw]))
      refine ⟨B2, minv2, hq2, ?_, ?_, ?_⟩
      · have hlen : (A ++ (B ++ [u])).length = (A ++ B).length + 1 := by
          simp
          omega
        omega
      · intro k v hv hcol
        have hku : k ≠ u := by
          intro he
          subst he
          rw [hv] at huv
          injection huv with he2
          rw [he2] at hcol
          exact hcol hwc
        refine hpres2 k v ?_ hcol
        rw [GetVertex_updateVertexF_ne _ _ _ _ hku]
        exact hv
      · intro w hw
        rcases List.mem_cons.mp hw with rfl | hwrest
        · have hu2 : GetVertex (updateVertexF h w (fun x =>
              { x with color := .Gray,
                       distanceFromSource := ((c : ℚ) : EDist) + 1,
                       parent := some vkey })) w = some
              ({ uv with color := .Gray,
                         distanceFromSource := ((c : ℚ) : EDist) + 1,
                         parent := some vkey }) := by
            rw [GetVertex_updateVertexF_self, huv]
            rfl
          exact ⟨_, hpres2 w _ hu2 (by simp), by simp⟩
        · exact hnw2 w hwrest
    · rw [if_neg hwc]
      obtain ⟨B2, minv2, hq2, hcount2, hpres2, hnw2⟩ :=
        ih h A B inv (fun w hw => hex w (by simp [hw]))
          (fun w hw => hadj w (by simp [hw]))
      refine ⟨B2, minv2, hq2, hcount2, hpres2, ?_⟩
      intro w hw
      rcases List.mem_cons.mp hw with rfl | hwrest
      · exact ⟨uv, hpres2 w uv huv hwc, hwc⟩
      · exact hnw2 w hwrest

/-- Popping the head of the level-`c` block turns the loop invariant into
the scan invariant. -/
theorem BFSInv.pop {g : Graph T} {s : T} {h : Graph T} {c : Nat}
    {vkey : T} {A B : List T} (inv : BFSInv g s h c (vkey :: A) B) :
    MidInv g s vkey c h A B := by
  obtain ⟨v0, hv0, hd0⟩ := inv.distA vkey (by simp)
  obtain ⟨v1, hv1, hg1⟩ := inv.qgray vkey (by simp)
  rw [hv0] at hv1
  injection hv1 with he
  subst he
  obtain ⟨n, hn, hmin⟩ := inv.sound vkey v0 hv0 (by
    intro hcl
    rw [hg1] at hcl
    cases hcl)
  have hnc : n = c := edist_coe_nat_inj (hn.symm.trans hd0)
  subst hnc
  refine ⟨inv.struct, ⟨v0, hv0, hg1, hd0⟩, hmin, ?_, ?_, ?_, ?_, ?_,
    inv.distB, inv.sound, inv.frontier, inv.blackNb⟩
  · exact (List.nodup_cons.mp inv.qnodup).1
  · exact (List.nodup_cons.mp inv.qnodup).2
  · intro k hk
    exact inv.qgray k (by simp [hk])
  · intro k v hv hg
    have hm := inv.grayq k v hv hg
    simp at hm
    rcases hm with he | hin | hin
    · exact Or.inl he
    · exact Or.inr (List.mem_append.mpr (Or.inl hin))
    · exact Or.inr (List.mem_append.mpr (Or.inr hin))
  · intro k hk
    exact inv.distA k (by simp [hk])

/-- After the scan has coloured every neighbour of `vkey`, painting `vkey`
black restores the loop invariant. -/
theorem MidInv.seal {g : Graph T} {s vkey : T} {c : Nat} {h : Graph T}
    {A B : List T} (inv : MidInv g s vkey c h A B)
    (hnb : ∀ u ∈ GoGraph.GetNeighbours g vkey,
      ∃ w, GetVertex h u = some w ∧ w.color ≠ .White) :
    BFSInv g s (Paint h vkey .Black) c A B := by
  obtain ⟨vv, hvv, hvg, hvd⟩ := inv.vkeyrec
  show BFSInv g s (updateVertexF h vkey (fun v => { v with color := .Black }))
    c A B
  have hself : GetVertex (updateVertexF h vkey
      (fun v => { v with color := .Black })) vkey
      = some ({ vv with color := .Black }) := by
    rw [GetVertex_updateVertexF_self, hvv]
    rfl
  refine ⟨inv.struct.update_pres _ _, inv.qnodup, ?_, ?_, ?_, ?_, ?_, ?_,
    ?_⟩
  · intro k hk
    have hkv : k ≠ vkey := fun he => inv.vkeyNotQ (he ▸ hk)
    obtain ⟨v, hv, hg⟩ := inv.qgray k hk
    refine ⟨v, ?_, hg⟩
    rw [GetVertex_updateVertexF_ne _ _ _ _ hkv]
    exact hv
  · intro k v hv hg
    by_cases hk : k = vkey
    · subst hk
      rw [hself] at hv
      injection hv with he
      rw [← he] at hg
      cases hg
    · rw [GetVertex_updateVertexF_ne _ _ _ _ hk] at hv
      rcases inv.grayq k v hv hg with he | hin
      · exact absurd he hk
      · exact hin
  · intro k hk
    have hkv : k ≠ vkey := fun he =>
      inv.vkeyNotQ (he ▸ List.mem_append.mpr (Or.inl hk))
    obtain ⟨v, hv, hd⟩ := inv.distA k hk
    refine ⟨v, ?_, hd⟩
    rw [GetVertex_updateVertexF_ne _ _ _ _ hkv]
    exact hv
  · intro k hk
    have hkv : k ≠ vkey := fun he =>
      inv.vkeyNotQ (he ▸ List.mem_append.mpr (Or.inr hk))
    obtain ⟨v, hv, hd⟩ := inv.distB k hk
    refine ⟨v, ?_, hd⟩
    rw [GetVertex_updateVertexF_ne _ _ _ _ hkv]
    exact hv
  · intro k v hv hcol
    by_cases hk : k = vkey
    · subst hk
      rw [hself] at hv
      injection hv with he
      refine ⟨c, ?_, inv.vkeyMin⟩
      rw [← he]
      exact hvd
    · rw [GetVertex_updateVertexF_ne _ _ _ _ hk] at hv
      exact inv.sound k v hv hcol
  · intro u m hm hmle
    obtain ⟨v, hv, hcol⟩ := inv.frontier u m hm hmle
    by_cases hk : u = vkey
    · subst hk
      exact ⟨_, hself, by simp⟩
    · refine ⟨v, ?_, hcol⟩
      rw [GetVertex_updateVertexF_ne _ _ _ _ hk]
      exact hv
  · intro k v hv hb
    by_cases hk : k = vkey
    · intro u hu
      rw [hk] at hu
      obtain ⟨w, hw, hcol⟩ := hnb u hu
      by_cases hku : u = vkey
      · rw [hku]
        exact ⟨_, hself, by simp⟩
      · refine ⟨w, ?_, hcol⟩
        rw [GetVertex_updateVertexF_ne _ _ _ _ hku]
        exact hw
    · rw [GetVertex_updateVertexF_ne _ _ _ _ hk] at hv
      intro u hu
      obtain ⟨w, hw, hcol⟩ := inv.blackNb k v hv hb u hu
      by_cases hku : u = vkey
      · rw [hku]
        exact ⟨_, hself, by simp⟩
      · refine ⟨w, ?_, hcol⟩
        rw [GetVertex_updateVertexF_ne _ _ _ _ hku]
        exact hw

/-- Correctness of the BFS queue loop under an always-continue visitor:
with the invariant and enough fuel (one per queue entry or white vertex)
the loop terminates successfully and every vertex reachable from the
source ends with its stored distance equal to its minimum hop count. -/
theorem bfsLoop_correct (g : Graph T) (s : T) (f : Vertex T → Decision E)
    (hf : ∀ v, f v = .cont)
    (hadjkeys : ∀ p ∈ g.adjacencyLists, ∀ b ∈ p.2,
      b ∈ g.vertices.map (·.1)) :
    ∀ (fuel : Nat) (h : Graph T) (queue : List T) (c : Nat) (A B : List T),
      queue = A ++ B → BFSInv g s h c A B →
      countWhite h + queue.length ≤ fuel →
      (bfsLoop f fuel h queue).result = .ok () ∧
      (∀ k, Reach g s k → ∃ v, ∃ n : ℕ,
        GetVertex (bfsLoop f fuel h queue).graph k = some v ∧
        v.distanceFromSource = ((n : ℚ) : EDist) ∧ MinHop g s k n) := by
  intro fuel
  induction fuel with
  | zero =>
    intro h queue c A B hq inv hcount
    have hqnil : queue = [] := by
      cases queue with
      | nil => rfl
      | cons a rest =>
        exfalso
        rw [List.length_cons] at hcount
        omega
    subst hqnil
    exact ⟨rfl, fun k hk => inv.complete hq.symm k hk⟩
  | succ fl ih =>
    intro h queue c A B hq inv hcount
    cases queue with
    | nil =>
      exact ⟨rfl, fun k hk => inv.complete hq.symm k hk⟩
    | cons vkey rest =>
      obtain ⟨c2, A2, B2, inv2, hq2, hne⟩ := inv.normalize
      have hq2' : A2 ++ B2 = vkey :: rest := hq2.trans hq.symm
      cases A2 with
      | nil =>
        exact absurd rfl (hne (by rw [← hq]; simp))
      | cons v0 A2' =>
        rw [List.cons_append] at hq2'
        injection hq2' with hv0 hrest
        subst v0
        subst hrest
        have minv := inv2.pop
        have hnsub : ∀ u ∈ GoGraph.GetNeighbours g vkey,
            u ∈ g.vertices.map (·.1) := by
          intro u hu
          unfold GoGraph.GetNeighbours at hu
          cases hl : alookup g.adjacencyLists vkey with
          | none => rw [hl] at hu; simp at hu
          | some l =>
            rw [hl] at hu
            simp at hu
            exact hadjkeys (vkey, l) (alookup_mem _ _ hl) u hu
        have hnadj : ∀ u ∈ GoGraph.GetNeighbours g vkey,
            Adjacent g vkey u := fun u hu => hu
        obtain ⟨B3, minv3, hq3, hcount3, hpres3, hnw3⟩ :=
          bfsScan_spec g s vkey c2 (GoGraph.GetNeighbours g vkey) h A2' B2
            minv hnsub hnadj
        obtain ⟨vv, hvv, hvg, hvd⟩ := minv.vkeyrec
        have hvv3 : GetVertex (bfsScan vkey h (GoGraph.GetNeighbours g vkey)
            (A2' ++ B2)).1 vkey = some vv := by
          refine hpres3 vkey vv hvv ?_
          intro hcl
          rw [hvg] at hcl
          cases hcl
        have inv4 : BFSInv g s (Paint (bfsScan vkey h
            (GoGraph.GetNeighbours g vkey) (A2' ++ B2)).1 vkey .Black)
            c2 A2' B3 := minv3.seal hnw3
        have hpw : countWhite (Paint (bfsScan vkey h
            (GoGraph.GetNeighbours g vkey) (A2' ++ B2)).1 vkey .Black)
            = countWhite (bfsScan vkey h (GoGraph.GetNeighbours g vkey)
              (A2' ++ B2)).1 := by
          refine countWhite_updateVertexF_congr _ _ _ ?_
          intro v hv
          rw [hvv3] at hv
          injection hv with he
          subst he
          simp [hvg]
        have hcount4 : countWhite (Paint (bfsScan vkey h
            (GoGraph.GetNeighbours g vkey) (A2' ++ B2)).1 vkey .Black)
            + (bfsScan vkey h (GoGraph.GetNeighbours g vkey)
              (A2' ++ B2)).2.length ≤ fl := by
          rw [hpw, hq3]
          rw [List.length_cons] at hcount
          have hlen2 : (A2' ++ B3).length ≤ (A2' ++ B3).length := le_refl _
          omega
        obtain ⟨ihres, ihfinal⟩ := ih
          (Paint (bfsScan vkey h (GoGraph.GetNeighbours g vkey)
            (A2' ++ B2)).1 vkey .Black)
          (bfsScan vkey h (GoGraph.GetNeighbours g vkey) (A2' ++ B2)).2
          c2 A2' B3 hq3 inv4 hcount4
        have hstep : bfsLoop f (fl + 1) h (vkey :: (A2' ++ B2)) =
            ⟨(bfsLoop f fl (Paint (bfsScan vkey h
                (GoGraph.GetNeighbours g vkey) (A2' ++ B2)).1 vkey .Black)
                (bfsScan vkey h (GoGraph.GetNeighbours g vkey)
                  (A2' ++ B2)).2).result,
             vv :: (bfsLoop f fl (Paint (bfsScan vkey h
                (GoGraph.GetNeighbours g vkey) (A2' ++ B2)).1 vkey .Black)
                (bfsScan vkey h (GoGraph.GetNeighbours g vkey)
                  (A2' ++ B2)).2).visited,
             (bfsLoop f fl (Paint (bfsScan vkey h
                (GoGraph.GetNeighbours g vkey) (A2' ++ B2)).1 vkey .Black)
                (bfsScan vkey h (GoGraph.GetNeighbours g vkey)
                  (A2' ++ B2)).2).graph⟩ := by
          simp only [bfsLoop]
          rw [inv2.struct.GetNeighbours vkey]
          simp only [hvv3, hf vv]
        rw [hstep]
        exact ⟨ihres, fun k hk => ihfinal k hk⟩

/-- The state entering the BFS loop — all attributes reset, the source
painted gray at distance `0` — satisfies the invariant at level `0` with
queue `[s]`. -/
theorem BFSInv.init (g : Graph T) (s : T) (hwf : WFGraph g)
    (hs : VertexExists g s = true) :
    BFSInv g s (Paint (ResetVertexAttributes g) s .Gray) 0 [s] [] := by
  obtain ⟨sv, hsv⟩ := Option.isSome_iff_exists.mp hs
  have hgv0 : ∀ k : T, GetVertex (ResetVertexAttributes g) k
      = (GetVertex g k).map (fun v =>
        { v with color := Color.White, distanceFromSource := 0,
                 parent := none }) := by
    intro k
    exact alookup_map g.vertices (fun v =>
      { v with color := Color.White, distanceFromSource := 0,
               parent := none }) k
  have hstruct0 : SameStructure g (ResetVertexAttributes g) := by
    refine ⟨?_, rfl, rfl, rfl⟩
    exact keys_map_snd g.vertices (fun v =>
      { v with color := Color.White, distanceFromSource := 0,
               parent := none })
  show BFSInv g s (updateVertexF (ResetVertexAttributes g) s
    (fun v => { v with color := .Gray })) 0 [s] []
  have hs1 : GetVertex (updateVertexF (ResetVertexAttributes g) s
      (fun v => { v with color := .Gray })) s = some
      ({ sv with color := .Gray, distanceFromSource := 0,
                 parent := none }) := by
    rw [GetVertex_updateVertexF_self, hgv0 s, hsv]
    rfl
  have hne : ∀ k, k ≠ s → GetVertex (updateVertexF (ResetVertexAttributes g)
      s (fun v => { v with color := .Gray })) k
      = (GetVertex g k).map (fun v =>
        { v with color := Color.White, distanceFromSource := 0,
                 parent := none }) := by
    intro k hk
    rw [GetVertex_updateVertexF_ne _ _ _ _ hk]
    exact hgv0 k
  have hmins : MinHop g s s 0 := ⟨.refl, fun m _ => Nat.zero_le m⟩
  refine ⟨hstruct0.update_pres _ _, by simp, ?_, ?_, ?_, ?_, ?_, ?_, ?_⟩
  · intro k hk
    rw [List.append_nil] at hk
    rcases List.mem_singleton.mp hk with rfl
    exact ⟨_, hs1, rfl⟩
  · intro k v hv hg
    by_cases hk : k = s
    · subst hk
      simp
    · rw [hne k hk] at hv
      cases hgk : GetVertex g k with
      | none => rw [hgk] at hv; cases hv
      | some v0 =>
        rw [hgk] at hv
        injection hv with he
        rw [← he] at hg
        cases hg
  · intro k hk
    rcases List.mem_singleton.mp hk with rfl
    refine ⟨_, hs1, ?_⟩
    show (0 : EDist) = (((0 : ℕ) : ℚ) : EDist)
    norm_cast
  · intro k hk
    cases hk
  · intro k v hv hcol
    by_cases hk : k = s
    · subst hk
      rw [hs1] at hv
      injection hv with he
      refine ⟨0, ?_, hmins⟩
      rw [← he]
      show (0 : EDist) = (((0 : ℕ) : ℚ) : EDist)
      norm_cast
    · exfalso
      rw [hne k hk] at hv
      cases hgk : GetVertex g k with
      | none => rw [hgk] at hv; cases hv
      | some v0 =>
        rw [hgk] at hv
        injection hv with he
        rw [← he] at hcol
        exact hcol rfl
  · intro u m hm hmle
    have hm0 : m = 0 := by omega
    subst hm0
    have hus : u = s := hm.1.zero_eq
    subst hus
    exact ⟨_, hs1, by simp⟩
  · intro k v hv hb
    exfalso
    by_cases hk : k = s
    · subst hk
      rw [hs1] at hv
      injection hv with he
      rw [← he] at hb
      cases hb
    · rw [hne k hk] at hv
      cases hgk : GetVertex g k with
      | none => rw [hgk] at hv; cases hv
      | some v0 =>
        rw [hgk] at hv
        injection hv with he
        rw [← he] at hb
        cases hb

end BFSLemmas

/-!
## Concrete example graphs used by the claims and witnesses. -/

section Examples

/-- A visitor that always continues. -/
def contWalk : Vertex Nat → Decision Unit := fun _ => .cont

/-- The undirected weighted graph of the Dijkstra example in the spec:
edges (1,2,2) (1,3,6) (2,3,7) (2,4,3) (3,4,4) (4,5,9) (5,6,11) (5,7,4)
(6,7,6) (6,8,5) (7,8,8). -/
def exDijkstra : Graph Nat :=
  addWeightedEdge (addWeightedEdge (addWeightedEdge (addWeightedEdge
    (addWeightedEdge (addWeightedEdge (addWeightedEdge (addWeightedEdge
      (addWeightedEdge (addWeightedEdge (addWeightedEdge
        (New .KindUndirected) 1 2 2) 1 3 6) 2 3 7) 2 4 3) 3 4 4)
          4 5 9) 5 6 11) 5 7 4) 6 7 6) 6 8 5) 7 8 8

/-- Acyclic directed graph 1→2, 1→3, 3→2 on which `WalkTopoOrder`
wrongly reports a cycle. -/
def exTopoAcyclic : Graph Nat :=
  addEdge (addEdge (addEdge (New .KindDirected) 1 2) 1 3) 3 2

/-- A strictly adjacency-decreasing rank witnessing that `exTopoAcyclic`
has no directed cycle. -/
def exTopoRank : Nat → Nat := fun k => if k = 1 then 2 else if k = 3 then 1 else 0

/-- Undirected graph with three edges incident to vertex 1, the failing
input of the `DeleteVertex` claim. -/
def exDelete : Graph Nat :=
  addEdge (addEdge (addEdge (New .KindUndirected) 1 2) 1 3) 1 4

/-- Undirected graph with components {1,2,3,4,5} and {10,11,12,13} (the
spec's unreachable-set example). -/
def exUnreach : Graph Nat :=
  addEdge (addEdge (addEdge (addEdge (addEdge (addEdge (addEdge (addEdge
    (New .KindUndirected) 1 2) 1 3) 2 4) 3 4) 4 5) 10 11) 11 12) 12 13

/-- A directed graph holding both orientations of an edge, in the order
(2,1) then (1,2): the input exhibiting `AddWeightedEdge`'s statically
bound symmetric lookup. -/
def exDirRev : Graph Nat := addEdge (addEdge (New .KindDirected) 2 1) 1 2

/-- A concrete two-vertex heap for the `Clone` claim: vertex 2's parent
pointer targets vertex 1's object (address 0), one edge object, one
populated attribute bag. -/
def exStore : Store Nat :=
  { vheap := [(0, ⟨1, .White, ⊤, none, [], ⟨0, 0⟩⟩),
              (1, ⟨2, .Black, ((5 : ℚ) : EDist), some 0,
                   [("color", "red")], ⟨1, 1⟩⟩)]
    eheap := [(2, ⟨1, 2, 5, [("style", "bold")]⟩)]
    next := 3 }

/-- The graph over `exStore`: vertices 1 and 2, one undirected edge. -/
def exHG : HGraph Nat :=
  { vertices := [(1, 0), (2, 1)]
    edges := [2]
    adjacencyLists := [(1, [2]), (2, [1])]
    kind := .KindUndirected }

end Examples

/-!
## The claims. -/

section Claims

-- Batteries marks the rational arithmetic operations `@[irreducible]`,
-- which blocks `decide` from evaluating the embedded algorithms on
-- concrete graphs; restore reducibility locally for the concrete claims.
attribute [local semireducible] Rat.add Rat.sub Rat.mul Rat.inv

variable {T E : Type} [DecidableEq T]

/-- **C1.** For every graph `G` and every value `s` that is not a vertex of
`G`, each traversal entry point (`WalkBFS`, `WalkPreOrderDFS`,
`WalkPostOrderDFS`, `WalkDijkstra`, `WalkShortestPath`,
`WalkUnreachableVertices`) returns the vertex-not-found error and leaves
the graph completely unchanged (the returned state is `g` itself, so no
color, distance, parent, degree, adjacency list, edge or vertex is
modified), and no vertex is visited. -/
theorem claim_C1 (g : Graph T) (s d : T) (f : Vertex T → Decision E)
    (hs : VertexExists g s = false) :
    WalkBFS g s f = ⟨.error .sourceNotFound, [], g⟩ ∧
    WalkPreOrderDFS g s f = ⟨.error .sourceNotFound, [], g⟩ ∧
    WalkPostOrderDFS g s f = ⟨.error .sourceNotFound, [], g⟩ ∧
    WalkDijkstra g s f = ⟨.error .sourceNotFound, [], g⟩ ∧
    WalkShortestPath g s d f = ⟨.error .sourceNotFound, [], g⟩ ∧
    WalkUnreachableVertices g s f = ⟨.error .sourceNotFound, [], g⟩ := by
  refine ⟨?_, ?_, ?_, ?_, ?_, ?_⟩ <;>
    simp [WalkBFS, WalkPreOrderDFS, WalkPostOrderDFS, WalkDijkstra,
      WalkShortestPath, WalkUnreachableVertices, initializeSourceVertex, hs]

theorem claim_C1_witness :
    WalkBFS exDijkstra 100 contWalk =
      ⟨.error .sourceNotFound, [], exDijkstra⟩ ∧
    WalkShortestPath exDijkstra 100 8 contWalk =
      ⟨.error .sourceNotFound, [], exDijkstra⟩ :=
  ⟨(claim_C1 exDijkstra 100 8 contWalk (by decide)).1,
   (claim_C1 exDijkstra 100 8 contWalk (by decide)).2.2.2.2.1⟩

/-- **C3.** On the undirected weighted example graph, `WalkShortestPath`
from 1 to 8 succeeds and invokes the caller's visitor exactly on the
vertices 1, 2, 4, 5, 7, 8 in that order, with `DistanceFromSource` values
0, 2, 5, 14, 18, 26. -/
theorem claim_C3 :
    (WalkShortestPath exDijkstra 1 8 contWalk).result = .ok () ∧
    (WalkShortestPath exDijkstra 1 8 contWalk).visited.map
        (fun v => (v.value, v.distanceFromSource)) =
      [(1, ((0 : ℚ) : EDist)), (2, ((2 : ℚ) : EDist)), (4, ((5 : ℚ) : EDist)),
       (5, ((14 : ℚ) : EDist)), (7, ((18 : ℚ) : EDist)), (8, ((26 : ℚ) : EDist))] := by
  constructor <;> decide

/-- **C6 counterexample.** Re-adding an existing edge through
`AddWeightedEdge` is *not* idempotent on the weight: after
`AddWeightedEdge(1,2,5)` the stored weight is 5, and re-adding with
`AddWeightedEdge(1,2,7)` resets it to 7.  Moreover, on a directed graph
holding both orientations (stored as (2,1) then (1,2)),
`AddWeightedEdge(1,2,9)` — a promoted `UndirectedGraph` method whose
inner lookup is statically the symmetric one — mutates and returns the
*reverse* edge (2,1). -/
theorem claim_C6_counterexample :
    ((GetEdge (addWeightedEdge (New .KindUndirected) 1 2 5) 1 2).map
        (·.Weight) = some 5) ∧
    ((GetEdge (addWeightedEdge (addWeightedEdge (New .KindUndirected) 1 2 5)
        1 2 7) 1 2).map (·.Weight) = some 7) ∧
    (5 : ℚ) ≠ 7 ∧
    ((AddWeightedEdge exDirRev 1 2 9).2.map
        (fun e => (e.From, e.To, e.Weight)) = some (2, 1, 9)) ∧
    ((addWeightedEdge exDirRev 1 2 9).edges.map
        (fun e => (e.From, e.To, e.Weight)) = [(2, 1, 9), (1, 2, 0)]) := by
  refine ⟨by decide, by decide, by norm_num, by decide, by decide⟩

/-- **C6 (amended).** Re-adding an existing edge (same ordered endpoints
for directed graphs, either endpoint order for undirected graphs) via
`AddEdge` is idempotent: it returns the stored edge and leaves the graph
(vertices, degrees, adjacency lists, edges) entirely unchanged.
`AddWeightedEdge`, a promoted `UndirectedGraph` method whose inner
`AddEdge` binds statically to the symmetric undirected version, likewise
leaves the vertices, degrees, adjacency lists, edge count and edge
attributes unchanged, but overwrites the weight of — and returns — the
first stored edge matching `{u, v}` in *either* orientation; on a
directed graph that edge can be the reverse edge `(v, u)` rather than
`(u, v)`. -/
theorem claim_C6 (g : Graph T) (u v : T) (h : EdgeExists g u v = true) :
    AddEdge g u v = (g, GetEdge g u v) ∧
    ∀ w : ℚ,
      (AddWeightedEdge g u v w).1.vertices = g.vertices ∧
      (AddWeightedEdge g u v w).1.adjacencyLists = g.adjacencyLists ∧
      (AddWeightedEdge g u v w).1.kind = g.kind ∧
      (AddWeightedEdge g u v w).1.edges.length = g.edges.length ∧
      (AddWeightedEdge g u v w).1.edges =
        updateFirst (fun e => edgeMatches .KindUndirected e u v)
          (fun e => { e with Weight := w }) g.edges ∧
      (AddWeightedEdge g u v w).2 =
        (uGetEdge g u v).map (fun e => { e with Weight := w }) := by
  have h1 : AddEdge g u v = (g, GetEdge g u v) := by
    simp [AddEdge, h]
  have hu : uEdgeExists g u v = true := by
    unfold EdgeExists GetEdge at h
    unfold uEdgeExists uGetEdge
    rw [List.find?_isSome] at h ⊢
    obtain ⟨e, he, hm⟩ := h
    refine ⟨e, he, ?_⟩
    cases hk : g.kind with
    | KindUndirected => rw [hk] at hm; exact hm
    | KindDirected =>
      rw [hk] at hm
      unfold edgeMatches at hm ⊢
      simp only [decide_eq_true_eq] at hm ⊢
      exact Or.inl hm
  refine ⟨h1, fun w => ?_⟩
  have h2 : AddWeightedEdge g u v w =
      (setEdgeWeight g u v w,
       (uGetEdge g u v).map (fun e => { e with Weight := w })) := by
    have h3 : uAddEdge g u v = (g, uGetEdge g u v) := by
      simp [uAddEdge, hu]
    simp [AddWeightedEdge, h3]
  rw [h2]
  exact ⟨rfl, rfl, rfl, updateFirst_length .., rfl, rfl⟩

theorem claim_C6_witness :
    (AddEdge (addWeightedEdge (New .KindUndirected) 1 2 5) 2 1 =
      ((addWeightedEdge (New .KindUndirected) 1 2 5),
       GetEdge (addWeightedEdge (New .KindUndirected) 1 2 5) 2 1)) ∧
    (AddWeightedEdge exDirRev 1 2 9).2 =
      (uGetEdge exDirRev 1 2).map (fun e => { e with Weight := 9 }) :=
  ⟨(claim_C6 (addWeightedEdge (New .KindUndirected) 1 2 5) 2 1
      (by decide)).1,
   ((claim_C6 exDirRev 1 2 (by decide)).2 9).2.2.2.2.2⟩

/-- **C2.** The claim says `WalkTopoOrder` fails with the cycle error *iff*
the graph has a directed cycle.  The code disproves the forward direction:
on the acyclic directed graph 1→2, 1→3, 3→2 (vertices iterated in
insertion order, one of the iteration orders Go's randomized map range can
produce), the inner DFS paints both successors 2 and 3 of vertex 1 Gray in
the same scan, then, peeking 3, finds its neighbour 2 Gray and reports
`ErrCycleDetected` — a Gray vertex is not necessarily an ancestor on the
active DFS path.  This also contradicts the function's own documentation
("In case a cycle exists … will return ErrCycleDetected", "the vertices
which remained Gray are forming a cyclic path"). -/
theorem claim_C2 :
    ¬ HasDirectedCycle exTopoAcyclic ∧
    (WalkTopoOrder exTopoAcyclic contWalk).result = .error .cycleDetected ∧
    (WalkTopoOrder exTopoAcyclic contWalk).visited = [] := by
  refine ⟨?_, by decide, by decide⟩
  apply no_cycle_of_rank exTopoAcyclic exTopoRank
  intro a b hb
  by_cases ha1 : a = 1
  · subst ha1
    have : b = 2 ∨ b = 3 := by
      simpa [Adjacent, GetNeighbours, exTopoAcyclic, addEdge, AddEdge,
        EdgeExists, GetEdge, edgeMatches, AddVertex, GetVertex, NewEdge,
        adjAppend, updateVertexF, alookup, astore, New] using hb
    rcases this with rfl | rfl <;> decide
  · by_cases ha3 : a = 3
    · subst ha3
      have : b = 2 := by
        simpa [Adjacent, GetNeighbours, exTopoAcyclic, addEdge, AddEdge,
          EdgeExists, GetEdge, edgeMatches, AddVertex, GetVertex, NewEdge,
          adjAppend, updateVertexF, alookup, astore, New] using hb
      subst this; decide
    · exfalso
      have : GetNeighbours exTopoAcyclic a = [] := by
        simp [GetNeighbours, exTopoAcyclic, addEdge, AddEdge, EdgeExists,
          GetEdge, edgeMatches, AddVertex, GetVertex, NewEdge, adjAppend,
          updateVertexF, alookup, astore, New, ha1, ha3]
      rw [Adjacent, this] at hb
      cases hb

/-- **C7.** On the undirected graph with edges (1,2), (1,3), (1,4),
`DeleteVertex 1` ranges over the edge slice while `DeleteEdge` shifts it
in place, skips the shifted edge (1,3), and returns a graph that still
contains the edge (1,3), still lists 1 in the adjacency list of 3, and
leaves vertex 3's degree at (1,1) — while vertex 1 itself is removed.
The claim (every incident edge removed, degrees reverted) is violated. -/
theorem claim_C7 :
    ((DeleteVertex exDelete 1).map
        (fun g => g.edges.map (fun e => (e.From, e.To)))) = some [(1, 3)] ∧
    ((DeleteVertex exDelete 1).map (fun g => VertexExists g 1)) = some false ∧
    ((DeleteVertex exDelete 1).map (fun g => GetNeighbours g 3)) = some [1] ∧
    ((DeleteVertex exDelete 1).map
        (fun g => (GetVertex g 3).map (·.degree))) =
      some (some { In := 1, Out := 1 }) := by
  refine ⟨by decide, by decide, by decide, by decide⟩

/-! ### C4: the stop/fail contract of every walker. -/

theorem nvf_ok : noVisitorFail (.ok () : Except (WalkErr E) Unit) :=
  fun _ h => by cases h

theorem nvf_error {w : WalkErr E} (h : ∀ e, w ≠ .visitorFail e) :
    noVisitorFail (.error w : Except (WalkErr E) Unit) :=
  fun e he => h e (by injection he)

theorem nvf_panicked :
    noVisitorFail (.error .panicked : Except (WalkErr E) Unit) :=
  nvf_error (fun e h => by cases h)

theorem VisitsSpec.append_cont {f : Vertex T → Decision E}
    {l1 : List (Vertex T)} (h1 : ∀ v ∈ l1, f v = .cont)
    {l2 : List (Vertex T)} {r : Except (WalkErr E) Unit}
    (h2 : VisitsSpec f l2 r) : VisitsSpec f (l1 ++ l2) r := by
  induction l1 with
  | nil => exact h2
  | cons a l ih =>
    exact .cons a (h1 a (by simp)) (ih (fun v hv => h1 v (by simp [hv])))

theorem VisitsSpec.noFail {f : Vertex T → Decision E}
    (hf : ∀ v e, f v ≠ .fail e) {vis : List (Vertex T)}
    {r : Except (WalkErr E) Unit} (h : VisitsSpec f vis r) :
    noVisitorFail r := by
  induction h with
  | nil r hr => exact hr
  | stop v h => exact nvf_ok
  | fail v e h => exact absurd h (hf v e)
  | cons v h tail ih => exact ih

theorem bfsLoop_visits (f : Vertex T → Decision E) (fuel : Nat) :
    ∀ (g : Graph T) (q : List T),
      VisitsSpec f (bfsLoop f fuel g q).visited (bfsLoop f fuel g q).result := by
  induction fuel with
  | zero =>
    intro g q
    cases q with
    | nil => exact .nil _ nvf_ok
    | cons a rest => exact .nil _ nvf_panicked
  | succ fuel ih =>
    intro g q
    cases q with
    | nil => exact .nil _ nvf_ok
    | cons vkey rest =>
      simp only [bfsLoop]
      split
      · exact .nil _ nvf_panicked
      · next vrec heq =>
        cases hf : f vrec with
        | stop => simp only [hf]; exact .stop _ hf
        | fail e => simp only [hf]; exact .fail _ _ hf
        | cont => simp only [hf]; exact .cons _ hf (ih _ _)

theorem preDfsLoop_visits (f : Vertex T → Decision E) (fuel : Nat) :
    ∀ (g : Graph T) (q : List T),
      VisitsSpec f (preDfsLoop f fuel g q).visited
        (preDfsLoop f fuel g q).result := by
  induction fuel with
  | zero =>
    intro g q
    cases q with
    | nil => exact .nil _ nvf_ok
    | cons a rest => exact .nil _ nvf_panicked
  | succ fuel ih =>
    intro g q
    cases q with
    | nil => exact .nil _ nvf_ok
    | cons vkey rest =>
      simp only [preDfsLoop]
      split
      · exact .nil _ nvf_panicked
      · next vrec heq =>
        cases hf : f vrec with
        | stop => simp only [hf]; exact .stop _ hf
        | fail e => simp only [hf]; exact .fail _ _ hf
        | cont => simp only [hf]; exact .cons _ hf (ih _ _)

theorem postDfsLoop_visits (f : Vertex T → Decision E) (fuel : Nat) :
    ∀ (g : Graph T) (q : List T),
      VisitsSpec f (postDfsLoop f fuel g q).visited
        (postDfsLoop f fuel g q).result := by
  induction fuel with
  | zero =>
    intro g q
    cases q with
    | nil => exact .nil _ nvf_ok
    | cons a rest => exact .nil _ nvf_panicked
  | succ fuel ih =>
    intro g q
    cases q with
    | nil => exact .nil _ nvf_ok
    | cons vkey rest =>
      simp only [postDfsLoop]
      split
      · split
        · exact .nil _ nvf_panicked
        · next vrec heq =>
          cases hf : f vrec with
          | stop => simp only [hf]; exact .stop _ hf
          | fail e => simp only [hf]; exact .fail _ _ hf
          | cont => simp only [hf]; exact .cons _ hf (ih _ _)
      · exact ih _ _

theorem unreachableScan_visits (f : Vertex T → Decision E) (g : Graph T) :
    ∀ l : List (T × Vertex T),
      VisitsSpec f (unreachableScan f g l).visited
        (unreachableScan f g l).result := by
  intro l
  induction l with
  | nil => exact .nil _ nvf_ok
  | cons kv rest ih =>
    simp only [unreachableScan]
    split
    · cases hf : f kv.2 with
      | stop => simp only [hf]; exact .stop _ hf
      | fail e => simp only [hf]; exact .fail _ _ hf
      | cont => simp only [hf]; exact .cons _ hf ih
    · exact ih

theorem dijkstraLoop_visits (f : Vertex T → Decision E) (fuel : Nat) :
    ∀ (g : Graph T) (q : PQueue T),
      VisitsSpec f (dijkstraLoop f fuel g q).visited
        (dijkstraLoop f fuel g q).result := by
  induction fuel with
  | zero =>
    intro g q
    cases q with
    | nil => exact .nil _ nvf_ok
    | cons a rest => exact .nil _ nvf_panicked
  | succ fuel ih =>
    intro g q
    simp only [dijkstraLoop]
    split
    · exact .nil _ nvf_ok
    · split
      · exact .nil _ (nvf_error (fun e h => by cases h))
      · split
        · exact .nil _ nvf_panicked
        · next vrec heq =>
          cases hf : f vrec with
          | stop => simp only [hf]; exact .stop _ hf
          | fail e => simp only [hf]; exact .fail _ _ hf
          | cont => simp only [hf]; exact .cons _ hf (ih _ _)

theorem spVisit_visits (f : Vertex T → Decision E) (g : Graph T) :
    ∀ l : List (Vertex T),
      VisitsSpec f (spVisit f g l).visited (spVisit f g l).result := by
  intro l
  induction l with
  | nil => exact .nil _ nvf_ok
  | cons v rest ih =>
    simp only [spVisit]
    cases hf : f v with
    | stop => simp only [hf]; exact .stop _ hf
    | fail e => simp only [hf]; exact .fail _ _ hf
    | cont => simp only [hf]; exact .cons _ hf ih

theorem topoVisit_spec (f : Vertex T → Decision E) (g : Graph T) :
    ∀ ks : List T,
      ((topoVisit f g ks).1 = .ok true →
        VisitsSpec f (topoVisit f g ks).2 (.ok ())) ∧
      ((topoVisit f g ks).1 = .ok false →
        ∀ v ∈ (topoVisit f g ks).2, f v = .cont) ∧
      (∀ err, (topoVisit f g ks).1 = .error err →
        VisitsSpec f (topoVisit f g ks).2 (.error err)) := by
  intro ks
  induction ks with
  | nil =>
    refine ⟨?_, ?_, ?_⟩
    · intro h; simp [topoVisit] at h
    · intro _ v hv; simp [topoVisit] at hv
    · intro err h; simp [topoVisit] at h
  | cons k rest ih =>
    simp only [topoVisit]
    split
    · refine ⟨?_, ?_, ?_⟩
      · intro h; simp at h
      · intro h; simp at h
      · intro err herr
        injection herr with h2
        subst h2
        exact .nil _ nvf_panicked
    · next v heq =>
      cases hf : f v with
      | stop =>
        simp only [hf]
        refine ⟨?_, ?_, ?_⟩
        · intro _; exact .stop _ hf
        · intro h; simp at h
        · intro err herr; simp at herr
      | fail e =>
        simp only [hf]
        refine ⟨?_, ?_, ?_⟩
        · intro h; simp at h
        · intro h; simp at h
        · intro err herr
          injection herr with h2
          subst h2
          exact .fail _ _ hf
      | cont =>
        simp only [hf]
        refine ⟨?_, ?_, ?_⟩
        · intro h; exact .cons _ hf (ih.1 h)
        · intro h v2 hv2
          rcases List.mem_cons.mp hv2 with rfl | hv3
          · exact hf
          · exact ih.2.1 h v2 hv3
        · intro err herr; exact .cons _ hf (ih.2.2 err herr)

theorem topoOuter_visits (f : Vertex T → Decision E) :
    ∀ (queue : List T) (g : Graph T),
      VisitsSpec f (topoOuter f g queue).visited
        (topoOuter f g queue).result := by
  intro queue
  induction queue with
  | nil => intro g; exact .nil _ nvf_ok
  | cons vkey qrest ih =>
    intro g
    simp only [topoOuter]
    split
    · exact .nil _ (nvf_error (fun e h => by cases h))
    · exact .nil _ nvf_panicked
    · split
      · next err herr => exact (topoVisit_spec f _ _).2.2 err herr
      · next htrue => exact (topoVisit_spec f _ _).1 htrue
      · next hfalse =>
        exact .append_cont ((topoVisit_spec f _ _).2.1 hfalse) (ih _)

theorem WalkBFS_visits (g : Graph T) (s : T) (f : Vertex T → Decision E) :
    VisitsSpec f (WalkBFS g s f).visited (WalkBFS g s f).result := by
  unfold WalkBFS
  split
  · exact bfsLoop_visits f _ _ _
  · exact .nil _ (nvf_error (fun e h => by cases h))

theorem WalkPreOrderDFS_visits (g : Graph T) (s : T)
    (f : Vertex T → Decision E) :
    VisitsSpec f (WalkPreOrderDFS g s f).visited
      (WalkPreOrderDFS g s f).result := by
  unfold WalkPreOrderDFS
  split
  · exact preDfsLoop_visits f _ _ _
  · exact .nil _ (nvf_error (fun e h => by cases h))

theorem WalkPostOrderDFS_visits (g : Graph T) (s : T)
    (f : Vertex T → Decision E) :
    VisitsSpec f (WalkPostOrderDFS g s f).visited
      (WalkPostOrderDFS g s f).result := by
  unfold WalkPostOrderDFS
  split
  · exact postDfsLoop_visits f _ _ _
  · exact .nil _ (nvf_error (fun e h => by cases h))

theorem WalkDijkstra_visits (g : Graph T) (s : T)
    (f : Vertex T → Decision E) :
    VisitsSpec f (WalkDijkstra g s f).visited (WalkDijkstra g s f).result := by
  unfold WalkDijkstra
  split
  · exact .nil _ (nvf_error (fun e h => by cases h))
  · exact dijkstraLoop_visits f _ _ _

theorem WalkUnreachableVertices_visits (g : Graph T) (s : T)
    (f : Vertex T → Decision E) :
    VisitsSpec f (WalkUnreachableVertices g s f).visited
      (WalkUnreachableVertices g s f).result := by
  simp only [WalkUnreachableVertices]
  split
  · next err herr =>
    refine .nil _ ?_
    rw [← herr]
    exact (WalkPreOrderDFS_visits g s _).noFail (fun v e h => by cases h)
  · exact unreachableScan_visits f _ _

theorem WalkShortestPath_visits (g : Graph T) (s d : T)
    (f : Vertex T → Decision E) :
    VisitsSpec f (WalkShortestPath g s d f).visited
      (WalkShortestPath g s d f).result := by
  simp only [WalkShortestPath]
  split
  · split
    · split
      · next err herr =>
        refine .nil _ ?_
        rw [← herr]
        refine (WalkDijkstra_visits g s _).noFail (fun v e h => ?_)
        revert h
        split <;> intro h <;> cases h
      · split
        · exact .nil _ (nvf_error (fun e h => by cases h))
        · exact .nil _ nvf_panicked
        · exact spVisit_visits f _ _
    · exact .nil _ (nvf_error (fun e h => by cases h))
  · exact .nil _ (nvf_error (fun e h => by cases h))

theorem WalkTopoOrder_visits (g : Graph T) (f : Vertex T → Decision E) :
    VisitsSpec f (WalkTopoOrder g f).visited (WalkTopoOrder g f).result := by
  unfold WalkTopoOrder
  split
  · exact topoOuter_visits f _ _
  · exact .nil _ (nvf_error (fun e h => by cases h))

theorem bfsLoop_norollback (f : Vertex T → Decision E) (fuel : Nat) :
    ∀ (g : Graph T) (q : List T), NoRollback f (bfsLoop f fuel g q) := by
  induction fuel with
  | zero =>
    intro g q
    cases q with
    | nil => intro v hv _; cases hv
    | cons a rest => intro v hv _; cases hv
  | succ fuel ih =>
    intro g q
    cases q with
    | nil => intro v hv _; cases hv
    | cons vkey rest =>
      simp only [bfsLoop]
      split
      · intro v hv _; cases hv
      · next vrec heq =>
        cases hf : f vrec with
        | stop =>
          simp only [hf]
          intro v hv _
          rcases List.mem_singleton.mp hv with rfl
          exact ⟨vkey, heq⟩
        | fail e =>
          simp only [hf]
          intro v hv _
          rcases List.mem_singleton.mp hv with rfl
          exact ⟨vkey, heq⟩
        | cont =>
          simp only [hf]
          intro v hv hne
          rcases List.mem_cons.mp hv with rfl | htail
          · exact absurd hf hne
          · exact ih _ _ v htail hne

theorem preDfsLoop_norollback (f : Vertex T → Decision E) (fuel : Nat) :
    ∀ (g : Graph T) (q : List T), NoRollback f (preDfsLoop f fuel g q) := by
  induction fuel with
  | zero =>
    intro g q
    cases q with
    | nil => intro v hv _; cases hv
    | cons a rest => intro v hv _; cases hv
  | succ fuel ih =>
    intro g q
    cases q with
    | nil => intro v hv _; cases hv
    | cons vkey rest =>
      simp only [preDfsLoop]
      split
      · intro v hv _; cases hv
      · next vrec heq =>
        cases hf : f vrec with
        | stop =>
          simp only [hf]
          intro v hv _
          rcases List.mem_singleton.mp hv with rfl
          exact ⟨vkey, heq⟩
        | fail e =>
          simp only [hf]
          intro v hv _
          rcases List.mem_singleton.mp hv with rfl
          exact ⟨vkey, heq⟩
        | cont =>
          simp only [hf]
          intro v hv hne
          rcases List.mem_cons.mp hv with rfl | htail
          · exact absurd hf hne
          · exact ih _ _ v htail hne

theorem postDfsLoop_norollback (f : Vertex T → Decision E) (fuel : Nat) :
    ∀ (g : Graph T) (q : List T), NoRollback f (postDfsLoop f fuel g q) := by
  induction fuel with
  | zero =>
    intro g q
    cases q with
    | nil => intro v hv _; cases hv
    | cons a rest => intro v hv _; cases hv
  | succ fuel ih =>
    intro g q
    cases q with
    | nil => intro v hv _; cases hv
    | cons vkey rest =>
      simp only [postDfsLoop]
      split
      · split
        · intro v hv _; cases hv
        · next vrec heq =>
          cases hf : f vrec with
          | stop =>
            simp only [hf]
            intro v hv _
            rcases List.mem_singleton.mp hv with rfl
            exact ⟨vkey, heq⟩
          | fail e =>
            simp only [hf]
            intro v hv _
            rcases List.mem_singleton.mp hv with rfl
            exact ⟨vkey, heq⟩
          | cont =>
            simp only [hf]
            intro v hv hne
            rcases List.mem_cons.mp hv with rfl | htail
            · exact absurd hf hne
            · exact ih _ _ v htail hne
      · exact ih _ _

theorem dijkstraLoop_norollback (f : Vertex T → Decision E) (fuel : Nat) :
    ∀ (g : Graph T) (q : PQueue T), NoRollback f (dijkstraLoop f fuel g q) := by
  induction fuel with
  | zero =>
    intro g q
    cases q with
    | nil => intro v hv _; cases hv
    | cons a rest => intro v hv _; cases hv
  | succ fuel ih =>
    intro g q
    simp only [dijkstraLoop]
    split
    · intro v hv _; cases hv
    · split
      · intro v hv _; cases hv
      · split
        · intro v hv _; cases hv
        · next vrec heq =>
          cases hf : f vrec with
          | stop =>
            simp only [hf]
            intro v hv _
            rcases List.mem_singleton.mp hv with rfl
            exact ⟨_, heq⟩
          | fail e =>
            simp only [hf]
            intro v hv _
            rcases List.mem_singleton.mp hv with rfl
            exact ⟨_, heq⟩
          | cont =>
            simp only [hf]
            intro v hv hne
            rcases List.mem_cons.mp hv with rfl | htail
            · exact absurd hf hne
            · exact ih _ _ v htail hne

theorem unreachableScan_norollback (f : Vertex T → Decision E)
    (g : Graph T) :
    ∀ l : List (T × Vertex T), (∀ p ∈ l, GetVertex g p.1 = some p.2) →
      NoRollback f (unreachableScan f g l) := by
  intro l
  induction l with
  | nil => intro _ v hv _; cases hv
  | cons kv rest ih =>
    intro hres
    simp only [unreachableScan]
    split
    · cases hf : f kv.2 with
      | stop =>
        simp only [hf]
        intro v hv _
        rcases List.mem_singleton.mp hv with rfl
        exact ⟨kv.1, hres kv (List.mem_cons_self ..)⟩
      | fail e =>
        simp only [hf]
        intro v hv _
        rcases List.mem_singleton.mp hv with rfl
        exact ⟨kv.1, hres kv (List.mem_cons_self ..)⟩
      | cont =>
        simp only [hf]
        intro v hv hne
        rcases List.mem_cons.mp hv with rfl | htail
        · exact absurd hf hne
        · exact ih (fun p hp => hres p (List.mem_cons_of_mem _ hp)) v htail
            hne
    · exact ih (fun p hp => hres p (List.mem_cons_of_mem _ hp))

/-- Every vertex record on a reconstructed path was read from the final
Dijkstra graph (or was already in the accumulator). -/
theorem spReconstruct_mem (g : Graph T) (source : T) :
    ∀ (fuel : Nat) (vkey : T) (acc path : List (Vertex T)),
      spReconstruct g source fuel vkey acc = .ok path →
      ∀ v ∈ path, (∃ k, GetVertex g k = some v) ∨ v ∈ acc := by
  intro fuel
  induction fuel with
  | zero => intro vkey acc path h; cases h
  | succ fuel ih =>
    intro vkey acc path h
    simp only [spReconstruct] at h
    split at h
    · cases h
    · next v0 heq =>
      split at h
      · injection h with h2
        subst h2
        intro v hv
        rcases List.mem_cons.mp hv with rfl | htail
        · exact Or.inl ⟨vkey, heq⟩
        · exact Or.inr htail
      · split at h
        · cases h
        · next p hp =>
          intro v hv
          rcases ih p (v0 :: acc) path h v hv with hl | hr
          · exact Or.inl hl
          · rcases List.mem_cons.mp hr with rfl | htail
            · exact Or.inl ⟨vkey, heq⟩
            · exact Or.inr htail

theorem spVisit_norollback (f : Vertex T → Decision E) (g : Graph T) :
    ∀ l : List (Vertex T), (∀ v ∈ l, ∃ k, GetVertex g k = some v) →
      NoRollback f (spVisit f g l) := by
  intro l
  induction l with
  | nil => intro _ v hv _; cases hv
  | cons v0 rest ih =>
    intro hres
    simp only [spVisit]
    cases hf : f v0 with
    | stop =>
      simp only [hf]
      intro v hv _
      rcases List.mem_singleton.mp hv with rfl
      exact hres v (List.mem_cons_self ..)
    | fail e =>
      simp only [hf]
      intro v hv _
      rcases List.mem_singleton.mp hv with rfl
      exact hres v (List.mem_cons_self ..)
    | cont =>
      simp only [hf]
      intro v hv hne
      rcases List.mem_cons.mp hv with rfl | htail
      · exact absurd hf hne
      · exact ih (fun w hw => hres w (List.mem_cons_of_mem _ hw)) v htail hne

theorem topoVisit_norollback (f : Vertex T → Decision E) (g : Graph T) :
    ∀ ks : List T, ∀ v ∈ (topoVisit f g ks).2, f v ≠ .cont →
      ∃ k, GetVertex g k = some v := by
  intro ks
  induction ks with
  | nil => intro v hv _; cases hv
  | cons k rest ih =>
    simp only [topoVisit]
    split
    · intro v hv _; cases hv
    · next v0 heq =>
      cases hf : f v0 with
      | stop =>
        simp only [hf]
        intro v hv _
        rcases List.mem_singleton.mp hv with rfl
        exact ⟨k, heq⟩
      | fail e =>
        simp only [hf]
        intro v hv _
        rcases List.mem_singleton.mp hv with rfl
        exact ⟨k, heq⟩
      | cont =>
        simp only [hf]
        intro v hv hne
        rcases List.mem_cons.mp hv with rfl | htail
        · exact absurd hf hne
        · exact ih v htail hne

theorem topoOuter_norollback (f : Vertex T → Decision E) :
    ∀ (queue : List T) (g : Graph T), NoRollback f (topoOuter f g queue) := by
  intro queue
  induction queue with
  | nil => intro g v hv _; cases hv
  | cons vkey qrest ih =>
    intro g
    simp only [topoOuter]
    split
    · intro v hv _; cases hv
    · intro v hv _; cases hv
    · split
      · next err herr =>
        intro v hv hne
        exact topoVisit_norollback f _ _ v hv hne
      · next htrue =>
        intro v hv hne
        exact topoVisit_norollback f _ _ v hv hne
      · next hfalse =>
        intro v hv hne
        rcases List.mem_append.mp hv with hleft | hright
        · exact absurd ((topoVisit_spec f _ _).2.1 hfalse v hleft) hne
        · exact ih _ v hright hne

theorem preDfsScan_keys (vkey : T) :
    ∀ (ns : List T) (g : Graph T) (stack : List T),
      (preDfsScan vkey g ns stack).1.vertices.map (·.1)
        = g.vertices.map (·.1) := by
  intro ns
  induction ns with
  | nil => intro g stack; rfl
  | cons u rest ih =>
    intro g stack
    simp only [preDfsScan]
    split
    · exact ih g stack
    · split
      · exact (ih _ _).trans (updateVertexF_keys ..)
      · exact ih g stack

theorem preDfsLoop_keys (f : Vertex T → Decision E) (fuel : Nat) :
    ∀ (g : Graph T) (q : List T),
      (preDfsLoop f fuel g q).graph.vertices.map (·.1)
        = g.vertices.map (·.1) := by
  induction fuel with
  | zero =>
    intro g q
    cases q with
    | nil => rfl
    | cons a rest => rfl
  | succ fuel ih =>
    intro g q
    cases q with
    | nil => rfl
    | cons vkey rest =>
      simp only [preDfsLoop]
      split
      · exact preDfsScan_keys vkey _ _ _
      · next vrec heq =>
        cases hf : f vrec with
        | stop => simp only [hf]; exact preDfsScan_keys vkey _ _ _
        | fail e => simp only [hf]; exact preDfsScan_keys vkey _ _ _
        | cont =>
          simp only [hf]
          exact (ih _ _).trans
            ((updateVertexF_keys ..).trans (preDfsScan_keys vkey _ _ _))

theorem WalkBFS_norollback (g : Graph T) (s : T)
    (f : Vertex T → Decision E) : NoRollback f (WalkBFS g s f) := by
  unfold WalkBFS
  split
  · exact bfsLoop_norollback f _ _ _
  · intro v hv _; cases hv

theorem WalkPreOrderDFS_norollback (g : Graph T) (s : T)
    (f : Vertex T → Decision E) : NoRollback f (WalkPreOrderDFS g s f) := by
  unfold WalkPreOrderDFS
  split
  · exact preDfsLoop_norollback f _ _ _
  · intro v hv _; cases hv

theorem WalkPostOrderDFS_norollback (g : Graph T) (s : T)
    (f : Vertex T → Decision E) : NoRollback f (WalkPostOrderDFS g s f) := by
  unfold WalkPostOrderDFS
  split
  · exact postDfsLoop_norollback f _ _ _
  · intro v hv _; cases hv

theorem WalkDijkstra_norollback (g : Graph T) (s : T)
    (f : Vertex T → Decision E) : NoRollback f (WalkDijkstra g s f) := by
  unfold WalkDijkstra
  split
  · intro v hv _; cases hv
  · exact dijkstraLoop_norollback f _ _ _

theorem WalkShortestPath_norollback (g : Graph T) (s d : T)
    (f : Vertex T → Decision E) :
    NoRollback f (WalkShortestPath g s d f) := by
  simp only [WalkShortestPath]
  split
  · split
    · split
      · intro v hv _; cases hv
      · split
        · intro v hv _; cases hv
        · intro v hv _; cases hv
        · next path hok =>
          refine spVisit_norollback f _ _ ?_
          intro v hv
          rcases spReconstruct_mem _ _ _ _ _ _ hok v hv with hl | hr
          · exact hl
          · cases hr
    · intro v hv _; cases hv
  · intro v hv _; cases hv

theorem WalkUnreachableVertices_norollback (g : Graph T) (s : T)
    (f : Vertex T → Decision E)
    (hnd : (g.vertices.map (·.1)).Nodup) :
    NoRollback f (WalkUnreachableVertices g s f) := by
  have hkeys : (WalkPreOrderDFS g s
      (fun _ => Decision.cont (E := E))).graph.vertices.map (·.1)
      = g.vertices.map (·.1) := by
    unfold WalkPreOrderDFS
    split
    · exact (preDfsLoop_keys _ _ _ _).trans
        ((updateVertexF_keys ..).trans (keys_map_snd g.vertices (fun v =>
          { v with color := Color.White, distanceFromSource := 0,
                   parent := none })))
    · rfl
  simp only [WalkUnreachableVertices]
  split
  · intro v hv _; cases hv
  · refine unreachableScan_norollback f _ _ ?_
    intro p hp
    exact alookup_eq_of_mem_nodup (hkeys ▸ hnd) hp

theorem WalkTopoOrder_norollback (g : Graph T)
    (f : Vertex T → Decision E) : NoRollback f (WalkTopoOrder g f) := by
  unfold WalkTopoOrder
  split
  · exact topoOuter_norollback f _ _
  · intro v hv _; cases hv

/-- **C4.** For every traversal entry point and every graph: if the
caller's visitor returns the stop sentinel on some visited vertex, that
vertex is the last one visited (no further vertices are visited) and the
traversal returns success; a non-sentinel error returned by the visitor is
propagated verbatim as the traversal's result, again with no further
visits.  And no attribute mutation already made is rolled back: the
record received by the stop or fail visit — carrying every colour,
distance and parent mutation the walk had applied to it — is stored
verbatim in the returned graph (`NoRollback`; for the unreachable-vertices
walker under the vertex-map well-formedness its Go map guarantees, namely
unique keys). -/
theorem claim_C4 (g : Graph T) (s d : T) (f : Vertex T → Decision E) :
    (StopFailSpec f (WalkBFS g s f) ∧
     StopFailSpec f (WalkPreOrderDFS g s f) ∧
     StopFailSpec f (WalkPostOrderDFS g s f) ∧
     StopFailSpec f (WalkDijkstra g s f) ∧
     StopFailSpec f (WalkShortestPath g s d f) ∧
     StopFailSpec f (WalkUnreachableVertices g s f) ∧
     StopFailSpec f (WalkTopoOrder g f)) ∧
    (NoRollback f (WalkBFS g s f) ∧
     NoRollback f (WalkPreOrderDFS g s f) ∧
     NoRollback f (WalkPostOrderDFS g s f) ∧
     NoRollback f (WalkDijkstra g s f) ∧
     NoRollback f (WalkShortestPath g s d f) ∧
     ((g.vertices.map (·.1)).Nodup →
       NoRollback f (WalkUnreachableVertices g s f)) ∧
     NoRollback f (WalkTopoOrder g f)) :=
  ⟨⟨StopFailSpec_of_visits (WalkBFS_visits g s f),
    StopFailSpec_of_visits (WalkPreOrderDFS_visits g s f),
    StopFailSpec_of_visits (WalkPostOrderDFS_visits g s f),
    StopFailSpec_of_visits (WalkDijkstra_visits g s f),
    StopFailSpec_of_visits (WalkShortestPath_visits g s d f),
    StopFailSpec_of_visits (WalkUnreachableVertices_visits g s f),
    StopFailSpec_of_visits (WalkTopoOrder_visits g f)⟩,
   ⟨WalkBFS_norollback g s f,
    WalkPreOrderDFS_norollback g s f,
    WalkPostOrderDFS_norollback g s f,
    WalkDijkstra_norollback g s f,
    WalkShortestPath_norollback g s d f,
    fun hnd => WalkUnreachableVertices_norollback g s f hnd,
    WalkTopoOrder_norollback g f⟩⟩

/-- A one-vertex graph and an always-stop visitor used as the C4 witness. -/
def exOne : Graph Nat := (AddVertex (New .KindUndirected) 1).1

def stopWalk : Vertex Nat → Decision Unit := fun _ => .stop

theorem claim_C4_witness :
    ((WalkBFS exOne 1 stopWalk).result = .ok () ∧
     (WalkBFS exOne 1 stopWalk).visited.getLast? =
       some ⟨1, .Gray, 0, none, [], ⟨0, 0⟩⟩) ∧
    (∃ k, GetVertex (WalkBFS exOne 1 stopWalk).graph k =
      some ⟨1, .Gray, 0, none, [], ⟨0, 0⟩⟩) ∧
    (∃ k, GetVertex (WalkUnreachableVertices exUnreach 1 stopWalk).graph k =
      some ⟨10, .White, 0, none, [], ⟨1, 1⟩⟩) := by
  refine ⟨?_, ?_, ?_⟩
  · have h := (claim_C4 (E := Unit) exOne 1 1 stopWalk).1.1.1
    have hv : (⟨1, .Gray, 0, none, [], ⟨0, 0⟩⟩ : Vertex Nat) ∈
        (WalkBFS exOne 1 stopWalk).visited := by decide
    exact h _ hv rfl
  · have h := (claim_C4 (E := Unit) exOne 1 1 stopWalk).2.1
    have hv : (⟨1, .Gray, 0, none, [], ⟨0, 0⟩⟩ : Vertex Nat) ∈
        (WalkBFS exOne 1 stopWalk).visited := by decide
    exact h _ hv (by decide)
  · have h := (claim_C4 (E := Unit) exUnreach 1 1 stopWalk).2.2.2.2.2.2.1
      (by decide)
    have hv : (⟨10, .White, 0, none, [], ⟨1, 1⟩⟩ : Vertex Nat) ∈
        (WalkUnreachableVertices exUnreach 1 stopWalk).visited := by decide
    exact h _ hv (by decide)

/-- **C5 counterexample.** The claim says a destination *not found in the
graph* also yields the "no path" error; in fact the code returns the
distinct "Destination vertex not found" error in that case (vertex 10 is
absent from the Dijkstra example graph). -/
theorem claim_C5_counterexample :
    (WalkShortestPath exDijkstra 1 10 contWalk).result =
      .error .destNotFound ∧
    (WalkShortestPath exDijkstra 1 10 contWalk).result ≠
      .error .noPathExists := by
  constructor
  · decide
  · decide

/-- **C5 (amended).** For every well-formed graph and source present in it:
if the destination is not found in the graph, `WalkShortestPath` fails
with the destination-vertex-not-found error (not the no-path error), with
no vertex visited and the graph unchanged; if the destination is present
but unreachable from the source (hence never settled), it fails with the
"no path" error, again visiting no vertex — never returning an empty or
partial result. -/
theorem claim_C5 (g : Graph T) (s d : T) (f : Vertex T → Decision E)
    (hwf : WFGraph g) (hs : VertexExists g s = true) :
    (VertexExists g d = false →
      WalkShortestPath g s d f = ⟨.error .destNotFound, [], g⟩) ∧
    (VertexExists g d = true → ¬ Reach g s d →
      (WalkShortestPath g s d f).result = .error .noPathExists ∧
      (WalkShortestPath g s d f).visited = []) := by
  constructor
  · intro hd
    simp [WalkShortestPath, hs, hd]
  · intro hd hnr
    have hds : d ≠ s := by
      intro h
      subst h
      exact hnr ⟨0, .refl⟩
    obtain ⟨hok, hst, hdi, hvc⟩ := WalkDijkstra_spec g s
      (fun v => if v.value = d then Decision.stop (E := E) else .cont) hwf hs
      (fun v e h => by
        simp only [] at h
        split at h <;> cases h)
    simp only [WalkShortestPath, hs, hd, if_true]
    simp only [hok]
    have hdsome : (GetVertex (WalkDijkstra g s
        (fun v => if v.value = d then Decision.stop (E := E) else .cont)).graph
        d).isSome = true := by
      rw [show GetVertex (WalkDijkstra g s (fun v =>
          if v.value = d then Decision.stop (E := E) else .cont)).graph d =
        alookup (WalkDijkstra g s (fun v =>
          if v.value = d then Decision.stop (E := E) else .cont)).graph.vertices d
        from rfl, alookup_isSome_iff, hst.1]
      exact (VertexExists_iff_mem g d).mp hd
    rcases Option.isSome_iff_exists.mp hdsome with ⟨v, hgv⟩
    have hval : v.value = d := hvc d v hgv
    have hpar : v.parent = none := by
      cases hp : v.parent with
      | none => rfl
      | some p => exact absurd ((hdi d v hgv).2 p hp) hnr
    have hcond : ¬ (v.value = s) := by
      rw [hval]
      exact hds
    simp only [spReconstruct, hgv, if_neg hcond, hpar]
    exact ⟨trivial, trivial⟩

theorem claim_C5_witness :
    WalkShortestPath exDijkstra 1 10 contWalk =
      ⟨.error .destNotFound, [], exDijkstra⟩ ∧
    (WalkShortestPath exUnreach 1 10 contWalk).result =
      .error .noPathExists := by
  constructor
  · exact (claim_C5 exDijkstra 1 10 contWalk (by decide) (by decide)).1
      (by decide)
  · refine ((claim_C5 exUnreach 1 10 contWalk (by decide) (by decide)).2
      (by decide) ?_).1
    exact not_reach_of_closed exUnreach 1 [1, 2, 3, 4, 5] (by decide)
      (by decide) 10 (by decide)

/-- **C10.** For every well-formed graph `g` and every vertex `s` of `g`,
`WalkShortestPath g s s f` (with a visitor that continues) succeeds and
invokes the caller's visitor exactly once, on the source vertex itself,
rather than failing with a no-path error: the source is the first vertex
Dijkstra settles (key 0 against `+∞` for all others), the internal walker
stops there, and the reconstructed path is the one-vertex path. -/
theorem claim_C10 (g : Graph T) (s : T) (f : Vertex T → Decision E)
    (hwf : WFGraph g) (hs : VertexExists g s = true)
    (hf : ∀ v, f v = .cont) :
    (WalkShortestPath g s s f).result = .ok () ∧
    (WalkShortestPath g s s f).visited.map (·.value) = [s] := by
  obtain ⟨hok, vrec, hgv, hval⟩ := WalkDijkstra_self_stop (E := E) g s hwf hs
  simp only [WalkShortestPath, hs, if_true]
  simp only [hok]
  simp only [spReconstruct, hgv, if_pos hval]
  simp only [spVisit, hf vrec]
  exact ⟨trivial, by simp [hval]⟩

theorem claim_C10_witness :
    (WalkShortestPath exOne 1 1 contWalk).result = .ok () ∧
    (WalkShortestPath exOne 1 1 contWalk).visited.map (·.value) = [1] :=
  claim_C10 exOne 1 contWalk (by decide) (by decide) (fun _ => rfl)

/-- **C9.** For every well-formed heap and graph, `Clone` returns a graph
with equal kind and adjacency lists, equal observable vertex content
(every field, attribute bags included, with parent pointers read back as
the parent's value) and equal observable edge content, leaving the
original's views untouched; the original's objects all live at addresses
below `next` while the clone's are fresh (`≥ next`); every cloned
vertex's parent pointer targets an address of the clone's own vertex map,
never one of the original's; and mutating an attribute bag or parent
pointer through either graph's pointers leaves the other graph's view
unchanged. -/
theorem claim_C9 (σ : Store T) (g : HGraph T) (hwf : HWF σ g) :
    (Clone σ g).2.kind = g.kind ∧
    (Clone σ g).2.adjacencyLists = g.adjacencyLists ∧
    hViewV (Clone σ g).1 (Clone σ g).2 = hViewV σ g ∧
    hViewE (Clone σ g).1 (Clone σ g).2 = hViewE σ g ∧
    hViewV (Clone σ g).1 g = hViewV σ g ∧
    hViewE (Clone σ g).1 g = hViewE σ g ∧
    (∀ a ∈ hVertexAddrs g, a < σ.next) ∧
    (∀ a ∈ hVertexAddrs (Clone σ g).2, σ.next ≤ a) ∧
    (∀ ka ∈ (Clone σ g).2.vertices, ∀ o,
      alookup (Clone σ g).1.vheap ka.2 = some o →
      ∀ pa, o.parent = some pa → pa ∈ hVertexAddrs (Clone σ g).2) ∧
    (∀ k key val,
      hViewV (hSetVertexAttr (Clone σ g).1 (Clone σ g).2 k key val) g
        = hViewV σ g ∧
      hViewV (hSetVertexAttr (Clone σ g).1 g k key val) (Clone σ g).2
        = hViewV (Clone σ g).1 (Clone σ g).2) ∧
    (∀ k p,
      hViewV (hSetParent (Clone σ g).1 (Clone σ g).2 k p) g = hViewV σ g ∧
      hViewV (hSetParent (Clone σ g).1 g k p) (Clone σ g).2
        = hViewV (Clone σ g).1 (Clone σ g).2) := by
  obtain ⟨h1, h2, h3, h4⟩ := HWF_spec σ g hwf
  have hagV : ∀ a o, alookup σ.vheap a = some o →
      alookup (Clone σ g).1.vheap a = some o := by
    intro a o h
    show alookup (σ.vheap ++
      cloneVObjs σ (cloneNewVertices σ.next g.vertices) σ.next g.vertices)
      a = some o
    exact alookup_append_some _ _ _ h
  have hagE : ∀ a o, alookup σ.eheap a = some o →
      alookup (Clone σ g).1.eheap a = some o := by
    intro a o h
    show alookup (σ.eheap ++
      cloneEObjs σ (σ.next + g.vertices.length) g.edges) a = some o
    exact alookup_append_some _ _ _ h
  have h3' : ∀ ka ∈ g.vertices, ∃ o, alookup σ.vheap ka.2 = some o ∧
      ∀ pa, o.parent = some pa → ∃ po, alookup σ.vheap pa = some po := by
    intro ka hka
    obtain ⟨o, ho, _, hpar⟩ := h3 ka hka
    exact ⟨o, ho, fun pa hpa => (hpar pa hpa).imp (fun po h => h.1)⟩
  have c5 : hViewV (Clone σ g).1 g = hViewV σ g :=
    hViewV_agree σ (Clone σ g).1 g hagV h3'
  have c6 : hViewE (Clone σ g).1 g = hViewE σ g :=
    hViewE_agree σ (Clone σ g).1 g hagE h4
  have c3 : hViewV (Clone σ g).1 (Clone σ g).2 = hViewV σ g :=
    clone_viewV_from σ g h1 h3 g.vertices 0 (fun i => by simp)
  have c4 : hViewE (Clone σ g).1 (Clone σ g).2 = hViewE σ g :=
    clone_viewE_from σ g h2 h4 g.edges 0 (fun i => by simp)
  have hlowV : ∀ ka ∈ g.vertices, ka.2 < σ.next := by
    intro ka hka
    obtain ⟨o, halo, _, _⟩ := h3 ka hka
    exact h1 (ka.2, o) (alookup_mem _ _ halo)
  have hlowP : ∀ ka ∈ g.vertices, ∀ o,
      alookup (Clone σ g).1.vheap ka.2 = some o →
      ∀ pa, o.parent = some pa → pa < σ.next := by
    intro ka hka o ho pa hp
    obtain ⟨o1, halo1, _, hpar1⟩ := h3 ka hka
    have h2' := hagV ka.2 o1 halo1
    rw [h2'] at ho
    injection ho with ho'
    subst ho'
    obtain ⟨po, hpo, _⟩ := hpar1 pa hp
    exact h1 (pa, po) (alookup_mem _ _ hpo)
  have hhighV : ∀ ka ∈ (Clone σ g).2.vertices, σ.next ≤ ka.2 := by
    intro ka hka
    obtain ⟨i, b, _, he⟩ := cloneNewVerticesFrom_mem σ.next g.vertices 0 ka hka
    omega
  have c9 := clone_relink σ g h1 h3
  have hhighP : ∀ ka ∈ (Clone σ g).2.vertices, ∀ o,
      alookup (Clone σ g).1.vheap ka.2 = some o →
      ∀ pa, o.parent = some pa → σ.next ≤ pa := by
    intro ka hka o ho pa hp
    obtain ⟨kb, hkb, hkb2⟩ := List.mem_map.mp (c9 ka hka o ho pa hp)
    exact hkb2 ▸ hhighV kb hkb
  have hmutClone : ∀ (a : Nat) (f : HVertex T → HVertex T), σ.next ≤ a →
      hViewV { (Clone σ g).1 with
        vheap := amodify (Clone σ g).1.vheap a f } g = hViewV σ g := by
    intro a f ha
    rw [hViewV_amodify_ne (Clone σ g).1 g a f
      (fun ka hka => by have := hlowV ka hka; omega)
      (fun ka hka o ho pa hp => by have := hlowP ka hka o ho pa hp; omega)]
    exact c5
  have hmutOrig : ∀ (a : Nat) (f : HVertex T → HVertex T), a < σ.next →
      hViewV { (Clone σ g).1 with
          vheap := amodify (Clone σ g).1.vheap a f } (Clone σ g).2
        = hViewV (Clone σ g).1 (Clone σ g).2 := by
    intro a f ha
    exact hViewV_amodify_ne (Clone σ g).1 (Clone σ g).2 a f
      (fun ka hka => by have := hhighV ka hka; omega)
      (fun ka hka o ho pa hp => by have := hhighP ka hka o ho pa hp; omega)
  refine ⟨rfl, ?_, c3, c4, c5, c6, ?_, ?_, c9, ?_, ?_⟩
  · show g.adjacencyLists.map (fun p => (p.1, p.2)) = g.adjacencyLists
    induction g.adjacencyLists with
    | nil => rfl
    | cons x xs ih => rw [List.map_cons, ih]
  · intro a ha
    obtain ⟨ka, hka, hka2⟩ := List.mem_map.mp ha
    exact hka2 ▸ hlowV ka hka
  · intro a ha
    obtain ⟨ka, hka, hka2⟩ := List.mem_map.mp ha
    exact hka2 ▸ hhighV ka hka
  · intro k key val
    constructor
    · cases hk : alookup (Clone σ g).2.vertices k with
      | none => simp only [hSetVertexAttr, hk]; exact c5
      | some a =>
        have ha : σ.next ≤ a := by
          obtain ⟨i, b, _, he⟩ :=
            alookup_cloneNewVerticesFrom σ.next g.vertices 0 k a hk
          omega
        simp only [hSetVertexAttr, hk]
        exact hmutClone a _ ha
    · cases hk : alookup g.vertices k with
      | none => simp only [hSetVertexAttr, hk]
      | some a =>
        have ha : a < σ.next := hlowV (k, a) (alookup_mem _ _ hk)
        simp only [hSetVertexAttr, hk]
        exact hmutOrig a _ ha
  · intro k p
    constructor
    · cases hk : alookup (Clone σ g).2.vertices k with
      | none => simp only [hSetParent, hk]; exact c5
      | some a =>
        have ha : σ.next ≤ a := by
          obtain ⟨i, b, _, he⟩ :=
            alookup_cloneNewVerticesFrom σ.next g.vertices 0 k a hk
          omega
        simp only [hSetParent, hk]
        exact hmutClone a _ ha
    · cases hk : alookup g.vertices k with
      | none => simp only [hSetParent, hk]
      | some a =>
        have ha : a < σ.next := hlowV (k, a) (alookup_mem _ _ hk)
        simp only [hSetParent, hk]
        exact hmutOrig a _ ha

theorem claim_C9_witness :
    HWF exStore exHG ∧
    hViewV (Clone exStore exHG).1 (Clone exStore exHG).2 =
      hViewV exStore exHG ∧
    hViewE (Clone exStore exHG).1 (Clone exStore exHG).2 =
      hViewE exStore exHG :=
  ⟨by decide, (claim_C9 exStore exHG (by decide)).2.2.1,
    (claim_C9 exStore exHG (by decide)).2.2.2.1⟩

/-- **C8.** After `WalkBFS` from a source vertex of a well-formed graph
with a visitor that always continues, every vertex reachable from the
source (along adjacency lists) holds a `DistanceFromSource` equal to the
minimum number of edges on any path from the source to it. -/
theorem claim_C8 (g : Graph T) (s : T) (f : Vertex T → Decision E)
    (hwf : WFGraph g) (hs : VertexExists g s = true)
    (hf : ∀ v, f v = .cont) (k : T) (hreach : Reach g s k) :
    ∃ v, ∃ n : ℕ, GetVertex (WalkBFS g s f).graph k = some v ∧
      v.distanceFromSource = ((n : ℚ) : EDist) ∧ MinHop g s k n := by
  have hinit := BFSInv.init g s hwf hs
  have hadjkeys : ∀ p ∈ g.adjacencyLists, ∀ b ∈ p.2,
      b ∈ g.vertices.map (·.1) := by
    intro p hp b hb
    exact (VertexExists_iff_mem g b).mp (hwf.2.2.1 p hp b hb)
  have hcount : countWhite (Paint (ResetVertexAttributes g) s .Gray)
      + ([s] : List T).length
      ≤ (Paint (ResetVertexAttributes g) s .Gray).vertices.length + 1 := by
    have h1 := List.countP_le_length
      (fun kv : T × Vertex T => decide (kv.2.color = .White))
      (l := (Paint (ResetVertexAttributes g) s .Gray).vertices)
    simp only [List.length_cons, List.length_nil]
    exact Nat.add_le_add h1 (le_refl 1)
  have hmain := bfsLoop_correct g s f hf hadjkeys
    ((Paint (ResetVertexAttributes g) s .Gray).vertices.length + 1)
    (Paint (ResetVertexAttributes g) s .Gray) [s] 0 [s] []
    (by simp) hinit hcount
  rw [show WalkBFS g s f = bfsLoop f
      ((Paint (ResetVertexAttributes g) s .Gray).vertices.length + 1)
      (Paint (ResetVertexAttributes g) s .Gray) [s] from by
    simp [WalkBFS, hs]]
  exact hmain.2 k hreach

theorem claim_C8_witness :
    ∃ v, ∃ n : ℕ,
      GetVertex (WalkBFS exDijkstra 1 contWalk).graph 4 = some v ∧
      v.distanceFromSource = ((n : ℚ) : EDist) ∧ MinHop exDijkstra 1 4 n :=
  by
  have h12 : Adjacent exDijkstra 1 2 :=
    (by decide : 2 ∈ GetNeighbours exDijkstra 1)
  have h24 : Adjacent exDijkstra 2 4 :=
    (by decide : 4 ∈ GetNeighbours exDijkstra 2)
  exact claim_C8 exDijkstra 1 contWalk (by decide) (by decide)
    (fun v => rfl) 4 ⟨2, .step (.step .refl h12) h24⟩

end Claims

end GoGraph
